import Mathlib

/-!
# Verification of `backend/asio/asio_processor.cpp`

The development has two layers.

* An executable model of the C++ type `float` (IEEE 754 binary32, round to
  nearest, ties to even).  Every finite value of the format is an integer
  multiple of `2^-149`, so a finite float is stored as a sign and a natural
  number of such units.  An operation computes the exact result with integer
  arithmetic and rounds it once, as the standard prescribes.  Each C++
  operation on `float` operands is one such operation: expressions are
  evaluated in `float` precision and a product followed by a sum is not fused.
* A shallow embedding of the static data members of `ASIOHandler` and of the
  functions `bufferSwitchStatic`, `Initialize`, `Start`, `Stop`,
  `SetInversionGain`, `GetInputLevel` and `GetFFTData`.

Conventions of the embedding.

* A `std::vector<float>` is a `List F32`.  An access outside a vector is
  undefined behaviour; a function that can perform one returns an `Option`.
* Values of type `size_t` and `uint32_t` are natural numbers; the `int` counter
  of `GetInputLevel` wraps modulo `2^32`.
* The mutex and the condition variable have no effect on the values computed
  by a single call and are not represented in the functions that give the
  result of a whole call.  The section on the execution in steps represents
  the mutex and runs `bufferSwitchStatic`, `GetInputLevel` and `GetFFTData` one
  loop iteration at a time; each of them is proved to compute the result of
  the whole-call function.
-/

set_option exponentiation.threshold 1024
set_option maxRecDepth 8192

/-- A value of the C++ type `float`.  `fin neg mag` is the finite number
`(-1)^neg * mag * 2^-149`; both signed zeros are present.  The floats are the
terms accepted by `isBinary32` (a magnitude of at most 24 significant bits below
`2^128`); the operations below return such terms, and the statements proved for
all terms hold in particular for them. -/
inductive F32 where
  | nan : F32
  | inf (neg : Bool) : F32
  | fin (neg : Bool) (mag : Nat) : F32
deriving DecidableEq, Repr

namespace F32

/-! ## Rounding -/

/-- Auxiliary loop of `ilog2`. -/
def log2Fuel : Nat → Nat → Nat
  | 0, _ => 0
  | fuel + 1, n => if n < 2 then 0 else log2Fuel fuel (n / 2) + 1

/-- Position of the leading bit: `ilog2 n = floor (log2 n)`, and `ilog2 0 = 0`. -/
def ilog2 (n : Nat) : Nat := log2Fuel n n

/-- Exponent of the spacing between consecutive floats around a value whose
integer part (in units of `2^-149`) is `f`: the significand has 24 bits, and
below `2^24` units (subnormals and the first normal binade) the spacing is one
unit. -/
def ulpExp (f : Nat) : Nat := ilog2 f - 23

/-- Nearest integer to `N / D`, ties to even. -/
def rne (N D : Nat) : Nat :=
  let q := N / D
  let r := N % D
  if 2 * r < D then q
  else if D < 2 * r then q + 1
  else if q % 2 = 0 then q else q + 1

/-- First magnitude (in units) that is too large for a finite float: `2^128`. -/
def overflowMag : Nat := 2 ^ 277

/-- Round the non-negative rational `N / D` (in units of `2^-149`) to the
nearest float magnitude; `none` is overflow to infinity. -/
def roundUnits (N D : Nat) : Option Nat :=
  let k := ulpExp (N / D)
  let m := rne N (D * 2 ^ k) * 2 ^ k
  if m < overflowMag then some m else none

/-- Auxiliary loop of `isqrt`: the bits of the root are fixed from the top. -/
def isqrtLoop (n : Nat) : Nat → Nat → Nat
  | 0, r => r
  | b + 1, r =>
    if (r + 2 ^ b) * (r + 2 ^ b) ≤ n then isqrtLoop n b (r + 2 ^ b) else isqrtLoop n b r

/-- Integer square root, `floor (sqrt n)`. -/
def isqrt (n : Nat) : Nat := isqrtLoop n (ilog2 n / 2 + 1) 0

/-- Round `sqrt M` (in units of `2^-149`) to the nearest float magnitude.  The
candidate `q * 2^k` is compared with the midpoint `(q + 1/2) * 2^k` through the
squares. -/
def roundSqrt (M : Nat) : Option Nat :=
  let k := ulpExp (isqrt M)
  let q := isqrt (M / 4 ^ k)
  let c := 4 ^ k * ((2 * q + 1) * (2 * q + 1))
  let n := if 4 * M < c then q else if c < 4 * M then q + 1 else if q % 2 = 0 then q else q + 1
  let m := n * 2 ^ k
  if m < overflowMag then some m else none

/-- Attach a sign to a rounded magnitude. -/
def ofMag (neg : Bool) : Option Nat → F32
  | some m => fin neg m
  | none => inf neg

/-! ## Constants and conversions -/

/-- The literal `0.0f`. -/
def zero : F32 := fin false 0

/-- The literal `1.0f`. -/
def one : F32 := fin false (2 ^ 149)

/-- The literal `2.0f`. -/
def two : F32 := fin false (2 ^ 150)

/-- The literal `0.5f`. -/
def half : F32 := fin false (2 ^ 148)

/-- The literal `100.0f`. -/
def hundred : F32 := fin false (100 * 2 ^ 149)

/-- A decimal literal `n / d` with the suffix `f`: the nearest float. -/
def ofRatio (n d : Nat) : F32 := ofMag false (roundUnits (n * 2 ^ 149) d)

/-- The literal `1.414f`. -/
def c1_414 : F32 := ofRatio 1414 1000

/-- Conversion of a non-negative integer (`int`, `uint32_t`, `size_t`) to `float`. -/
def ofNat (n : Nat) : F32 := ofMag false (roundUnits (n * 2 ^ 149) 1)

/-! ## Arithmetic -/

/-- Unary minus. -/
def neg : F32 → F32
  | nan => nan
  | inf s => inf (!s)
  | fin s a => fin (!s) a

/-- Addition. -/
def add : F32 → F32 → F32
  | nan, _ => nan
  | _, nan => nan
  | inf s, inf t => if s = t then inf s else nan
  | inf s, fin _ _ => inf s
  | fin _ _, inf t => inf t
  | fin s a, fin t b =>
    if s = t then ofMag s (roundUnits (a + b) 1)
    else if a = b then fin false 0
    else if b < a then ofMag s (roundUnits (a - b) 1)
    else ofMag t (roundUnits (b - a) 1)

/-- Subtraction. -/
def sub (x y : F32) : F32 := add x (neg y)

/-- Multiplication. -/
def mul : F32 → F32 → F32
  | nan, _ => nan
  | _, nan => nan
  | inf s, inf t => inf (xor s t)
  | inf s, fin t b => if b = 0 then nan else inf (xor s t)
  | fin s a, inf t => if a = 0 then nan else inf (xor s t)
  | fin s a, fin t b => ofMag (xor s t) (roundUnits (a * b) (2 ^ 149))

/-- Division. -/
def div : F32 → F32 → F32
  | nan, _ => nan
  | _, nan => nan
  | inf _, inf _ => nan
  | inf s, fin t _ => inf (xor s t)
  | fin s _, inf t => fin (xor s t) 0
  | fin s a, fin t b =>
    if b = 0 then (if a = 0 then nan else inf (xor s t))
    else ofMag (xor s t) (roundUnits (a * 2 ^ 149) b)

/-- Square root (`std::sqrt` on `float`). -/
def sqrt : F32 → F32
  | nan => nan
  | inf s => if s then nan else inf false
  | fin s a =>
    if a = 0 then fin s 0
    else if s then nan
    else ofMag false (roundSqrt (a * 2 ^ 149))

/-- The comparison `x < y`. -/
def lt : F32 → F32 → Bool
  | nan, _ => false
  | _, nan => false
  | inf s, inf t => s && !t
  | inf s, fin _ _ => s
  | fin _ _, inf t => !t
  | fin false a, fin false b => decide (a < b)
  | fin false _, fin true _ => false
  | fin true a, fin false b => decide (0 < a) || decide (0 < b)
  | fin true a, fin true b => decide (b < a)

/-- The comparison `x <= y`. -/
def le : F32 → F32 → Bool
  | nan, _ => false
  | _, nan => false
  | inf s, inf t => s || !t
  | inf s, fin _ _ => s
  | fin _ _, inf t => !t
  | fin false a, fin false b => decide (a ≤ b)
  | fin false a, fin true b => decide (a = 0) && decide (b = 0)
  | fin true _, fin false _ => true
  | fin true a, fin true b => decide (b ≤ a)

/-- The function `std::isnan`. -/
def isNan : F32 → Bool
  | nan => true
  | _ => false

/-- The function `std::isinf`. -/
def isInf : F32 → Bool
  | inf _ => true
  | _ => false

/-- A sample is finite when it is neither NaN nor infinite. -/
def isFinite (x : F32) : Bool := !isNan x && !isInf x

/-- The function `std::min(a, b)`, that is `(b < a) ? b : a`. -/
def min (a b : F32) : F32 := if lt b a then b else a

/-- The function `std::max(a, b)`, that is `(a < b) ? b : a`. -/
def max (a b : F32) : F32 := if lt a b then b else a

/-- A magnitude is that of a float when it has at most 24 significant bits and
is below the overflow threshold. -/
def isRepMag (m : Nat) : Bool := decide (m % 2 ^ ulpExp m = 0) && decide (m < overflowMag)

/-- The values of the type `float` among the terms of `F32`. -/
def isBinary32 : F32 → Bool
  | fin _ m => isRepMag m
  | _ => true

end F32

open F32

/-! ## The static state of `ASIOHandler` -/

/-- The structure `ASIOHandler::AudioBuffer`: two `std::vector<float>` and the
atomic `ready` flag. -/
structure AudioBuffer where
  input : List F32
  output : List F32
  ready : Bool
deriving DecidableEq, Repr

/-- The static data members of `ASIOHandler` that the modelled operations read
or write.  `currentBuffer` is the pointer `currentBuffer`, which only ever holds
`&buffers[0]` or `&buffers[1]`; it is stored as the index.  `bufferSize` is a
`long` that the code only ever sets to the preferred size 1024. -/
structure State where
  buffers0 : AudioBuffer
  buffers1 : AudioBuffer
  currentBuffer : Fin 2
  gain : F32
  processing : Bool
  bufferSize : Nat
deriving DecidableEq, Repr

namespace State

/-- The element `buffers[k]`. -/
def buffer (s : State) (k : Fin 2) : AudioBuffer :=
  if k = 0 then s.buffers0 else s.buffers1

/-- The state after an assignment to `buffers[k]`. -/
def setBuffer (s : State) (k : Fin 2) (b : AudioBuffer) : State :=
  if k = 0 then { s with buffers0 := b } else { s with buffers1 := b }

/-- The buffer `*currentBuffer`. -/
def current (s : State) : AudioBuffer := s.buffer s.currentBuffer

end State

/-- The static initialisers: empty vectors, `currentBuffer = &buffers[0]`,
`gain = 1.0f`, `processing{false}`, `bufferSize = 1024`. -/
def initialState : State where
  buffers0 := { input := [], output := [], ready := false }
  buffers1 := { input := [], output := [], ready := false }
  currentBuffer := 0
  gain := one
  processing := false
  bufferSize := 1024

/-! ## The realtime callback -/

/-- The loop `for (int i = 0; i < bufferSize; i++) output[i] = input[i] * -gain;`
after `n` iterations, started with the output vector `out`.  An access outside
a vector is undefined behaviour and yields `none`. -/
def transformLoop (gain : F32) (input : List F32) : Nat → List F32 → Option (List F32)
  | 0, out => some out
  | n + 1, out =>
    match transformLoop gain input n out with
    | none => none
    | some out1 =>
      match input[n]? with
      | none => none
      | some x => if n < out1.length then some (out1.set n (mul x (neg gain))) else none

/-- The callback `ASIOHandler::bufferSwitchStatic(index, processNow)`.  The
argument `processNow` is not used by the code.  `none` is undefined behaviour
(an index outside `buffers`, or a vector shorter than `bufferSize`). -/
def bufferSwitchStatic (s : State) (index : Nat) : Option State :=
  if s.processing then
    if h : index < 2 then
      let k : Fin 2 := ⟨index, h⟩
      let cur := s.buffer k
      match transformLoop s.gain cur.input s.bufferSize cur.output with
      | none => none
      | some out =>
        some (State.setBuffer { s with currentBuffer := k } k
          { cur with output := out, ready := true })
    else none
  else some s

/-- The member function `ASIOHandler::bufferSwitch(index, processNow)`: the same
loop on `*currentBuffer`, without the test of `processing` and without
selecting a slot (neither argument is used). -/
def bufferSwitch (s : State) : Option State :=
  let cur := s.current
  match transformLoop s.gain cur.input s.bufferSize cur.output with
  | none => none
  | some out => some (State.setBuffer s s.currentBuffer { cur with output := out, ready := true })

/-! ## The JavaScript entry points -/

/-- An argument received from JavaScript.  For a number the payload is its
value as a `float`: both readers of a numeric argument (`DoubleValue()`
assigned to the `float` member `gain`, and `FloatValue()`) narrow the double
to `float`, and every `float` is the narrowing of some double. -/
inductive JsValue where
  | number (value : F32) : JsValue
  | other : JsValue
deriving DecidableEq, Repr

/-- The object returned by `Start`. -/
structure StartResult where
  success : Bool
  gain : F32
  simulated : Bool
deriving DecidableEq, Repr

/-- The function `ASIOHandler::Start` (the branch compiled without
`ASIO_INCLUDED`; with it the stubbed driver calls all return `ASE_OK` and the
state is changed in the same way). -/
def Start (s : State) (info : List JsValue) : State × StartResult :=
  let gain := match info with
    | JsValue.number value :: _ => value
    | _ => one
  ({ s with gain := gain, processing := true },
   { success := true, gain := gain, simulated := true })

/-- The function `ASIOHandler::Stop`; the returned object is `{success: true}`. -/
def Stop (s : State) : State × Bool :=
  ({ s with processing := false }, true)

/-- The outcome of `SetInversionGain`: a thrown `TypeError` (the function then
returns `env.Null()`), or the object `{success, gain}`. -/
inductive GainResult where
  | typeError : GainResult
  | ok (success : Bool) (gain : F32) : GainResult
deriving DecidableEq, Repr

/-- The function `ASIOHandler::SetInversionGain`. -/
def SetInversionGain (s : State) (info : List JsValue) : State × GainResult :=
  match info with
  | JsValue.number value :: _ =>
    let newGain := F32.max zero (F32.min value two)
    ({ s with gain := newGain }, GainResult.ok true newGain)
  | _ => (s, GainResult.typeError)

/-! ## The level meter -/

/-- Two's complement wrap-around of the 32-bit `int` counter. -/
def wrapInt32 (z : Int) : Int := (z + 2 ^ 31) % 2 ^ 32 - 2 ^ 31

/-- Conversion of an `int` to `float`. -/
def ofInt (z : Int) : F32 :=
  if z < 0 then neg (ofNat z.natAbs) else ofNat z.natAbs

/-- One iteration of the loop of `GetInputLevel` on the pair
`(rms, validSamples)`. -/
def levelStep (acc : F32 × Int) (sample : F32) : F32 × Int :=
  if !isNan sample && !isInf sample then
    (add acc.1 (mul sample sample), wrapInt32 (acc.2 + 1))
  else acc

/-- The part of `GetInputLevel` executed when `processing` is set, as a
function of the vector `currentBuffer->input`. -/
def inputLevel (input : List F32) : F32 :=
  let acc := input.foldl levelStep (zero, 0)
  let rms := if 0 < acc.2 then sqrt (div acc.1 (ofInt acc.2)) else zero
  let normalizedRMS := F32.min (mul rms c1_414) one
  mul normalizedRMS hundred

/-- The function `ASIOHandler::GetInputLevel`. -/
def GetInputLevel (s : State) : F32 :=
  if !s.processing then zero else inputLevel s.current.input

/-! ## The band energies -/

/-- The constant `numBands`. -/
def numBands : Nat := 32

/-- The loop `for (i = startIdx; i < endIdx; i++) energy += input[i] * input[i];`
started with `energy = 0.0f`.  The code keeps `endIdx` within the vector. -/
def sumSquares (input : List F32) (startIdx endIdx : Nat) : F32 :=
  ((input.drop startIdx).take (endIdx - startIdx)).foldl (fun energy x => add energy (mul x x)) zero

/-- The weight `1.0f - (0.5f * band / numBands)`. -/
def frequencyWeight (band : Nat) : F32 :=
  sub one (div (mul half (ofNat band)) (ofNat numBands))

/-- The body of the loop over `band` in `GetFFTData`: the value stored in
`bandEnergies[band]`. -/
def bandEnergy (input : List F32) (band : Nat) : F32 :=
  let samplesPerBand := input.length / numBands
  let startIdx := band * samplesPerBand
  let endIdx := Nat.min ((band + 1) * samplesPerBand) input.length
  let energy := sumSquares input startIdx endIdx
  let energy := if startIdx < endIdx then div energy (ofNat (endIdx - startIdx)) else energy
  mul energy (frequencyWeight band)

/-- The vector `bandEnergies` after the loop over the bands. -/
def bandEnergies (input : List F32) : List F32 :=
  (List.range numBands).map (bandEnergy input)

/-- The loop `for (energy : bandEnergies) maxEnergy = std::max(maxEnergy, energy);`
started with `maxEnergy = 0.0f`. -/
def maxEnergy (energies : List F32) : F32 :=
  energies.foldl (fun m energy => F32.max m energy) zero

/-- The part of `GetFFTData` executed when `processing` is set, as a function
of the vector `currentBuffer->input`. -/
def fftData (input : List F32) : List F32 :=
  let energies := bandEnergies input
  let mx := maxEnergy energies
  if lt zero mx then energies.map (fun e => mul (sqrt (div e mx)) hundred)
  else List.replicate numBands zero

/-- The function `ASIOHandler::GetFFTData`. -/
def GetFFTData (s : State) : List F32 :=
  if !s.processing then List.replicate numBands zero else fftData s.current.input

/-! ## Predicates used in the statements -/

/-- The value is not NaN and its sign bit is clear: `+0`, a positive finite
value, or `+infinity`. -/
def F32.NonNeg (x : F32) : Prop := x = F32.inf false ∨ ∃ a, x = F32.fin false a

/-- The comparison `x == y` on `float`. -/
def F32.eq (x y : F32) : Bool := F32.le x y && F32.le y x

/-- A sequence of callbacks, one for each index of the list. -/
def runCallbacks (s : State) : List Nat → Option State
  | [] => some s
  | index :: rest =>
    match bufferSwitchStatic s index with
    | none => none
    | some s1 => runCallbacks s1 rest

/-! ## The wording of the level and band formulas -/

/-- The finite samples of a frame: NaN and infinite samples are left out. -/
def specFiniteSamples (x : List F32) : List F32 := x.filter isFinite

/-- The sum `S` of the squares of the finite samples. -/
def specSumSquares (x : List F32) : F32 :=
  ((specFiniteSamples x).map (fun v => mul v v)).foldl add zero

/-- The value `rms = sqrt (S / n)` with `n` the number of finite samples, and
`rms = 0` when `n = 0`. -/
def specRms (x : List F32) : F32 :=
  if (specFiniteSamples x).length = 0 then zero
  else sqrt (div (specSumSquares x) (ofNat (specFiniteSamples x).length))

/-- The level `100 * min (c * rms, 1.0)` for a scaling constant `c`. -/
def specLevel (c : F32) (x : List F32) : F32 :=
  mul hundred (F32.min (mul c (specRms x)) one)

/-- The samples `x[i]` for `i` in `[lo, hi)`. -/
def specBandSamples (x : List F32) (lo hi : Nat) : List F32 :=
  (List.range' lo (hi - lo)).map (fun i => x.getD i zero)

/-- The mean of `x[i]^2` over `i` in `[lo, hi)`. -/
def specMeanSquare (x : List F32) (lo hi : Nat) : F32 :=
  div (((specBandSamples x lo hi).map (fun v => mul v v)).foldl add zero) (ofNat (hi - lo))

/-- The weighted energy `E_b = (1 - 0.5 * b / 32) * mean` of band `b` over the
range `[b * s, min ((b + 1) * s, N))` with `s = floor (N / 32)`, and `0` for an
empty range. -/
def specBandEnergy (x : List F32) (b : Nat) : F32 :=
  let s := x.length / 32
  let lo := b * s
  let hi := Nat.min ((b + 1) * s) x.length
  if hi ≤ lo then zero
  else mul (sub one (div (mul half (ofNat b)) (ofNat 32))) (specMeanSquare x lo hi)

/-- The 32 weighted energies `E_0, ..., E_31`. -/
def specBandEnergies (x : List F32) : List F32 :=
  (List.range 32).map (specBandEnergy x)

/-- The value `M` is a maximum of the list `E`. -/
def IsMaxOf (M : F32) (E : List F32) : Prop := M ∈ E ∧ ∀ e ∈ E, le e M = true

/-- The display values `100 * sqrt (E_b / M)` if `M > 0`, and 32 zeros otherwise. -/
def specFFT (E : List F32) (M : F32) : List F32 :=
  if lt zero M then E.map (fun e => mul hundred (sqrt (div e M)))
  else List.replicate 32 zero

/-! ## Concrete states used to instantiate the statements -/

/-- A frame of four samples: `0.5, -1.0, 2.0, 0.0`. -/
def demoFrame : List F32 := [half, neg one, two, zero]

/-- A running state with `bufferSize = 4`, gain `2.0`, slot 0 holding
`demoFrame` and slot 1 holding four samples `1.0`; the outputs are zero. -/
def demoState : State where
  buffers0 := { input := demoFrame, output := List.replicate 4 zero, ready := false }
  buffers1 := { input := List.replicate 4 one, output := List.replicate 4 zero, ready := false }
  currentBuffer := 0
  gain := two
  processing := true
  bufferSize := 4

/-- A running state whose current slot holds the one-sample frame `0.5`. -/
def levelState : State :=
  { initialState with
    buffers0 := { input := [half], output := [zero], ready := false }
    processing := true
    bufferSize := 1 }

/-- A frame of 32 finite samples: `2^64` followed by 31 zeros. -/
def loudFrame : List F32 := fin false (2 ^ 213) :: List.replicate 31 zero

/-- A running state whose current slot holds `loudFrame`. -/
def loudState : State :=
  { initialState with
    buffers0 := { input := loudFrame, output := List.replicate 32 zero, ready := false }
    processing := true
    bufferSize := 32 }

/-- A frame of 64 finite samples: 32 samples `0.5` followed by 32 samples `1.0`. -/
def toneFrame : List F32 := List.replicate 32 half ++ List.replicate 32 one

/-- A running state whose current slot holds `toneFrame`. -/
def toneState : State :=
  { initialState with
    buffers0 := { input := toneFrame, output := List.replicate 64 zero, ready := false }
    processing := true
    bufferSize := 64 }

/-- A frame of five samples that mixes finite and non-finite values:
`0.5, NaN, +infinity, -1.0, -infinity`. -/
def mixedFrame : List F32 := [half, nan, inf false, neg one, inf true]

/-- A running state whose current slot (slot 1) holds `mixedFrame`. -/
def mixedState : State :=
  { initialState with
    buffers1 := { input := mixedFrame, output := List.replicate 5 zero, ready := true }
    currentBuffer := 1
    processing := true
    bufferSize := 5 }

/-! ## Evaluation with a faster logarithm

The functions below are the float operations with the logarithm as a parameter.
With `ilog2` they are the operations above; with `ilog2Fast`, which is proved
equal to `ilog2`, closed terms are evaluated in far fewer steps. -/

namespace F32

/-- Binary search for the leading bit: for each shift `s` of the list in turn,
if `2^s <= n` then `n` is divided by `2^s` and `s` is added to the result. -/
def log2Search : List Nat → Nat → Nat → Nat
  | [], _, r => r
  | s :: ss, n, r =>
    if 2 ^ s ≤ n then log2Search ss (n / 2 ^ s) (r + s) else log2Search ss n r

/-- The shifts of the binary search: every shift is at most one more than the
sum of the following ones. -/
def shiftsOk : List Nat → Bool
  | [] => true
  | s :: ss => decide (s ≤ ss.sum + 1) && shiftsOk ss

/-- The function `ilog2`, computed by binary search below `2^1024`. -/
def ilog2Fast (n : Nat) : Nat :=
  if n < 2 ^ 1024 then log2Search [512, 256, 128, 64, 32, 16, 8, 4, 2, 1] n 0
  else ilog2 n

/-- The function `roundUnits` with the logarithm `lg`. -/
def roundUnitsWith (lg : Nat → Nat) (N D : Nat) : Option Nat :=
  let k := lg (N / D) - 23
  let m := rne N (D * 2 ^ k) * 2 ^ k
  if m < overflowMag then some m else none

/-- The function `roundSqrt` with the logarithm `lg`. -/
def roundSqrtWith (lg : Nat → Nat) (M : Nat) : Option Nat :=
  let k := lg (isqrtLoop M (lg M / 2 + 1) 0) - 23
  let q := isqrtLoop (M / 4 ^ k) (lg (M / 4 ^ k) / 2 + 1) 0
  let c := 4 ^ k * ((2 * q + 1) * (2 * q + 1))
  let n := if 4 * M < c then q else if c < 4 * M then q + 1 else if q % 2 = 0 then q else q + 1
  let m := n * 2 ^ k
  if m < overflowMag then some m else none

/-- The function `ofRatio` with the logarithm `lg`. -/
def ofRatioWith (lg : Nat → Nat) (n d : Nat) : F32 :=
  ofMag false (roundUnitsWith lg (n * 2 ^ 149) d)

/-- The function `ofNat` with the logarithm `lg`. -/
def ofNatWith (lg : Nat → Nat) (n : Nat) : F32 :=
  ofMag false (roundUnitsWith lg (n * 2 ^ 149) 1)

/-- The function `add` with the logarithm `lg`. -/
def addWith (lg : Nat → Nat) : F32 → F32 → F32
  | nan, _ => nan
  | _, nan => nan
  | inf s, inf t => if s = t then inf s else nan
  | inf s, fin _ _ => inf s
  | fin _ _, inf t => inf t
  | fin s a, fin t b =>
    if s = t then ofMag s (roundUnitsWith lg (a + b) 1)
    else if a = b then fin false 0
    else if b < a then ofMag s (roundUnitsWith lg (a - b) 1)
    else ofMag t (roundUnitsWith lg (b - a) 1)

/-- The function `mul` with the logarithm `lg`. -/
def mulWith (lg : Nat → Nat) : F32 → F32 → F32
  | nan, _ => nan
  | _, nan => nan
  | inf s, inf t => inf (xor s t)
  | inf s, fin t b => if b = 0 then nan else inf (xor s t)
  | fin s a, inf t => if a = 0 then nan else inf (xor s t)
  | fin s a, fin t b => ofMag (xor s t) (roundUnitsWith lg (a * b) (2 ^ 149))

/-- The function `div` with the logarithm `lg`. -/
def divWith (lg : Nat → Nat) : F32 → F32 → F32
  | nan, _ => nan
  | _, nan => nan
  | inf _, inf _ => nan
  | inf s, fin t _ => inf (xor s t)
  | fin s _, inf t => fin (xor s t) 0
  | fin s a, fin t b =>
    if b = 0 then (if a = 0 then nan else inf (xor s t))
    else ofMag (xor s t) (roundUnitsWith lg (a * 2 ^ 149) b)

/-- The function `sqrt` with the logarithm `lg`. -/
def sqrtWith (lg : Nat → Nat) : F32 → F32
  | nan => nan
  | inf s => if s then nan else inf false
  | fin s a =>
    if a = 0 then fin s 0
    else if s then nan
    else ofMag false (roundSqrtWith lg (a * 2 ^ 149))

end F32

/-- The index `startIdx` of band `band` for a vector of `n` samples:
`band * samplesPerBand` with `samplesPerBand = n / numBands`. -/
def startIdx (n band : Nat) : Nat := band * (n / numBands)

/-- The index `endIdx` of band `band` for a vector of `n` samples:
`std::min((band + 1) * samplesPerBand, n)`. -/
def endIdx (n band : Nat) : Nat := Nat.min ((band + 1) * (n / numBands)) n

/-- A frame of 33 samples `1.0` whose last sample is replaced by `v`. -/
def oddFrame (v : F32) : List F32 := List.replicate 32 one ++ [v]

/-- The absolute value of a `float` (`std::fabs`). -/
def F32.abs : F32 → F32
  | F32.nan => F32.nan
  | F32.inf _ => F32.inf false
  | F32.fin _ a => F32.fin false a

/-- The literal `0.875f`. -/
def c0_875 : F32 := fin false (7 * 2 ^ 146)

/-- A frame of 1024 finite samples: band 0 holds 32 samples `0.875`, bands 1 to
30 hold zeros and band 31 holds 32 samples `1.0`. -/
def skewFrame : List F32 :=
  List.replicate 32 c0_875 ++ (List.replicate 960 zero ++ List.replicate 32 one)

/-- A running state whose current slot holds `skewFrame`. -/
def skewState : State :=
  { initialState with
    buffers0 := { input := skewFrame, output := List.replicate 1024 zero, ready := false }
    processing := true
    bufferSize := 1024 }

/-- The frame in which every non-finite sample is replaced by `0`. -/
def specZeroNonFinite (x : List F32) : List F32 :=
  x.map (fun v => if isFinite v then v else zero)

/-- A frame of 32 samples: NaN, `1.0` and 30 zeros. -/
def nanFrame : List F32 := nan :: one :: List.replicate 30 zero

/-- A running state whose current slot holds `nanFrame`. -/
def nanState : State :=
  { initialState with
    buffers0 := { input := nanFrame, output := List.replicate 32 zero, ready := false }
    processing := true
    bufferSize := 32 }

/-- A frame of 24 samples, all NaN or infinite. -/
def nonFiniteFrame : List F32 :=
  List.replicate 8 nan ++ (List.replicate 8 (inf false) ++ List.replicate 8 (inf true))

/-- A running state whose current slot holds `nonFiniteFrame`. -/
def nonFiniteState : State :=
  { initialState with
    buffers0 := { input := nonFiniteFrame, output := List.replicate 24 zero, ready := false }
    processing := true
    bufferSize := 24 }

/-- A frame of 40 zeros: 39 samples `+0` and one sample `-0`. -/
def silentFrame : List F32 := List.replicate 39 zero ++ [neg zero]

/-- A running state whose current slot holds `silentFrame`. -/
def silentState : State :=
  { initialState with
    buffers0 := { input := silentFrame, output := List.replicate 40 zero, ready := false }
    processing := true
    bufferSize := 40 }

/-- The literal `0.707f`. -/
def c0_707 : F32 := ofRatio 707 1000

/-- The frame of 1024 samples `0.707`. -/
def sineFrame : List F32 := List.replicate 1024 c0_707

/-- A running state with gain `1.0` whose current slot holds `sineFrame`. -/
def sineState : State :=
  { initialState with
    buffers0 := { input := sineFrame, output := List.replicate 1024 zero, ready := false }
    processing := true
    bufferSize := 1024 }

/-- The float nearest to `0.7069`: lower end of the tolerance on the RMS. -/
def rmsLo : F32 := ofRatio 7069 10000

/-- The float nearest to `0.7071`: upper end of the tolerance on the RMS. -/
def rmsHi : F32 := ofRatio 7071 10000

/-- The float nearest to `99.94`. -/
def levelLo : F32 := ofRatio 9994 100

/-- The float nearest to `99.995`. -/
def levelHi : F32 := ofRatio 99995 1000

/-- The float nearest to `99.9`. -/
def c99_9 : F32 := ofRatio 999 10

/-! ## Execution in steps, with the mutex

The functions above give the result of a whole call.  Below, a call is a
sequence of steps, so that the mutex `bufferMutex` and the moment at which each
static member is read or written are explicit.  One step is one test of a
condition together with the statement it guards (one iteration of a loop). -/

/-- The static members together with `bufferMutex`: `locked` tells that some
thread holds the mutex. -/
structure Shared where
  state : State
  locked : Bool
deriving DecidableEq, Repr

/-- Run `step` until `returned` holds, for at most `fuel` steps.  The result is
`none` when a step is not possible or the fuel does not suffice. -/
def runUntil {σ : Type} (step : σ → Option σ) (returned : σ → Bool) : Nat → σ → Option σ
  | 0, c => if returned c then some c else none
  | fuel + 1, c =>
    if returned c then some c
    else match step c with
      | none => none
      | some c1 => runUntil step returned fuel c1

/-- The computations of `GetInputLevel` after the locked block, on the values
of the locals `rms` and `validSamples`. -/
def levelFinish (acc : F32 × Int) : F32 :=
  let rms := if 0 < acc.2 then sqrt (div acc.1 (ofInt acc.2)) else zero
  let normalizedRMS := F32.min (mul rms c1_414) one
  mul normalizedRMS hundred

/-- The program points of `GetInputLevel`: before the test of `processing`,
before the `lock_guard`, at the test of the loop (mutex held), after the block
(mutex released), and after the `return`. -/
inductive LevelPc where
  | entry
  | acquire
  | loop
  | after
  | returned
deriving DecidableEq, Repr

/-- A call of `GetInputLevel` in progress: the program point, the locals `i`,
`rms`, `validSamples`, and the returned value once the call has returned. -/
structure LevelCall where
  pc : LevelPc
  i : Nat
  rms : F32
  validSamples : Int
  result : F32
deriving DecidableEq, Repr

/-- A call of `GetInputLevel` that has not started. -/
def LevelCall.start : LevelCall :=
  { pc := LevelPc.entry, i := 0, rms := zero, validSamples := 0, result := zero }

/-- One step of `GetInputLevel`.  `none`: the thread cannot move (it waits for
the mutex, or it has returned). -/
def levelCallStep (c : Shared × LevelCall) : Option (Shared × LevelCall) :=
  let sh := c.1
  let t := c.2
  match t.pc with
  | LevelPc.entry =>
    if !sh.state.processing then some (sh, { t with pc := LevelPc.returned, result := zero })
    else some (sh, { t with pc := LevelPc.acquire, rms := zero, validSamples := 0 })
  | LevelPc.acquire =>
    if sh.locked then none
    else some ({ sh with locked := true }, { t with pc := LevelPc.loop, i := 0 })
  | LevelPc.loop =>
    match sh.state.current.input[t.i]? with
    | some sample =>
      let acc := levelStep (t.rms, t.validSamples) sample
      some (sh, { t with i := t.i + 1, rms := acc.1, validSamples := acc.2 })
    | none => some ({ sh with locked := false }, { t with pc := LevelPc.after })
  | LevelPc.after =>
    some (sh, { t with pc := LevelPc.returned, result := levelFinish (t.rms, t.validSamples) })
  | LevelPc.returned => none

/-- The call has returned. -/
def levelReturned (c : Shared × LevelCall) : Bool := decide (c.2.pc = LevelPc.returned)

/-- A whole call of `GetInputLevel` on the static members `s`, the mutex being
free: the static members after the call, the mutex after the call, and the
returned value. -/
def callGetInputLevel (s : State) : Option (Shared × F32) :=
  match runUntil levelCallStep levelReturned (s.current.input.length + 4)
      ({ state := s, locked := false }, LevelCall.start) with
  | none => none
  | some c => some (c.1, c.2.result)

/-- The computations of `GetFFTData` after the locked block, on the vector
`bandEnergies`. -/
def fftFinish (energies : List F32) : List F32 :=
  let mx := maxEnergy energies
  if lt zero mx then energies.map (fun e => mul (sqrt (div e mx)) hundred)
  else List.replicate numBands zero

/-- The program points of `GetFFTData`: before the test of `processing`, before
the `lock_guard`, at the test of the loop over `band` (mutex held), at the test
of the loop over `i` (mutex held), after the block (mutex released), and after
the `return`. -/
inductive FFTPc where
  | entry
  | acquire
  | bandLoop
  | sampleLoop
  | after
  | returned
deriving DecidableEq, Repr

/-- A call of `GetFFTData` in progress: the program point, the locals
`bandEnergies`, `samplesPerBand`, `band`, `energy`, `startIdx`, `endIdx`, `i`,
and the returned array once the call has returned. -/
structure FFTCall where
  pc : FFTPc
  bandEnergies : List F32
  samplesPerBand : Nat
  band : Nat
  energy : F32
  startIdx : Nat
  endIdx : Nat
  i : Nat
  result : List F32
deriving DecidableEq, Repr

/-- A call of `GetFFTData` that has not started. -/
def FFTCall.start : FFTCall :=
  { pc := FFTPc.entry, bandEnergies := [], samplesPerBand := 0, band := 0, energy := zero,
    startIdx := 0, endIdx := 0, i := 0, result := [] }

/-- One step of `GetFFTData`.  `none`: the thread cannot move (it waits for the
mutex, or it has returned) or the step reads outside the vector. -/
def fftCallStep (c : Shared × FFTCall) : Option (Shared × FFTCall) :=
  let sh := c.1
  let t := c.2
  match t.pc with
  | FFTPc.entry =>
    if !sh.state.processing then
      some (sh, { t with pc := FFTPc.returned, result := List.replicate numBands zero })
    else some (sh, { t with pc := FFTPc.acquire, bandEnergies := List.replicate numBands zero })
  | FFTPc.acquire =>
    if sh.locked then none
    else some ({ sh with locked := true },
      { t with pc := FFTPc.bandLoop, samplesPerBand := sh.state.current.input.length / numBands,
               band := 0 })
  | FFTPc.bandLoop =>
    if t.band < numBands then
      some (sh, { t with pc := FFTPc.sampleLoop, energy := zero,
                         startIdx := t.band * t.samplesPerBand,
                         endIdx := Nat.min ((t.band + 1) * t.samplesPerBand)
                           sh.state.current.input.length,
                         i := t.band * t.samplesPerBand })
    else some ({ sh with locked := false }, { t with pc := FFTPc.after })
  | FFTPc.sampleLoop =>
    if t.i < t.endIdx then
      match sh.state.current.input[t.i]? with
      | some sample => some (sh, { t with energy := add t.energy (mul sample sample), i := t.i + 1 })
      | none => none
    else
      let energy :=
        if t.startIdx < t.endIdx then div t.energy (ofNat (t.endIdx - t.startIdx)) else t.energy
      some (sh, { t with pc := FFTPc.bandLoop,
                         bandEnergies := t.bandEnergies.set t.band
                           (mul energy (frequencyWeight t.band)),
                         band := t.band + 1 })
  | FFTPc.after => some (sh, { t with pc := FFTPc.returned, result := fftFinish t.bandEnergies })
  | FFTPc.returned => none

/-- The call has returned. -/
def fftReturned (c : Shared × FFTCall) : Bool := decide (c.2.pc = FFTPc.returned)

/-- A whole call of `GetFFTData` on the static members `s`, the mutex being
free: the static members after the call, the mutex after the call, and the
returned array. -/
def callGetFFTData (s : State) : Option (Shared × List F32) :=
  match runUntil fftCallStep fftReturned (s.current.input.length + 68)
      ({ state := s, locked := false }, FFTCall.start) with
  | none => none
  | some c => some (c.1, c.2.result)

/-- The program points of `bufferSwitchStatic`: before the test of
`processing`, at the test of the loop, and after the end of the function. -/
inductive SwitchPc where
  | entry
  | loop
  | returned
deriving DecidableEq, Repr

/-- A call of `bufferSwitchStatic(index, processNow)` in progress: the program
point, the argument `index` and the local `i`. -/
structure SwitchCall where
  pc : SwitchPc
  index : Nat
  i : Nat
deriving DecidableEq, Repr

/-- A call of `bufferSwitchStatic(index, processNow)` that has not started. -/
def SwitchCall.start (index : Nat) : SwitchCall :=
  { pc := SwitchPc.entry, index := index, i := 0 }

/-- One step of `bufferSwitchStatic`.  The function contains no `lock_guard`:
no step tests or changes the mutex.  `none`: the call has returned, or the step
is undefined behaviour (an index outside `buffers` or outside a vector). -/
def switchCallStep (c : Shared × SwitchCall) : Option (Shared × SwitchCall) :=
  let sh := c.1
  let t := c.2
  match t.pc with
  | SwitchPc.entry =>
    if sh.state.processing then
      if h : t.index < 2 then
        some ({ sh with state := { sh.state with currentBuffer := ⟨t.index, h⟩ } },
          { t with pc := SwitchPc.loop, i := 0 })
      else none
    else some (sh, { t with pc := SwitchPc.returned })
  | SwitchPc.loop =>
    let cur := sh.state.current
    if t.i < sh.state.bufferSize then
      match cur.input[t.i]? with
      | none => none
      | some x =>
        if t.i < cur.output.length then
          let out := cur.output.set t.i (mul x (neg sh.state.gain))
          let s1 := sh.state.setBuffer sh.state.currentBuffer { cur with output := out }
          some ({ sh with state := s1 }, { t with i := t.i + 1 })
        else none
    else
      let s1 := sh.state.setBuffer sh.state.currentBuffer { cur with ready := true }
      some ({ sh with state := s1 }, { t with pc := SwitchPc.returned })
  | SwitchPc.returned => none

/-- The call has returned. -/
def switchReturned (c : Shared × SwitchCall) : Bool := decide (c.2.pc = SwitchPc.returned)

/-- A whole call of `bufferSwitchStatic(index, processNow)` on the static
members `s`: the static members and the mutex after the call. -/
def callBufferSwitchStatic (s : Shared) (index : Nat) : Option Shared :=
  match runUntil switchCallStep switchReturned (s.state.bufferSize + 2)
      (s, SwitchCall.start index) with
  | none => none
  | some c => some c.1

/-- The two threads of an execution: the realtime thread, which runs
`bufferSwitchStatic`, and a caller of `GetInputLevel`. -/
inductive Thread where
  | realtime
  | caller
deriving DecidableEq, Repr

/-- An execution in which a call of `bufferSwitchStatic` and a call of
`GetInputLevel` run concurrently: each element of the schedule names the
thread that takes the next step. -/
def interleave : Shared × SwitchCall × LevelCall → List Thread →
    Option (Shared × SwitchCall × LevelCall)
  | c, [] => some c
  | (sh, sw, lv), Thread.realtime :: rest =>
    match switchCallStep (sh, sw) with
    | none => none
    | some (sh1, sw1) => interleave (sh1, sw1, lv) rest
  | (sh, sw, lv), Thread.caller :: rest =>
    match levelCallStep (sh, lv) with
    | none => none
    | some (sh1, lv1) => interleave (sh1, sw, lv1) rest

/-- A running state with `bufferSize = 2`: slot 0 (the active slot) holds the
input `0.5, 0.5` and slot 1 holds the input `0, 0`. -/
def raceState : State where
  buffers0 := { input := [half, half], output := [zero, zero], ready := false }
  buffers1 := { input := [zero, zero], output := [zero, zero], ready := false }
  currentBuffer := 0
  gain := one
  processing := true
  bufferSize := 2

/-- The schedule in which the callback for slot 1 starts after `GetInputLevel`
has taken the mutex and read sample 0, and finishes after `GetInputLevel` has
returned. -/
def raceSchedule : List Thread :=
  [Thread.caller, Thread.caller, Thread.caller, Thread.realtime,
   Thread.caller, Thread.caller, Thread.caller,
   Thread.realtime, Thread.realtime, Thread.realtime]

/-! ## The function `Initialize` -/

/-- The first argument of `Initialize` as the function reads it: a number, with
the value of `Int32Value()`; a string, with the value of `Utf8Value()`; or a
value of another type. -/
inductive DriverArg where
  | id (driverId : Int) : DriverArg
  | name (driverIdentifier : String) : DriverArg
  | other : DriverArg
deriving DecidableEq, Repr

/-- The answers of the external object `asioDrivers` (the class `AsioDrivers`
belongs to the driver kit, not to this file): the value returned by
`getDriverNames(driverNames, 32)`, the entries of `driverNames` (`none` is a
null pointer) and the value returned by `loadDriver`. -/
structure DriverHost where
  numDrivers : Int
  driverNames : Nat → Option String
  loadDriver : String → Bool

/-- The constant `ASE_OK`. -/
def ASE_OK : Int := 0

/-- The function `ASIOInit` of the file: it returns `ASE_OK`. -/
def ASIOInit : Int := ASE_OK

/-- The function `ASIOGetChannels` of the file: it returns `ASE_OK` and stores
2 and 2 in `inputChannels` and `outputChannels`. -/
def ASIOGetChannels : Int × Nat × Nat := (ASE_OK, 2, 2)

/-- The function `ASIOGetBufferSize` of the file: it returns `ASE_OK` and stores
256, 2048, 1024 and 256 in `minSize`, `maxSize`, `preferredSize` and
`granularity`. -/
def ASIOGetBufferSize : Int × Nat × Nat × Nat × Nat := (ASE_OK, 256, 2048, 1024, 256)

/-- The call `v.resize(n)` on a `std::vector<float>`: the first `n` elements
are kept and new elements are `0.0f`. -/
def resize (v : List F32) (n : Nat) : List F32 := v.take n ++ List.replicate (n - v.length) zero

/-- The outcome of `Initialize`: a thrown `TypeError`, a thrown `Error` (the
function then returns `env.Null()`), or the object `{success: true, driverName,
inputChannels, outputChannels, bufferSize}`. -/
inductive InitResult where
  | typeError : InitResult
  | error : InitResult
  | ok (driverName : String) (inputChannels outputChannels bufferSize : Nat) : InitResult
deriving DecidableEq, Repr

/-- The part of `Initialize` after the driver is chosen: the calls of
`ASIOGetChannels` and `ASIOGetBufferSize`, the assignment
`bufferSize = preferredSize` and the four calls of `resize`. -/
def initializeBuffers (s : State) (driverIdentifier : String) : State × InitResult :=
  if ASIOGetChannels.1 ≠ ASE_OK then (s, InitResult.error)
  else if ASIOGetBufferSize.1 ≠ ASE_OK then (s, InitResult.error)
  else
    let bufferSize := ASIOGetBufferSize.2.2.2.1
    ({ s with
        bufferSize := bufferSize
        buffers0 := { s.buffers0 with input := resize s.buffers0.input bufferSize
                                      output := resize s.buffers0.output bufferSize }
        buffers1 := { s.buffers1 with input := resize s.buffers1.input bufferSize
                                      output := resize s.buffers1.output bufferSize } },
      InitResult.ok driverIdentifier ASIOGetChannels.2.1 ASIOGetChannels.2.2 bufferSize)

/-- The part of `Initialize` that loads a real driver, by its index in
`driverNames` when `driverId` is one, by its name otherwise: the values of
`driverLoaded` and `driverIdentifier` afterwards. -/
def loadRealDriver (host : DriverHost) (driverId : Int) (driverIdentifier : String) :
    Bool × String :=
  if 0 ≤ driverId ∧ driverId < host.numDrivers then
    match host.driverNames driverId.toNat with
    | some driverName => (host.loadDriver driverName, driverName)
    | none => (false, driverIdentifier)
  else (host.loadDriver driverIdentifier, driverIdentifier)

/-- The function `ASIOHandler::Initialize`.  In the branch of the simulated
driver `preferredSize` has just been set to 1024. -/
def Initialize (s : State) (host : DriverHost) (info : List DriverArg) : State × InitResult :=
  match info with
  | [] => (s, InitResult.typeError)
  | DriverArg.other :: _ => (s, InitResult.typeError)
  | arg :: _ =>
    let driverId : Int := match arg with
      | DriverArg.id n => n
      | _ => -1
    let driverIdentifier : String := match arg with
      | DriverArg.name d => d
      | _ => ""
    let isSimulated : Bool := decide (driverIdentifier = "Simulation ASIO")
    if isSimulated || decide (host.numDrivers ≤ 0) then
      initializeBuffers { s with bufferSize := 1024 } driverIdentifier
    else
      let loaded := loadRealDriver host driverId driverIdentifier
      if !loaded.1 then (s, InitResult.error)
      else if ASIOInit ≠ ASE_OK then (s, InitResult.error)
      else initializeBuffers s loaded.2

/-- The value of `bufferSize` and the sizes of the four vectors. -/
def frameShape (s : State) : Nat × Nat × Nat × Nat × Nat :=
  (s.bufferSize, s.buffers0.input.length, s.buffers0.output.length,
    s.buffers1.input.length, s.buffers1.output.length)

/-- A call made during a session: one of the entry points `start`, `stop`,
`setInversionGain`, `getInputLevel`, `getFFTData`, or the callback for slot 0
or 1. -/
inductive Call where
  | start (info : List JsValue) : Call
  | stop : Call
  | setInversionGain (info : List JsValue) : Call
  | bufferSwitch (index : Fin 2) : Call
  | getInputLevel : Call
  | getFFTData : Call
deriving DecidableEq, Repr

/-- The static members after a call; `none` is undefined behaviour. -/
def Call.run (s : State) : Call → Option State
  | Call.start info => some (Start s info).1
  | Call.stop => some (Stop s).1
  | Call.setInversionGain info => some (SetInversionGain s info).1
  | Call.bufferSwitch index => bufferSwitchStatic s index.val
  | Call.getInputLevel => (callGetInputLevel s).map (fun r => r.1.state)
  | Call.getFFTData => (callGetFFTData s).map (fun r => r.1.state)

/-- The static members after a sequence of calls, one after the other. -/
def runCalls (s : State) : List Call → Option State
  | [] => some s
  | call :: rest =>
    match call.run s with
    | none => none
    | some s1 => runCalls s1 rest

/-- A driver host with no driver installed. -/
def noDriverHost : DriverHost :=
  { numDrivers := 0, driverNames := fun _ => none, loadDriver := fun _ => false }

/-! ## Frames of normalised samples -/

/-- The value of `energy` for band `band` after the division by the number of
samples and before the weighting: the mean of the squares of the band. -/
def bandMean (input : List F32) (band : Nat) : F32 :=
  let samplesPerBand := input.length / numBands
  let startIdx := band * samplesPerBand
  let endIdx := Nat.min ((band + 1) * samplesPerBand) input.length
  let energy := sumSquares input startIdx endIdx
  if startIdx < endIdx then div energy (ofNat (endIdx - startIdx)) else energy

/-- The float `2^-60`. -/
def c2m60 : F32 := fin false (2 ^ 89)

/-- The float `2^-100`. -/
def c2m100 : F32 := fin false (2 ^ 49)

/-- The float `2^-74`. -/
def c2m74 : F32 := fin false (2 ^ 75)

/-- The float `2^-75`. -/
def c2m75 : F32 := fin false (2 ^ 74)

/-- A frame of 32 finite samples, one for each band: `2^-74, 2^-74, 0, ..., 0`. -/
def tinyFrame : List F32 := c2m74 :: c2m74 :: List.replicate 30 zero

/-- A running state whose current slot holds `tinyFrame`. -/
def tinyState : State :=
  { initialState with
    buffers0 := { input := tinyFrame, output := List.replicate 32 zero, ready := false }
    processing := true
    bufferSize := 32 }

/-- A frame of 32 finite samples, one for each band: `2^-75, 0, ..., 0`. -/
def faintFrame : List F32 := c2m75 :: List.replicate 31 zero

/-- A running state whose current slot holds `faintFrame`. -/
def faintState : State :=
  { initialState with
    buffers0 := { input := faintFrame, output := List.replicate 32 zero, ready := false }
    processing := true
    bufferSize := 32 }

/-! ## Scaling of a frame by a power of two -/

/-- The product of a float by `(-1)^flip * 2^k`, without rounding: the sign is
flipped when `flip` is set and the magnitude is multiplied by `2^k`. -/
def scaleBy (flip : Bool) (k : Nat) : F32 → F32
  | F32.nan => F32.nan
  | F32.inf s => F32.inf (xor s flip)
  | F32.fin s a => F32.fin (xor s flip) (a * 2 ^ k)

/-- The float `(-1)^flip * 2^k`, for `k < 128`. -/
def twoPow (flip : Bool) (k : Nat) : F32 := F32.fin flip (2 ^ (149 + k))

/-- The sample is zero or has a magnitude of at least `2^-40`, and its product
by `2^k` has a magnitude of at most `2^40`. -/
def InScaleRange (k : Nat) (v : F32) : Prop :=
  ∃ s a, v = F32.fin s a ∧ (a = 0 ∨ 2 ^ 109 ≤ a) ∧ a * 2 ^ k ≤ 2 ^ 189

/-- The float `3.0f`. -/
def three : F32 := ofNat 3

/-- A frame of 32 finite samples, one for each band: `1.0`, the float
`0.5 + 3 * 2^-23`, and 30 zeros. -/
def roundingFrame : List F32 :=
  one :: fin false ((2 ^ 22 + 3) * 2 ^ 126) :: List.replicate 30 zero

/-- A frame of 32 samples `1.0`. -/
def onesFrame : List F32 := List.replicate 32 one

/-- The test of `InScaleRange`. -/
def inScaleRange (k : Nat) : F32 → Bool
  | F32.fin _ a => (decide (a = 0) || decide (2 ^ 109 ≤ a)) && decide (a * 2 ^ k ≤ 2 ^ 189)
  | _ => false

/-- The test `IsNumber()` on an argument. -/
def JsValue.isNumber : JsValue → Bool
  | JsValue.number _ => true
  | JsValue.other => false

/-! # Theorems -/

/-! ## The arithmetic of `float` -/

namespace F32

theorem log2Fuel_spec : ∀ (fuel n : Nat), n ≤ fuel → 1 ≤ n →
    2 ^ log2Fuel fuel n ≤ n ∧ n < 2 ^ (log2Fuel fuel n + 1) := by
  intro fuel
  induction fuel with
  | zero => intro n h1 h2; omega
  | succ fuel ih =>
    intro n h1 h2
    unfold log2Fuel
    by_cases hn : n < 2
    · simp only [hn, if_true]
      have : n = 1 := by omega
      subst this; simp
    · simp only [hn, if_false]
      have h3 : n / 2 ≤ fuel := by omega
      have h4 : 1 ≤ n / 2 := by omega
      obtain ⟨ha, hb⟩ := ih (n / 2) h3 h4
      rw [pow_succ, pow_succ]
      rw [pow_succ] at hb
      constructor <;> omega

theorem ilog2_le (n : Nat) (h : 1 ≤ n) : 2 ^ ilog2 n ≤ n :=
  (log2Fuel_spec n n (le_refl n) h).1

theorem lt_ilog2 (n : Nat) : n < 2 ^ (ilog2 n + 1) := by
  by_cases h : 1 ≤ n
  · exact (log2Fuel_spec n n (le_refl n) h).2
  · have : n = 0 := by omega
    subst this; exact Nat.two_pow_pos _

theorem ilog2_zero : ilog2 0 = 0 := rfl

theorem ilog2_mono {a b : Nat} (h : a ≤ b) : ilog2 a ≤ ilog2 b := by
  by_cases ha : 1 ≤ a
  · have h1 := ilog2_le a ha
    have h2 := lt_ilog2 b
    have h3 : 2 ^ ilog2 a < 2 ^ (ilog2 b + 1) := by omega
    have := (Nat.pow_lt_pow_iff_right (by norm_num : 1 < 2)).1 h3
    omega
  · have : a = 0 := by omega
    subst this; simp [ilog2_zero]

theorem ilog2_eq_of_bounds {n e : Nat} (h1 : 2 ^ e ≤ n) (h2 : n < 2 ^ (e + 1)) : ilog2 n = e := by
  have hn : 1 ≤ n := le_trans (Nat.one_le_two_pow) h1
  have a1 := ilog2_le n hn
  have a2 := lt_ilog2 n
  have b1 : 2 ^ e < 2 ^ (ilog2 n + 1) := by omega
  have b2 : 2 ^ ilog2 n < 2 ^ (e + 1) := by omega
  have c1 := (Nat.pow_lt_pow_iff_right (by norm_num : 1 < 2)).1 b1
  have c2 := (Nat.pow_lt_pow_iff_right (by norm_num : 1 < 2)).1 b2
  omega

theorem ulpExp_mono {a b : Nat} (h : a ≤ b) : ulpExp a ≤ ulpExp b := by
  unfold ulpExp
  have := ilog2_mono h
  omega

theorem rne_le {N D c : Nat} (hD : 0 < D) (h : N ≤ c * D) : rne N D ≤ c := by
  have hq : N / D ≤ c := Nat.div_le_of_le_mul (by rw [Nat.mul_comm]; exact h)
  have hdm := Nat.div_add_mod N D
  have hr : N % D < D := Nat.mod_lt _ hD
  by_cases hqc : N / D < c
  · unfold rne
    simp only
    split_ifs <;> omega
  · have hqe : N / D = c := by omega
    have : N % D = 0 := by
      have : D * (N / D) = c * D := by rw [hqe, Nat.mul_comm]
      omega
    unfold rne
    simp only [this]
    simp [hD, hqe]

theorem le_rne {N D c : Nat} (hD : 0 < D) (h : c * D ≤ N) : c ≤ rne N D := by
  have hq : c ≤ N / D := (Nat.le_div_iff_mul_le hD).2 h
  unfold rne
  simp only
  split_ifs <;> omega

theorem pow_ulpExp_dvd_of_le {f B : Nat} (hB : B % 2 ^ ulpExp B = 0) (h : f ≤ B) :
    2 ^ ulpExp f ∣ B := by
  have h1 : 2 ^ ulpExp f ∣ 2 ^ ulpExp B := pow_dvd_pow 2 (ulpExp_mono h)
  exact dvd_trans h1 (Nat.dvd_of_mod_eq_zero hB)

theorem roundUnits_le {N D B : Nat} (hD : 0 < D) (hB : B % 2 ^ ulpExp B = 0)
    (hBo : B < overflowMag) (h : N ≤ B * D) :
    ∃ m, roundUnits N D = some m ∧ m ≤ B := by
  have hf : N / D ≤ B := Nat.div_le_of_le_mul (by rw [Nat.mul_comm]; exact h)
  obtain ⟨c, hc⟩ := pow_ulpExp_dvd_of_le hB hf
  have hpos : 0 < D * 2 ^ ulpExp (N / D) := Nat.mul_pos hD (Nat.two_pow_pos _)
  have hle : rne N (D * 2 ^ ulpExp (N / D)) ≤ c := by
    apply rne_le hpos
    calc N ≤ B * D := h
      _ = c * (D * 2 ^ ulpExp (N / D)) := by rw [hc]; ring
  have hm : rne N (D * 2 ^ ulpExp (N / D)) * 2 ^ ulpExp (N / D) ≤ B := by
    calc rne N (D * 2 ^ ulpExp (N / D)) * 2 ^ ulpExp (N / D)
        ≤ c * 2 ^ ulpExp (N / D) := Nat.mul_le_mul_right _ hle
      _ = B := by rw [hc]; ring
  refine ⟨rne N (D * 2 ^ ulpExp (N / D)) * 2 ^ ulpExp (N / D), ?_, hm⟩
  unfold roundUnits
  simp only
  rw [if_pos (lt_of_le_of_lt hm hBo)]

theorem le_roundUnits {N D B m : Nat} (hD : 0 < D) (hB : B % 2 ^ ulpExp B = 0)
    (h : B * D ≤ N) (hm : roundUnits N D = some m) : B ≤ m := by
  have hf : B ≤ N / D := (Nat.le_div_iff_mul_le hD).2 h
  have hpos : 0 < D * 2 ^ ulpExp (N / D) := Nat.mul_pos hD (Nat.two_pow_pos _)
  unfold roundUnits at hm
  simp only at hm
  split_ifs at hm with hlt
  simp only [Option.some.injEq] at hm
  subst hm
  have hfD : N / D * D ≤ N := Nat.div_mul_le_self N D
  by_cases hlog : ilog2 (N / D) = ilog2 B
  · have hk : ulpExp (N / D) = ulpExp B := by unfold ulpExp; rw [hlog]
    obtain ⟨c, hc⟩ := Nat.dvd_of_mod_eq_zero hB
    have hge : c ≤ rne N (D * 2 ^ ulpExp (N / D)) := by
      apply le_rne hpos
      calc c * (D * 2 ^ ulpExp (N / D)) = B * D := by rw [hk]; nth_rewrite 2 [hc]; ring
        _ ≤ N := h
    calc B = c * 2 ^ ulpExp (N / D) := by rw [hk]; nth_rewrite 1 [hc]; ring
      _ ≤ _ := Nat.mul_le_mul_right _ hge
  · have hlt2 : ilog2 B < ilog2 (N / D) := lt_of_le_of_ne (ilog2_mono hf) (Ne.symm hlog)
    have hf1 : 1 ≤ N / D := by
      by_contra hcon
      have : N / D = 0 := by omega
      rw [this, ilog2_zero] at hlt2
      omega
    have hP := ilog2_le (N / D) hf1
    have hBlt : B < 2 ^ ilog2 (N / D) :=
      lt_of_lt_of_le (lt_ilog2 B) (Nat.pow_le_pow_right (by norm_num) hlt2)
    have hk : ulpExp (N / D) ≤ ilog2 (N / D) := by unfold ulpExp; omega
    have hsplit : 2 ^ ilog2 (N / D) = 2 ^ (ilog2 (N / D) - ulpExp (N / D)) * 2 ^ ulpExp (N / D) := by
      rw [← pow_add]; congr 1; omega
    have hge : 2 ^ (ilog2 (N / D) - ulpExp (N / D)) ≤ rne N (D * 2 ^ ulpExp (N / D)) := by
      apply le_rne hpos
      calc 2 ^ (ilog2 (N / D) - ulpExp (N / D)) * (D * 2 ^ ulpExp (N / D))
          = 2 ^ ilog2 (N / D) * D := by rw [hsplit]; ring
        _ ≤ N / D * D := Nat.mul_le_mul_right _ hP
        _ ≤ N := hfD
    have : 2 ^ ilog2 (N / D) ≤ rne N (D * 2 ^ ulpExp (N / D)) * 2 ^ ulpExp (N / D) := by
      rw [hsplit]; exact Nat.mul_le_mul_right _ hge
    omega

theorem isqrtLoop_spec (n : Nat) : ∀ (b r : Nat), r * r ≤ n → n < (r + 2 ^ b) * (r + 2 ^ b) →
    isqrtLoop n b r * isqrtLoop n b r ≤ n ∧
      n < (isqrtLoop n b r + 1) * (isqrtLoop n b r + 1) := by
  intro b
  induction b with
  | zero => intro r h1 h2; simpa [isqrtLoop] using ⟨h1, h2⟩
  | succ b ih =>
    intro r h1 h2
    unfold isqrtLoop
    split_ifs with hc
    · apply ih _ hc
      have : r + 2 ^ b + 2 ^ b = r + 2 ^ (b + 1) := by rw [pow_succ]; omega
      rw [this]; exact h2
    · exact ih _ h1 (by omega)

theorem isqrt_spec (n : Nat) :
    isqrt n * isqrt n ≤ n ∧ n < (isqrt n + 1) * (isqrt n + 1) := by
  unfold isqrt
  apply isqrtLoop_spec n _ 0 (by simp)
  have h1 := lt_ilog2 n
  have h2 : 2 ^ (ilog2 n + 1) ≤ 2 ^ (ilog2 n / 2 + 1) * 2 ^ (ilog2 n / 2 + 1) := by
    rw [← pow_add]
    exact Nat.pow_le_pow_right (by norm_num) (by omega)
  simp only [zero_add]
  omega

theorem isqrt_le_of_le_sq {n B : Nat} (h : n ≤ B * B) : isqrt n ≤ B := by
  by_contra hcon
  have h1 : B + 1 ≤ isqrt n := by omega
  have h2 := (isqrt_spec n).1
  have h3 : (B + 1) * (B + 1) ≤ isqrt n * isqrt n := Nat.mul_le_mul h1 h1
  nlinarith

theorem roundSqrt_le {M B : Nat} (hB : B % 2 ^ ulpExp B = 0) (hBo : B < overflowMag)
    (h : M ≤ B * B) : ∃ m, roundSqrt M = some m ∧ m ≤ B := by
  have hs : isqrt M ≤ B := isqrt_le_of_le_sq h
  obtain ⟨c, hc⟩ := pow_ulpExp_dvd_of_le hB hs
  obtain ⟨k, hk⟩ : ∃ k, k = ulpExp (isqrt M) := ⟨_, rfl⟩
  rw [← hk] at hc
  have h4 : (4 : Nat) ^ k = 2 ^ k * 2 ^ k := by
    rw [← pow_add, show (4 : Nat) = 2 ^ 2 by norm_num, ← pow_mul]; congr 1; omega
  have hpos : 0 < (4 : Nat) ^ k := pow_pos (by norm_num) k
  have hBB : B * B = 4 ^ k * (c * c) := by rw [h4, hc]; ring
  have hq : isqrt (M / 4 ^ k) ≤ c := by
    apply isqrt_le_of_le_sq
    apply Nat.div_le_of_le_mul
    rw [← hBB]; exact h
  obtain ⟨q, hqdef⟩ : ∃ q, q = isqrt (M / 4 ^ k) := ⟨_, rfl⟩
  rw [← hqdef] at hq
  have hn : (if 4 * M < 4 ^ k * ((2 * q + 1) * (2 * q + 1)) then q
      else if 4 ^ k * ((2 * q + 1) * (2 * q + 1)) < 4 * M then q + 1
        else if q % 2 = 0 then q else q + 1) ≤ c := by
    by_cases hqc : q < c
    · split_ifs <;> omega
    · have hqe : q = c := by omega
      have : 4 * M < 4 ^ k * ((2 * c + 1) * (2 * c + 1)) := by
        have e1 : 4 ^ k * ((2 * c + 1) * (2 * c + 1)) = 4 * (4 ^ k * (c * c)) + 4 ^ k * (4 * c + 1) := by
          ring
        have e2 : 0 < 4 ^ k * (4 * c + 1) := Nat.mul_pos hpos (by omega)
        rw [e1, ← hBB]
        omega
      rw [hqe, if_pos this]
  have hmle : (if 4 * M < 4 ^ k * ((2 * q + 1) * (2 * q + 1)) then q
      else if 4 ^ k * ((2 * q + 1) * (2 * q + 1)) < 4 * M then q + 1
        else if q % 2 = 0 then q else q + 1) * 2 ^ k ≤ B := by
    calc _ ≤ c * 2 ^ k := Nat.mul_le_mul_right _ hn
      _ = B := by rw [hc]; ring
  refine ⟨_, ?_, hmle⟩
  unfold roundSqrt
  simp only
  rw [← hk, ← hqdef, if_pos (lt_of_le_of_lt hmle hBo)]

theorem rep_mul_two_pow {m : Nat} (e : Nat) (hm : m < 2 ^ 24) :
    (m * 2 ^ e) % 2 ^ ulpExp (m * 2 ^ e) = 0 := by
  apply Nat.mod_eq_zero_of_dvd
  have hlt : m * 2 ^ e < 2 ^ (24 + e) := by
    rw [pow_add]; exact Nat.mul_lt_mul_of_pos_right hm (Nat.two_pow_pos e)
  have hk : ulpExp (m * 2 ^ e) ≤ e := by
    unfold ulpExp
    by_cases h0 : 1 ≤ m * 2 ^ e
    · have h1 := ilog2_le _ h0
      have h2 : 2 ^ ilog2 (m * 2 ^ e) < 2 ^ (24 + e) := lt_of_le_of_lt h1 hlt
      have := (Nat.pow_lt_pow_iff_right (by norm_num : 1 < 2)).1 h2
      omega
    · have : m * 2 ^ e = 0 := by omega
      rw [this, ilog2_zero]; omega
  exact dvd_trans (pow_dvd_pow 2 hk) (Dvd.intro_left m rfl)

theorem rep_two_pow (e : Nat) : (2 ^ e) % 2 ^ ulpExp (2 ^ e) = 0 := by
  have := rep_mul_two_pow (m := 1) e (by norm_num)
  simpa using this

theorem ofMag_false_cases (o : Option Nat) :
    ofMag false o = inf false ∨ ∃ a, ofMag false o = fin false a := by
  cases o with
  | none => exact Or.inl rfl
  | some m => exact Or.inr ⟨m, rfl⟩

theorem nonNeg_ofMag (o : Option Nat) : NonNeg (ofMag false o) := ofMag_false_cases o

theorem nonNeg_zero : NonNeg zero := Or.inr ⟨0, rfl⟩

theorem nonNeg_mul_self {x : F32} (hx : isFinite x = true) : NonNeg (mul x x) := by
  cases x with
  | nan => simp [isFinite, isNan] at hx
  | inf s => simp [isFinite, isNan, isInf] at hx
  | fin s a =>
    simp only [mul, Bool.xor_self]
    exact nonNeg_ofMag _

theorem nonNeg_add {x y : F32} (hx : NonNeg x) (hy : NonNeg y) : NonNeg (add x y) := by
  rcases hx with rfl | ⟨a, rfl⟩ <;> rcases hy with rfl | ⟨b, rfl⟩
  · exact Or.inl (by simp [add])
  · exact Or.inl (by simp [add])
  · exact Or.inl (by simp [add])
  · simp only [add, if_true]
    exact nonNeg_ofMag _

theorem nonNeg_sqrt {x : F32} (hx : NonNeg x) : NonNeg (sqrt x) := by
  rcases hx with rfl | ⟨a, rfl⟩
  · exact Or.inl (by simp [sqrt])
  · by_cases ha : a = 0
    · exact Or.inr ⟨0, by simp [sqrt, ha]⟩
    · simp only [sqrt, ha, if_false, Bool.false_eq_true]
      exact nonNeg_ofMag _

theorem nonNeg_div_pos {x : F32} {c : Nat} (hx : NonNeg x) (hc : 0 < c) :
    NonNeg (div x (fin false c)) := by
  have hc0 : c ≠ 0 := by omega
  rcases hx with rfl | ⟨a, rfl⟩
  · exact Or.inl (by simp [div])
  · simp only [div, hc0, if_false, Bool.xor_self]
    exact nonNeg_ofMag _

theorem nonNeg_mul_pos {x : F32} {c : Nat} (hx : NonNeg x) (hc : 0 < c) :
    NonNeg (mul x (fin false c)) := by
  have hc0 : c ≠ 0 := by omega
  rcases hx with rfl | ⟨a, rfl⟩
  · exact Or.inl (by simp [mul, hc0])
  · simp only [mul, Bool.xor_self]
    exact nonNeg_ofMag _

theorem mul_comm (x y : F32) : mul x y = mul y x := by
  cases x <;> cases y <;> simp [mul, Bool.xor_comm, Nat.mul_comm]

theorem ofNat_pos {n : Nat} (h1 : 0 < n) (h2 : n ≤ 2 ^ 127) :
    ∃ c, ofNat n = fin false c ∧ 0 < c := by
  have hup : n * 2 ^ 149 ≤ 2 ^ 276 * 1 := by
    calc n * 2 ^ 149 ≤ 2 ^ 127 * 2 ^ 149 := Nat.mul_le_mul_right _ h2
      _ = 2 ^ 276 * 1 := by norm_num
  obtain ⟨m, hm, _⟩ := roundUnits_le (N := n * 2 ^ 149) (D := 1) (B := 2 ^ 276) (by norm_num)
    (rep_two_pow 276) (by unfold overflowMag; norm_num) hup
  have hlow : 2 ^ 149 * 1 ≤ n * 2 ^ 149 := by
    calc 2 ^ 149 * 1 = 1 * 2 ^ 149 := by ring
      _ ≤ n * 2 ^ 149 := Nat.mul_le_mul_right _ h1
  have hge := le_roundUnits (by norm_num) (rep_two_pow 149) hlow hm
  refine ⟨m, by unfold ofNat; rw [hm]; rfl, ?_⟩
  have : 0 < 2 ^ 149 := Nat.two_pow_pos 149
  omega

theorem c1_414_eq : c1_414 = fin false (11861492 * 2 ^ 126) := by decide!

theorem min_one_of_nonNeg {x : F32} (hx : NonNeg x) :
    ∃ m, F32.min x one = fin false m ∧ m ≤ 2 ^ 149 := by
  rcases hx with rfl | ⟨a, rfl⟩
  · exact ⟨2 ^ 149, rfl, le_refl _⟩
  · by_cases h : 2 ^ 149 < a
    · have hlt : lt one (fin false a) = true := by
        unfold one; simp only [lt, decide_eq_true_eq]; exact h
      exact ⟨2 ^ 149, by unfold F32.min; rw [if_pos hlt]; rfl, le_refl _⟩
    · have hlt : ¬ lt one (fin false a) = true := by
        unfold one; simp only [lt, decide_eq_true_eq]; exact h
      exact ⟨a, by unfold F32.min; rw [if_neg hlt], by omega⟩

theorem mul_hundred_le {m : Nat} (hm : m ≤ 2 ^ 149) :
    ∃ r, mul (fin false m) hundred = fin false r ∧ r ≤ 100 * 2 ^ 149 := by
  have hN : m * (100 * 2 ^ 149) ≤ 100 * 2 ^ 149 * 2 ^ 149 := by
    calc m * (100 * 2 ^ 149) ≤ 2 ^ 149 * (100 * 2 ^ 149) := Nat.mul_le_mul_right _ hm
      _ = 100 * 2 ^ 149 * 2 ^ 149 := by ring
  obtain ⟨r, hr, hle⟩ := roundUnits_le (N := m * (100 * 2 ^ 149)) (D := 2 ^ 149)
    (B := 100 * 2 ^ 149) (Nat.two_pow_pos 149) (rep_mul_two_pow 149 (by norm_num))
    (by unfold overflowMag; norm_num) hN
  exact ⟨r, by unfold hundred; simp only [mul, Bool.xor_self]; rw [hr]; rfl, hle⟩

theorem clamp_cases (g : F32) :
    le zero (F32.max zero (F32.min g two)) = true ∧
    le (F32.max zero (F32.min g two)) two = true ∧
    (le zero g = true → le g two = true → F32.eq (F32.max zero (F32.min g two)) g = true) ∧
    (lt g zero = true → F32.max zero (F32.min g two) = zero) ∧
    (lt two g = true → F32.max zero (F32.min g two) = two) ∧
    (isNan g = true → F32.max zero (F32.min g two) = zero) := by
  have h2 : (0 : Nat) < 2 ^ 150 := Nat.two_pow_pos 150
  cases g with
  | nan => decide
  | inf s => cases s <;> decide
  | fin s a =>
    cases s
    · by_cases ha : 2 ^ 150 < a
      · have e : F32.max zero (F32.min (fin false a) two) = two := by
          unfold F32.max F32.min zero two
          simp only [lt, decide_eq_true_eq, ha, if_true, h2]
        rw [e]
        refine ⟨by decide, by decide, ?_, ?_, fun _ => rfl, ?_⟩
        · intro _ hle
          unfold two at hle
          simp only [le, decide_eq_true_eq] at hle
          omega
        · intro hlt; simp [lt, zero] at hlt
        · intro hn; simp [isNan] at hn
      · have e : F32.max zero (F32.min (fin false a) two) = fin false a := by
          unfold F32.max F32.min zero two
          simp only [lt, decide_eq_true_eq, ha, if_false]
          by_cases h0 : 0 < a
          · simp only [h0, if_true]
          · simp only [h0, if_false]
            congr 1; omega
        rw [e]
        refine ⟨?_, ?_, ?_, ?_, ?_, ?_⟩
        · unfold zero; simp [le]
        · unfold two; simp only [le, decide_eq_true_eq]; omega
        · intro _ _; simp [F32.eq, le]
        · intro hlt; simp [lt, zero] at hlt
        · intro hlt; unfold two at hlt; simp only [lt, decide_eq_true_eq] at hlt; omega
        · intro hn; simp [isNan] at hn
    · have e : F32.max zero (F32.min (fin true a) two) = zero := by
        unfold F32.max F32.min zero two
        simp only [lt, Bool.false_eq_true, if_false]
      rw [e]
      refine ⟨by decide, by decide, ?_, fun _ => rfl, ?_, ?_⟩
      · intro h0 _
        unfold zero at h0
        simp only [le, Bool.and_eq_true, decide_eq_true_eq] at h0
        rw [h0.2]; decide
      · intro hlt; simp [lt, two] at hlt
      · intro hn; simp [isNan] at hn

theorem le_refl_of_nonNeg {x : F32} (hx : NonNeg x) : le x x = true := by
  rcases hx with rfl | ⟨a, rfl⟩ <;> simp [le]

theorem le_trans_of_nonNeg {x y z : F32} (hx : NonNeg x) (hy : NonNeg y) (hz : NonNeg z)
    (h1 : le x y = true) (h2 : le y z = true) : le x z = true := by
  rcases hx with rfl | ⟨a, rfl⟩ <;> rcases hy with rfl | ⟨b, rfl⟩ <;>
    rcases hz with rfl | ⟨c, rfl⟩ <;> simp_all [le]
  omega

theorem le_antisymm_of_nonNeg {x y : F32} (hx : NonNeg x) (hy : NonNeg y)
    (h1 : le x y = true) (h2 : le y x = true) : x = y := by
  rcases hx with rfl | ⟨a, rfl⟩ <;> rcases hy with rfl | ⟨b, rfl⟩ <;> simp_all [le]
  omega

theorem max_of_nonNeg {x y : F32} (hx : NonNeg x) (hy : NonNeg y) :
    (F32.max x y = x ∨ F32.max x y = y) ∧ le x (F32.max x y) = true ∧
      le y (F32.max x y) = true := by
  unfold F32.max
  rcases hx with rfl | ⟨a, rfl⟩ <;> rcases hy with rfl | ⟨b, rfl⟩
  · simp [lt, le]
  · simp [lt, le]
  · simp [lt, le]
  · by_cases h : a < b
    · have hl : lt (fin false a) (fin false b) = true := by simp [lt, h]
      rw [if_pos hl]
      refine ⟨Or.inr rfl, ?_, ?_⟩
      · simp only [le, decide_eq_true_eq]; omega
      · simp [le]
    · have hl : ¬ lt (fin false a) (fin false b) = true := by simp [lt, h]
      rw [if_neg hl]
      refine ⟨Or.inl rfl, ?_, ?_⟩
      · simp [le]
      · simp only [le, decide_eq_true_eq]; omega

theorem zero_lt_or_eq_of_nonNeg {x : F32} (hx : NonNeg x) : lt zero x = true ∨ x = zero := by
  rcases hx with rfl | ⟨a, rfl⟩
  · exact Or.inl rfl
  · by_cases h : 0 < a
    · left; unfold zero; simp [lt, h]
    · right; unfold zero; congr 1; omega

theorem le_zero_of_nonNeg {x : F32} (hx : NonNeg x) (h : le x zero = true) : x = zero := by
  rcases hx with rfl | ⟨a, rfl⟩
  · simp [le, zero] at h
  · unfold zero at h ⊢
    simp only [le, decide_eq_true_eq] at h
    congr 1; omega

theorem notNeg_mul_self (x : F32) : mul x x = nan ∨ NonNeg (mul x x) := by
  cases x with
  | nan => exact Or.inl rfl
  | inf s => exact Or.inr (Or.inl (by simp [mul]))
  | fin s a =>
    right
    simp only [mul, Bool.xor_self]
    exact nonNeg_ofMag _

theorem notNeg_add {x y : F32} (hx : x = nan ∨ NonNeg x) (hy : y = nan ∨ NonNeg y) :
    add x y = nan ∨ NonNeg (add x y) := by
  rcases hx with rfl | hx
  · left; cases y <;> rfl
  · rcases hy with rfl | hy
    · left; cases x <;> rfl
    · exact Or.inr (nonNeg_add hx hy)

theorem notNeg_div_ofMag {x : F32} (hx : x = nan ∨ NonNeg x) (o : Option Nat) :
    div x (ofMag false o) = nan ∨ NonNeg (div x (ofMag false o)) := by
  rcases hx with rfl | hx
  · left; cases o <;> rfl
  · rcases hx with rfl | ⟨a, rfl⟩ <;> rcases ofMag_false_cases o with h | ⟨c, h⟩ <;> rw [h]
    · exact Or.inl rfl
    · exact Or.inr (Or.inl (by simp [div]))
    · exact Or.inr (Or.inr ⟨0, by simp [div]⟩)
    · by_cases hc : c = 0
      · by_cases ha : a = 0
        · left; simp [div, hc, ha]
        · right; left; simp [div, hc, ha]
      · right
        simp only [div, hc, if_false, Bool.xor_self]
        exact nonNeg_ofMag _

theorem notNeg_mul_fin {x : F32} (hx : x = nan ∨ NonNeg x) (w : Nat) :
    mul x (fin false w) = nan ∨ NonNeg (mul x (fin false w)) := by
  rcases hx with rfl | hx
  · exact Or.inl rfl
  · rcases hx with rfl | ⟨a, rfl⟩
    · by_cases hw : w = 0
      · left; simp [mul, hw]
      · right; left; simp [mul, hw]
    · right
      simp only [mul, Bool.xor_self]
      exact nonNeg_ofMag _

theorem fin_of_notNeg_finite {x : F32} (hx : x = nan ∨ NonNeg x) (hf : isFinite x = true) :
    ∃ a, x = fin false a := by
  rcases hx with rfl | rfl | h
  · simp [isFinite, isNan] at hf
  · simp [isFinite, isNan, isInf] at hf
  · exact h

theorem div_le_one {a m : Nat} (hm : 0 < m) (ha : a ≤ m) :
    ∃ q, div (fin false a) (fin false m) = fin false q ∧ q ≤ 2 ^ 149 := by
  have hN : a * 2 ^ 149 ≤ 2 ^ 149 * m := by
    rw [Nat.mul_comm]; exact Nat.mul_le_mul_left _ ha
  obtain ⟨q, hq, hle⟩ := roundUnits_le (N := a * 2 ^ 149) (D := m) (B := 2 ^ 149) hm
    (rep_two_pow 149) (by unfold overflowMag; norm_num) hN
  refine ⟨q, ?_, hle⟩
  have hm0 : m ≠ 0 := by omega
  simp only [div, hm0, if_false, Bool.xor_self]
  rw [hq]; rfl

theorem sqrt_le_one {q : Nat} (hq : q ≤ 2 ^ 149) :
    ∃ r, sqrt (fin false q) = fin false r ∧ r ≤ 2 ^ 149 := by
  by_cases h0 : q = 0
  · exact ⟨0, by simp [sqrt, h0], Nat.zero_le _⟩
  · obtain ⟨r, hr, hle⟩ := roundSqrt_le (M := q * 2 ^ 149) (B := 2 ^ 149) (rep_two_pow 149)
      (by unfold overflowMag; norm_num) (Nat.mul_le_mul_right _ hq)
    refine ⟨r, ?_, hle⟩
    simp only [sqrt, h0, if_false, Bool.false_eq_true]
    rw [hr]; rfl

theorem ilog2_div_two_pow {n s : Nat} (h : 2 ^ s ≤ n) : ilog2 n = s + ilog2 (n / 2 ^ s) := by
  have hpos : 0 < 2 ^ s := Nat.two_pow_pos s
  have h1 : 1 ≤ n / 2 ^ s := (Nat.le_div_iff_mul_le hpos).2 (by simpa using h)
  have ha := ilog2_le _ h1
  have hb := lt_ilog2 (n / 2 ^ s)
  apply ilog2_eq_of_bounds
  · rw [pow_add, Nat.mul_comm]
    exact (Nat.le_div_iff_mul_le hpos).1 ha
  · rw [show s + ilog2 (n / 2 ^ s) + 1 = (ilog2 (n / 2 ^ s) + 1) + s by omega, pow_add]
    exact (Nat.div_lt_iff_lt_mul hpos).1 hb

theorem log2Search_zero (ss : List Nat) (r : Nat) : log2Search ss 0 r = r := by
  induction ss with
  | nil => rfl
  | cons s ss ih =>
    unfold log2Search
    have : ¬ 2 ^ s ≤ 0 := by
      have := Nat.two_pow_pos s
      omega
    rw [if_neg this]
    exact ih

theorem log2Search_eq (ss : List Nat) : shiftsOk ss = true → ∀ n r : Nat, 1 ≤ n →
    n < 2 ^ (ss.sum + 1) → log2Search ss n r = r + ilog2 n := by
  induction ss with
  | nil =>
    intro _ n r h1 h2
    have : n = 1 := by simp at h2; omega
    subst this
    rfl
  | cons s ss ih =>
    intro hok n r h1 h2
    simp only [shiftsOk, Bool.and_eq_true, decide_eq_true_eq] at hok
    have hpos : 0 < 2 ^ s := Nat.two_pow_pos s
    unfold log2Search
    by_cases hs : 2 ^ s ≤ n
    · rw [if_pos hs]
      have h1' : 1 ≤ n / 2 ^ s := (Nat.le_div_iff_mul_le hpos).2 (by simpa using hs)
      have h2' : n / 2 ^ s < 2 ^ (ss.sum + 1) := by
        apply (Nat.div_lt_iff_lt_mul hpos).2
        rw [← pow_add]
        simp only [List.sum_cons] at h2
        rw [show ss.sum + 1 + s = s + ss.sum + 1 by omega]
        exact h2
      rw [ih hok.2 _ _ h1' h2', ilog2_div_two_pow hs]
      omega
    · rw [if_neg hs]
      have h2' : n < 2 ^ (ss.sum + 1) :=
        lt_of_lt_of_le (by omega) (Nat.pow_le_pow_right (by norm_num) hok.1)
      exact ih hok.2 _ _ h1 h2'

theorem ilog2_eq_fast (n : Nat) : ilog2 n = ilog2Fast n := by
  unfold ilog2Fast
  split_ifs with h
  · by_cases h0 : 1 ≤ n
    · rw [log2Search_eq _ (by decide) n 0 h0 (by simpa using h)]
      omega
    · have : n = 0 := by omega
      subst this
      rw [log2Search_zero]
      rfl
  · rfl

theorem ilog2_fun_eq : ilog2 = ilog2Fast := funext ilog2_eq_fast

theorem roundUnits_eq_with : roundUnits = roundUnitsWith ilog2 := rfl

theorem roundSqrt_eq_with : roundSqrt = roundSqrtWith ilog2 := rfl

theorem ofRatio_eq_fast : ofRatio = ofRatioWith ilog2Fast := by
  rw [← ilog2_fun_eq]; rfl

theorem ofNat_eq_fast : ofNat = ofNatWith ilog2Fast := by
  rw [← ilog2_fun_eq]; rfl

theorem add_eq_fast : add = addWith ilog2Fast := by
  rw [← ilog2_fun_eq]
  funext x y
  cases x <;> cases y <;> rfl

theorem mul_eq_fast : mul = mulWith ilog2Fast := by
  rw [← ilog2_fun_eq]
  funext x y
  cases x <;> cases y <;> rfl

theorem div_eq_fast : div = divWith ilog2Fast := by
  rw [← ilog2_fun_eq]
  funext x y
  cases x <;> cases y <;> rfl

theorem sqrt_eq_fast : sqrt = sqrtWith ilog2Fast := by
  rw [← ilog2_fun_eq]
  funext x
  cases x <;> rfl

theorem roundUnits_exact {D B : Nat} (hD : 0 < D) (hB : B % 2 ^ ulpExp B = 0)
    (hBo : B < overflowMag) : roundUnits (B * D) D = some B := by
  obtain ⟨m, hm, hle⟩ := roundUnits_le hD hB hBo (le_refl (B * D))
  have hge := le_roundUnits hD hB (le_refl (B * D)) hm
  rw [hm]; congr 1; omega

theorem div_self_pos {a : Nat} (ha : 0 < a) : div (fin false a) (fin false a) = one := by
  have ha0 : a ≠ 0 := by omega
  have h := roundUnits_exact ha (rep_two_pow 149) (by unfold overflowMag; norm_num)
  simp only [div, ha0, if_false, Bool.xor_self]
  rw [Nat.mul_comm, h]
  rfl

theorem sqrt_one : sqrt one = one := by decide!

theorem mul_one_hundred : mul one hundred = hundred := by decide!

theorem nonNeg_of_notNeg_of_le {x y : F32} (hx : x = nan ∨ NonNeg x) (h : le x y = true) :
    NonNeg x := by
  rcases hx with rfl | hx
  · simp [le] at h
  · exact hx

theorem roundUnits_zero_left {D : Nat} (hD : 0 < D) : roundUnits 0 D = some 0 := by
  have h := roundUnits_exact (B := 0) hD (by simp) (by unfold overflowMag; norm_num)
  simpa using h

theorem eq_zero_iff {v : F32} : F32.eq v zero = true ↔ ∃ s, v = fin s 0 := by
  unfold F32.eq zero
  cases v with
  | nan => simp [le]
  | inf s => cases s <;> simp [le]
  | fin s a => cases s <;> simp [le]

theorem mul_self_zero (s : Bool) : mul (fin s 0) (fin s 0) = zero := by
  simp only [mul, Bool.xor_self, Nat.mul_zero]
  rw [roundUnits_zero_left (Nat.two_pow_pos 149)]
  rfl

theorem add_zero_zero : add zero zero = zero := by decide

theorem div_zero_ofMag_pos {o : Option Nat} (ho : ∀ c, o = some c → 0 < c) :
    div zero (ofMag false o) = zero := by
  cases o with
  | none => rfl
  | some c =>
    have hc : 0 < c := ho c rfl
    have hc0 : c ≠ 0 := by omega
    unfold zero
    simp only [ofMag, div, hc0, if_false, Bool.xor_self, Nat.zero_mul]
    rw [roundUnits_zero_left hc]

theorem div_zero_ofNat {n : Nat} (hn : 0 < n) : div zero (ofNat n) = zero := by
  unfold ofNat
  apply div_zero_ofMag_pos
  intro c hc
  have h := le_roundUnits (D := 1) (B := 2 ^ 149) (by norm_num) (rep_two_pow 149)
    (by
      calc 2 ^ 149 * 1 = 1 * 2 ^ 149 := by ring
        _ ≤ n * 2 ^ 149 := Nat.mul_le_mul_right _ hn) hc
  have : 0 < 2 ^ 149 := Nat.two_pow_pos 149
  omega

theorem level_of_zero_rms : mul (F32.min (mul zero c1_414) one) hundred = zero := by decide!

theorem sqrt_zero : sqrt zero = zero := by decide

theorem mul_fin_bounds {a c l u : Nat} (hlo : l % 2 ^ ulpExp l = 0)
    (hhi : u % 2 ^ ulpExp u = 0) (hhio : u < overflowMag)
    (h1 : l * 2 ^ 149 ≤ a * c) (h2 : a * c ≤ u * 2 ^ 149) :
    ∃ m, mul (fin false a) (fin false c) = fin false m ∧ l ≤ m ∧ m ≤ u := by
  obtain ⟨m, hm, hle⟩ := roundUnits_le (Nat.two_pow_pos 149) hhi hhio h2
  have hge := le_roundUnits (Nat.two_pow_pos 149) hlo h1 hm
  refine ⟨m, ?_, hge, hle⟩
  simp only [mul, Bool.xor_self]
  rw [hm]; rfl

theorem fin_of_le_le {x : F32} {lo hi : Nat} (hpos : 0 < lo)
    (h1 : le (fin false lo) x = true) (h2 : le x (fin false hi) = true) :
    ∃ a, x = fin false a ∧ lo ≤ a ∧ a ≤ hi := by
  cases x with
  | nan => simp [le] at h1
  | inf s => cases s <;> simp [le] at h1 h2
  | fin s a =>
    cases s
    · simp only [le, decide_eq_true_eq] at h1 h2
      exact ⟨a, rfl, h1, h2⟩
    · simp only [le, Bool.and_eq_true, decide_eq_true_eq] at h1
      omega

theorem rne_err {N D : Nat} (hD : 0 < D) :
    2 * (rne N D * D) ≤ 2 * N + D ∧ 2 * N ≤ 2 * (rne N D * D) + D := by
  have hdm := Nat.div_add_mod N D
  have hr : N % D < D := Nat.mod_lt _ hD
  have hc : N / D * D = D * (N / D) := Nat.mul_comm _ _
  have hs : (N / D + 1) * D = D * (N / D) + D := by ring
  unfold rne
  simp only
  split_ifs <;> (first | rw [hs] | rw [hc]) <;> omega

theorem roundUnits_err {N D m : Nat} (hD : 0 < D) (hm : roundUnits N D = some m) :
    2 * (m * D) ≤ 2 * N + D * 2 ^ ulpExp (N / D) ∧
      2 * N ≤ 2 * (m * D) + D * 2 ^ ulpExp (N / D) := by
  unfold roundUnits at hm
  simp only at hm
  split_ifs at hm
  simp only [Option.some.injEq] at hm
  subst hm
  have h := @rne_err N (D * 2 ^ ulpExp (N / D)) (Nat.mul_pos hD (Nat.two_pow_pos _))
  have e : rne N (D * 2 ^ ulpExp (N / D)) * 2 ^ ulpExp (N / D) * D =
      rne N (D * 2 ^ ulpExp (N / D)) * (D * 2 ^ ulpExp (N / D)) := by ring
  rw [e]
  exact h

theorem pow_ulpExp_mul_le {f : Nat} (h : 2 ^ 23 ≤ f) : 2 ^ ulpExp f * 2 ^ 23 ≤ f := by
  have h1 : 23 ≤ ilog2 f := by
    have h2 := ilog2_mono h
    have h3 : ilog2 (2 ^ 23) = 23 := ilog2_eq_of_bounds (le_refl _) (by norm_num)
    omega
  have hpos : 1 ≤ f := le_trans (Nat.one_le_two_pow) h
  unfold ulpExp
  rw [← pow_add, Nat.sub_add_cancel h1]
  exact ilog2_le f hpos

theorem roundUnits_rel {N D m : Nat} (hD : 0 < D) (hn : 2 ^ 23 * D ≤ N)
    (hm : roundUnits N D = some m) :
    m * D * 2 ^ 24 ≤ N * (2 ^ 24 + 1) ∧ N * (2 ^ 24 - 1) ≤ m * D * 2 ^ 24 := by
  obtain ⟨h1, h2⟩ := roundUnits_err hD hm
  have hf : 2 ^ 23 ≤ N / D := (Nat.le_div_iff_mul_le hD).2 hn
  have hu := pow_ulpExp_mul_le hf
  have hE : D * 2 ^ ulpExp (N / D) * 2 ^ 23 ≤ N := by
    calc D * 2 ^ ulpExp (N / D) * 2 ^ 23 = D * (2 ^ ulpExp (N / D) * 2 ^ 23) := by ring
      _ ≤ D * (N / D) := Nat.mul_le_mul_left _ hu
      _ ≤ N := Nat.mul_div_le N D
  generalize D * 2 ^ ulpExp (N / D) = E at h1 h2 hE
  generalize m * D = X at h1 h2 ⊢
  norm_num at hE ⊢
  omega

theorem roundUnits_gap {N N1 D m m1 K : Nat} (hD : 0 < D) (hn : 2 ^ 23 * D ≤ N)
    (hK : K ≤ 1024) (hg : N * (K + 1) ≤ N1 * K)
    (hm : roundUnits N D = some m) (hm1 : roundUnits N1 D = some m1) :
    m * (K + 2) ≤ m1 * (K + 1) := by
  have hNpos : 0 < N := lt_of_lt_of_le (Nat.mul_pos (Nat.two_pow_pos 23) hD) hn
  have hKpos : 0 < K := by
    rcases Nat.eq_zero_or_pos K with h | h
    · subst h; simp at hg; omega
    · exact h
  have hNN : N ≤ N1 := by
    have : N * (K + 1) ≤ N1 * (K + 1) := le_trans hg (Nat.mul_le_mul_left _ (by omega))
    exact Nat.le_of_mul_le_mul_right this (by omega)
  obtain ⟨h1, _⟩ := roundUnits_rel hD hn hm
  obtain ⟨_, h2⟩ := roundUnits_rel hD (le_trans hn hNN) hm1
  have key : (2 ^ 24 + 1) * (K * (K + 2)) ≤ (K + 1) * (K + 1) * (2 ^ 24 - 1) := by
    have hKK : K * K ≤ 1024 * K := Nat.mul_le_mul_right _ hK
    norm_num
    nlinarith
  have hchain : m * D * (K + 2) * (2 ^ 24 * K) ≤ m1 * D * (K + 1) * (2 ^ 24 * K) := by
    calc m * D * (K + 2) * (2 ^ 24 * K) = (m * D * 2 ^ 24) * (K * (K + 2)) := by ring
      _ ≤ (N * (2 ^ 24 + 1)) * (K * (K + 2)) := Nat.mul_le_mul_right _ h1
      _ = N * ((2 ^ 24 + 1) * (K * (K + 2))) := by ring
      _ ≤ N * ((K + 1) * (K + 1) * (2 ^ 24 - 1)) := Nat.mul_le_mul_left _ key
      _ = (N * (K + 1)) * ((K + 1) * (2 ^ 24 - 1)) := by ring
      _ ≤ (N1 * K) * ((K + 1) * (2 ^ 24 - 1)) := Nat.mul_le_mul_right _ hg
      _ = (N1 * (2 ^ 24 - 1)) * (K * (K + 1)) := by ring
      _ ≤ (m1 * D * 2 ^ 24) * (K * (K + 1)) := Nat.mul_le_mul_right _ h2
      _ = m1 * D * (K + 1) * (2 ^ 24 * K) := by ring
  have h3 : m * D * (K + 2) ≤ m1 * D * (K + 1) :=
    Nat.le_of_mul_le_mul_right hchain (Nat.mul_pos (Nat.two_pow_pos 24) hKpos)
  have h4 : m * (K + 2) * D ≤ m1 * (K + 1) * D := by
    calc m * (K + 2) * D = m * D * (K + 2) := by ring
      _ ≤ m1 * D * (K + 1) := h3
      _ = m1 * (K + 1) * D := by ring
  exact Nat.le_of_mul_le_mul_right h4 hD

theorem le_isqrt {n B : Nat} (h : B * B ≤ n) : B ≤ isqrt n := by
  by_contra hlt
  have h1 : isqrt n + 1 ≤ B := by omega
  have h2 := (isqrt_spec n).2
  have h3 : (isqrt n + 1) * (isqrt n + 1) ≤ B * B := Nat.mul_le_mul h1 h1
  omega

theorem roundSqrt_err {M m : Nat} (hm : roundSqrt M = some m) :
    4 * M ≤ (2 * m + 2 ^ ulpExp (isqrt M)) * (2 * m + 2 ^ ulpExp (isqrt M)) ∧
      (2 * m - 2 ^ ulpExp (isqrt M)) * (2 * m - 2 ^ ulpExp (isqrt M)) ≤ 4 * M := by
  unfold roundSqrt at hm
  simp only at hm
  have h4 : (4 : Nat) ^ ulpExp (isqrt M) = 2 ^ ulpExp (isqrt M) * 2 ^ ulpExp (isqrt M) := by
    rw [← Nat.mul_pow]
  rw [h4] at hm
  have hu : 0 < 2 ^ ulpExp (isqrt M) := Nat.two_pow_pos _
  generalize 2 ^ ulpExp (isqrt M) = u at hm hu ⊢
  have huu : 0 < u * u := Nat.mul_pos hu hu
  obtain ⟨hq1, hq2⟩ := isqrt_spec (M / (u * u))
  generalize isqrt (M / (u * u)) = q at hm hq1 hq2
  have hlo : (q * u) * (q * u) ≤ M := by
    calc (q * u) * (q * u) = q * q * (u * u) := by ring
      _ ≤ M / (u * u) * (u * u) := Nat.mul_le_mul_right _ hq1
      _ ≤ M := Nat.div_mul_le_self M (u * u)
  have hhi : M < (q * u + u) * (q * u + u) := by
    have := (Nat.div_lt_iff_lt_mul huu).1 hq2
    calc M < (q + 1) * (q + 1) * (u * u) := this
      _ = (q * u + u) * (q * u + u) := by ring
  have hc : u * u * ((2 * q + 1) * (2 * q + 1)) = (2 * (q * u) + u) * (2 * (q * u) + u) := by
    ring
  rw [hc] at hm
  have hQ1 : (q + 1) * u = q * u + u := by ring
  have hn : ∀ n : Nat, n = (if 4 * M < (2 * (q * u) + u) * (2 * (q * u) + u) then q
        else if (2 * (q * u) + u) * (2 * (q * u) + u) < 4 * M then q + 1
        else if q % 2 = 0 then q else q + 1) →
      (n * u = q * u ∧ 4 * M ≤ (2 * (q * u) + u) * (2 * (q * u) + u)) ∨
        (n * u = q * u + u ∧ (2 * (q * u) + u) * (2 * (q * u) + u) ≤ 4 * M) := by
    intro n hn
    split_ifs at hn with h1 h2 h3
    · exact Or.inl ⟨by rw [hn], by omega⟩
    · exact Or.inr ⟨by rw [hn, hQ1], by omega⟩
    · exact Or.inl ⟨by rw [hn], by omega⟩
    · exact Or.inr ⟨by rw [hn, hQ1], by omega⟩
  have hcase := hn _ rfl
  generalize (if 4 * M < (2 * (q * u) + u) * (2 * (q * u) + u) then q
        else if (2 * (q * u) + u) * (2 * (q * u) + u) < 4 * M then q + 1
        else if q % 2 = 0 then q else q + 1) = n at hm hcase
  split_ifs at hm with hov
  simp only [Option.some.injEq] at hm
  subst hm
  generalize q * u = Q at hcase hlo hhi
  have hsubQ : 2 * Q - u ≤ 2 * Q := Nat.sub_le _ _
  have hsub1 : 2 * (Q + u) - u = 2 * Q + u := by omega
  rcases hcase with ⟨hnu, hle⟩ | ⟨hnu, hle⟩
  · rw [hnu]
    refine ⟨hle, ?_⟩
    calc (2 * Q - u) * (2 * Q - u) ≤ (2 * Q) * (2 * Q) := Nat.mul_le_mul hsubQ hsubQ
      _ = 4 * (Q * Q) := by ring
      _ ≤ 4 * M := by omega
  · rw [hnu, hsub1]
    refine ⟨?_, hle⟩
    have h5 : 4 * M ≤ 4 * ((Q + u) * (Q + u)) := by omega
    calc 4 * M ≤ 4 * ((Q + u) * (Q + u)) := h5
      _ = (2 * (Q + u)) * (2 * (Q + u)) := by ring
      _ ≤ (2 * (Q + u) + u) * (2 * (Q + u) + u) :=
        Nat.mul_le_mul (Nat.le_add_right _ _) (Nat.le_add_right _ _)

theorem sqrt_rel_aux {M m u r : Nat} (h1 : 4 * M ≤ (2 * m + u) * (2 * m + u))
    (h2 : (2 * m - u) * (2 * m - u) ≤ 4 * M)
    (h3 : (u * (r + 1)) * (u * (r + 1)) ≤ 4 * M) :
    (m * (r + 1)) * (m * (r + 1)) ≤ M * ((r + 2) * (r + 2)) ∧
      M * (r * r) ≤ (m * (r + 1)) * (m * (r + 1)) := by
  constructor
  · have hX : 2 * m ≤ (2 * m - u) + u := by omega
    generalize 2 * m - u = X at h2 hX
    generalize hY : u * (r + 1) = Y at h3
    have hXY : X * Y ≤ 4 * M := by
      rcases Nat.le_total X Y with h | h
      · exact le_trans (Nat.mul_le_mul_right _ h) h3
      · exact le_trans (Nat.mul_le_mul_left _ h) h2
    have h2mp : 2 * m * (r + 1) ≤ X * (r + 1) + Y := by
      calc 2 * m * (r + 1) ≤ (X + u) * (r + 1) := Nat.mul_le_mul_right _ hX
        _ = X * (r + 1) + Y := by rw [← hY]; ring
    have hsq := Nat.mul_le_mul h2mp h2mp
    have hexp : (X * (r + 1) + Y) * (X * (r + 1) + Y) =
        (X * X) * ((r + 1) * (r + 1)) + 2 * (X * Y) * (r + 1) + Y * Y := by ring
    have hb : (X * X) * ((r + 1) * (r + 1)) + 2 * (X * Y) * (r + 1) + Y * Y ≤
        (4 * M) * ((r + 1) * (r + 1)) + 2 * (4 * M) * (r + 1) + 4 * M :=
      Nat.add_le_add (Nat.add_le_add (Nat.mul_le_mul_right _ h2)
        (Nat.mul_le_mul_right _ (Nat.mul_le_mul_left _ hXY))) h3
    have hfin : 4 * ((m * (r + 1)) * (m * (r + 1))) ≤ 4 * (M * ((r + 2) * (r + 2))) := by
      calc 4 * ((m * (r + 1)) * (m * (r + 1))) = (2 * m * (r + 1)) * (2 * m * (r + 1)) := by ring
        _ ≤ (X * (r + 1) + Y) * (X * (r + 1) + Y) := hsq
        _ = (X * X) * ((r + 1) * (r + 1)) + 2 * (X * Y) * (r + 1) + Y * Y := hexp
        _ ≤ (4 * M) * ((r + 1) * (r + 1)) + 2 * (4 * M) * (r + 1) + 4 * M := hb
        _ = 4 * (M * ((r + 2) * (r + 2))) := by ring
    omega
  · have hY : u * (r + 1) ≤ 2 * m + u :=
      Nat.mul_self_le_mul_self_iff.1 (le_trans h3 h1)
    have hur : u * r ≤ 2 * m := by
      have : u * (r + 1) = u * r + u := by ring
      omega
    have hTr : (2 * m + u) * r ≤ 2 * m * (r + 1) := by
      calc (2 * m + u) * r = 2 * m * r + u * r := by ring
        _ ≤ 2 * m * r + 2 * m := Nat.add_le_add_left hur _
        _ = 2 * m * (r + 1) := by ring
    have hsq := Nat.mul_le_mul hTr hTr
    have hfin : 4 * (M * (r * r)) ≤ 4 * ((m * (r + 1)) * (m * (r + 1))) := by
      calc 4 * (M * (r * r)) = (4 * M) * (r * r) := by ring
        _ ≤ ((2 * m + u) * (2 * m + u)) * (r * r) := Nat.mul_le_mul_right _ h1
        _ = ((2 * m + u) * r) * ((2 * m + u) * r) := by ring
        _ ≤ (2 * m * (r + 1)) * (2 * m * (r + 1)) := hsq
        _ = 4 * ((m * (r + 1)) * (m * (r + 1))) := by ring
    omega

theorem roundSqrt_rel {M m : Nat} (hn : 2 ^ 23 ≤ isqrt M) (hm : roundSqrt M = some m) :
    (m * 2 ^ 24) * (m * 2 ^ 24) ≤ M * ((2 ^ 24 + 1) * (2 ^ 24 + 1)) ∧
      M * ((2 ^ 24 - 1) * (2 ^ 24 - 1)) ≤ (m * 2 ^ 24) * (m * 2 ^ 24) := by
  obtain ⟨h1, h2⟩ := roundSqrt_err hm
  have hu := pow_ulpExp_mul_le hn
  have hs := (isqrt_spec M).1
  have h3 : (2 ^ ulpExp (isqrt M) * (16777215 + 1)) * (2 ^ ulpExp (isqrt M) * (16777215 + 1))
      ≤ 4 * M := by
    have h5 := Nat.mul_le_mul hu hu
    calc (2 ^ ulpExp (isqrt M) * (16777215 + 1)) * (2 ^ ulpExp (isqrt M) * (16777215 + 1))
        = 4 * ((2 ^ ulpExp (isqrt M) * 2 ^ 23) * (2 ^ ulpExp (isqrt M) * 2 ^ 23)) := by ring
      _ ≤ 4 * (isqrt M * isqrt M) := Nat.mul_le_mul_left _ h5
      _ ≤ 4 * M := Nat.mul_le_mul_left _ hs
  have h := sqrt_rel_aux h1 h2 h3
  norm_num at h ⊢
  exact h

theorem roundSqrt_gap_66 {M M1 m m1 : Nat} (hn : 2 ^ 23 ≤ isqrt M) (hg : M * 67 ≤ M1 * 66)
    (hm : roundSqrt M = some m) (hm1 : roundSqrt M1 = some m1) :
    m * 137 ≤ m1 * 136 := by
  have hMM : M ≤ M1 := by omega
  have hn1 : 2 ^ 23 ≤ isqrt M1 := le_isqrt (le_trans (le_trans (Nat.mul_le_mul hn hn)
    (isqrt_spec M).1) hMM)
  obtain ⟨h1, _⟩ := roundSqrt_rel hn hm
  obtain ⟨_, h2⟩ := roundSqrt_rel hn1 hm1
  have hsq : (m * 137) * (m * 137) ≤ (m1 * 136) * (m1 * 136) := by
    have e1 : (m * 137) * (m * 137) * (2 ^ 24 * 2 ^ 24 * (67 * ((2 ^ 24 - 1) * (2 ^ 24 - 1)))) ≤
        (m1 * 136) * (m1 * 136) * (2 ^ 24 * 2 ^ 24 * (67 * ((2 ^ 24 - 1) * (2 ^ 24 - 1)))) := by
      calc (m * 137) * (m * 137) * (2 ^ 24 * 2 ^ 24 * (67 * ((2 ^ 24 - 1) * (2 ^ 24 - 1))))
          = ((m * 2 ^ 24) * (m * 2 ^ 24)) * (137 * 137 * 67 * ((2 ^ 24 - 1) * (2 ^ 24 - 1))) := by
            ring
        _ ≤ (M * ((2 ^ 24 + 1) * (2 ^ 24 + 1))) *
            (137 * 137 * 67 * ((2 ^ 24 - 1) * (2 ^ 24 - 1))) := Nat.mul_le_mul_right _ h1
        _ = (M * 67) * ((2 ^ 24 + 1) * (2 ^ 24 + 1) * (137 * 137) *
            ((2 ^ 24 - 1) * (2 ^ 24 - 1))) := by ring
        _ ≤ (M1 * 66) * ((2 ^ 24 + 1) * (2 ^ 24 + 1) * (137 * 137) *
            ((2 ^ 24 - 1) * (2 ^ 24 - 1))) := Nat.mul_le_mul_right _ hg
        _ = (M1 * ((2 ^ 24 - 1) * (2 ^ 24 - 1))) *
            (66 * (137 * 137) * ((2 ^ 24 + 1) * (2 ^ 24 + 1))) := by ring
        _ ≤ ((m1 * 2 ^ 24) * (m1 * 2 ^ 24)) *
            (66 * (137 * 137) * ((2 ^ 24 + 1) * (2 ^ 24 + 1))) := Nat.mul_le_mul_right _ h2
        _ = (m1 * m1) * (2 ^ 24 * 2 ^ 24 * (66 * (137 * 137) * ((2 ^ 24 + 1) * (2 ^ 24 + 1)))) := by
            ring
        _ ≤ (m1 * m1) * (2 ^ 24 * 2 ^ 24 * (136 * 136 * 67 * ((2 ^ 24 - 1) * (2 ^ 24 - 1)))) := by
            apply Nat.mul_le_mul_left
            norm_num
        _ = (m1 * 136) * (m1 * 136) *
            (2 ^ 24 * 2 ^ 24 * (67 * ((2 ^ 24 - 1) * (2 ^ 24 - 1)))) := by ring
    exact Nat.le_of_mul_le_mul_right e1 (by norm_num)
  exact Nat.mul_self_le_mul_self_iff.1 hsq

theorem ofMag_eq_fin {s t : Bool} {o : Option Nat} {e : Nat} (h : ofMag s o = fin t e) :
    o = some e := by
  cases o with
  | none => exact absurd h (by simp [ofMag])
  | some m =>
    simp only [ofMag, fin.injEq] at h
    rw [h.2]

theorem mul_fin_some {a c e : Nat} (h : mul (fin false a) (fin false c) = fin false e) :
    roundUnits (a * c) (2 ^ 149) = some e := by
  simp only [mul, Bool.xor_self] at h
  exact ofMag_eq_fin h

theorem div_fin_some {a c e : Nat} (hc : c ≠ 0)
    (h : div (fin false a) (fin false c) = fin false e) :
    roundUnits (a * 2 ^ 149) c = some e := by
  simp only [div, hc, if_false, Bool.xor_self] at h
  exact ofMag_eq_fin h

theorem sqrt_fin_some {a e : Nat} (ha : a ≠ 0) (h : sqrt (fin false a) = fin false e) :
    roundSqrt (a * 2 ^ 149) = some e := by
  simp only [sqrt, ha, if_false, Bool.false_eq_true] at h
  exact ofMag_eq_fin h

/-- The display value `sqrt (e / M) * 100` of two weighted energies that come
from the same mean square `a >= 2^-100` with weights `ci / 64 > cj / 64`, the
maximum `M` being at most `1`: the value for the larger weight is strictly
larger. -/
theorem display_strict {a Mu ci cj ei ej : Nat} (hc : cj * 65 ≤ ci * 64) (hcj : 32 ≤ cj)
    (ha : 2 ^ 49 ≤ a) (hMu : Mu ≤ 2 ^ 149)
    (hei : mul (fin false a) (fin false (ci * 2 ^ 143)) = fin false ei)
    (hej : mul (fin false a) (fin false (cj * 2 ^ 143)) = fin false ej)
    (hlei : ei ≤ Mu) (hlej : ej ≤ Mu) :
    0 < Mu ∧ ∃ vi vj, mul (sqrt (div (fin false ei) (fin false Mu))) hundred = fin false vi ∧
      mul (sqrt (div (fin false ej) (fin false Mu))) hundred = fin false vj ∧ vj < vi := by
  have hp : (0 : Nat) < 2 ^ 149 := Nat.two_pow_pos 149
  -- stage 1: the weighted energies
  have rei := mul_fin_some hei
  have rej := mul_fin_some hej
  have hnj : 2 ^ 23 * 2 ^ 149 ≤ a * (cj * 2 ^ 143) := by
    calc 2 ^ 23 * 2 ^ 149 = 2 ^ 49 * (1 * 2 ^ 123) := by norm_num
      _ ≤ 2 ^ 49 * (cj * 2 ^ 143) := by
        apply Nat.mul_le_mul_left
        exact Nat.mul_le_mul (by omega) (Nat.pow_le_pow_right (by norm_num) (by norm_num))
      _ ≤ a * (cj * 2 ^ 143) := Nat.mul_le_mul_right _ ha
  have hg1 : a * (cj * 2 ^ 143) * (64 + 1) ≤ a * (ci * 2 ^ 143) * 64 := by
    calc a * (cj * 2 ^ 143) * (64 + 1) = (a * 2 ^ 143) * (cj * 65) := by ring
      _ ≤ (a * 2 ^ 143) * (ci * 64) := Nat.mul_le_mul_left _ hc
      _ = a * (ci * 2 ^ 143) * 64 := by ring
  have g1 := roundUnits_gap hp hnj (by norm_num) hg1 rej rei
  have hej48 : 2 ^ 48 ≤ ej := by
    refine le_roundUnits hp (rep_two_pow 48) ?_ rej
    calc 2 ^ 48 * 2 ^ 149 = 2 ^ 49 * (32 * 2 ^ 143) := by norm_num
      _ ≤ 2 ^ 49 * (cj * 2 ^ 143) :=
        Nat.mul_le_mul_left _ (Nat.mul_le_mul_right _ hcj)
      _ ≤ a * (cj * 2 ^ 143) := Nat.mul_le_mul_right _ ha
  have hei48 : 2 ^ 48 ≤ ei := by omega
  have hMu0 : Mu ≠ 0 := by
    have : 0 < 2 ^ 48 := Nat.two_pow_pos 48
    omega
  have hMupos : 0 < Mu := Nat.pos_of_ne_zero hMu0
  -- stage 2: the quotients
  obtain ⟨qi, hqi, hqi1⟩ := div_le_one hMupos hlei
  obtain ⟨qj, hqj, hqj1⟩ := div_le_one hMupos hlej
  have rqi := div_fin_some hMu0 hqi
  have rqj := div_fin_some hMu0 hqj
  have hnq : 2 ^ 23 * Mu ≤ ej * 2 ^ 149 := by
    calc 2 ^ 23 * Mu ≤ 2 ^ 23 * 2 ^ 149 := Nat.mul_le_mul_left _ hMu
      _ ≤ ej * 2 ^ 149 := Nat.mul_le_mul_right _ (le_trans (by norm_num) hej48)
  have hg2 : ej * 2 ^ 149 * (65 + 1) ≤ ei * 2 ^ 149 * 65 := by
    calc ej * 2 ^ 149 * (65 + 1) = (ej * (64 + 2)) * 2 ^ 149 := by ring
      _ ≤ (ei * (64 + 1)) * 2 ^ 149 := Nat.mul_le_mul_right _ g1
      _ = ei * 2 ^ 149 * 65 := by ring
  have g2 := roundUnits_gap hMupos hnq (by norm_num) hg2 rqj rqi
  have hqj48 : 2 ^ 48 ≤ qj := by
    refine le_roundUnits hMupos (rep_two_pow 48) ?_ rqj
    calc 2 ^ 48 * Mu ≤ 2 ^ 48 * 2 ^ 149 := Nat.mul_le_mul_left _ hMu
      _ ≤ ej * 2 ^ 149 := Nat.mul_le_mul_right _ hej48
  have hqi48 : 2 ^ 48 ≤ qi := by omega
  have hqj0 : qj ≠ 0 := by
    have : 0 < 2 ^ 48 := Nat.two_pow_pos 48
    omega
  have hqi0 : qi ≠ 0 := by
    have : 0 < 2 ^ 48 := Nat.two_pow_pos 48
    omega
  -- stage 3: the square roots
  obtain ⟨ri, hri, hri1⟩ := sqrt_le_one hqi1
  obtain ⟨rj, hrj, hrj1⟩ := sqrt_le_one hqj1
  have rri := sqrt_fin_some hqi0 hri
  have rrj := sqrt_fin_some hqj0 hrj
  have hns : 2 ^ 23 ≤ isqrt (qj * 2 ^ 149) := by
    apply le_isqrt
    calc 2 ^ 23 * 2 ^ 23 ≤ 2 ^ 48 * 2 ^ 149 := by norm_num
      _ ≤ qj * 2 ^ 149 := Nat.mul_le_mul_right _ hqj48
  have hg3 : qj * 2 ^ 149 * 67 ≤ qi * 2 ^ 149 * 66 := by
    calc qj * 2 ^ 149 * 67 = (qj * (65 + 2)) * 2 ^ 149 := by ring
      _ ≤ (qi * (65 + 1)) * 2 ^ 149 := Nat.mul_le_mul_right _ g2
      _ = qi * 2 ^ 149 * 66 := by ring
  have g3 := roundSqrt_gap_66 hns hg3 rrj rri
  have hrj23 : 2 ^ 23 ≤ rj := by
    have h2 := (roundSqrt_rel hns rrj).2
    by_contra hlt
    have hlt' : rj * 2 ^ 24 ≤ 2 ^ 47 := by
      have : rj ≤ 2 ^ 23 := by omega
      calc rj * 2 ^ 24 ≤ 2 ^ 23 * 2 ^ 24 := Nat.mul_le_mul_right _ this
        _ = 2 ^ 47 := by norm_num
    have h3 := Nat.mul_le_mul hlt' hlt'
    have h4 : 2 ^ 48 * 2 ^ 149 * ((2 ^ 24 - 1) * (2 ^ 24 - 1)) ≤
        qj * 2 ^ 149 * ((2 ^ 24 - 1) * (2 ^ 24 - 1)) :=
      Nat.mul_le_mul_right _ (Nat.mul_le_mul_right _ hqj48)
    have h5 : 2 ^ 47 * 2 ^ 47 < 2 ^ 48 * 2 ^ 149 * ((2 ^ 24 - 1) * (2 ^ 24 - 1)) := by norm_num
    omega
  -- stage 4: the percentages
  obtain ⟨vi, hvi, _⟩ := mul_hundred_le hri1
  obtain ⟨vj, hvj, _⟩ := mul_hundred_le hrj1
  have rvi : roundUnits (ri * (100 * 2 ^ 149)) (2 ^ 149) = some vi := by
    unfold hundred at hvi
    exact mul_fin_some hvi
  have rvj : roundUnits (rj * (100 * 2 ^ 149)) (2 ^ 149) = some vj := by
    unfold hundred at hvj
    exact mul_fin_some hvj
  have hnv : 2 ^ 23 * 2 ^ 149 ≤ rj * (100 * 2 ^ 149) := by
    calc 2 ^ 23 * 2 ^ 149 ≤ rj * 2 ^ 149 := Nat.mul_le_mul_right _ hrj23
      _ ≤ rj * (100 * 2 ^ 149) := Nat.mul_le_mul_left _ (by norm_num)
  have hg4 : rj * (100 * 2 ^ 149) * (136 + 1) ≤ ri * (100 * 2 ^ 149) * 136 := by
    calc rj * (100 * 2 ^ 149) * (136 + 1) = (rj * 137) * (100 * 2 ^ 149) := by ring
      _ ≤ (ri * 136) * (100 * 2 ^ 149) := Nat.mul_le_mul_right _ g3
      _ = ri * (100 * 2 ^ 149) * 136 := by ring
  have g4 := roundUnits_gap hp hnv (by norm_num) hg4 rvj rvi
  have hvj23 : 2 ^ 23 ≤ vj := le_roundUnits hp (rep_two_pow 23) hnv rvj
  rw [hqi, hri, hqj, hrj]
  refine ⟨hMupos, vi, vj, hvi, hvj, ?_⟩
  have : 0 < 2 ^ 23 := Nat.two_pow_pos 23
  omega

theorem abs_le_one {v : F32} (h : le (F32.abs v) one = true) :
    ∃ s a, v = fin s a ∧ a ≤ 2 ^ 149 := by
  cases v with
  | nan => exact absurd h (by simp [F32.abs, le])
  | inf s => exact absurd h (by simp [F32.abs, le, one])
  | fin s a =>
    refine ⟨s, a, rfl, ?_⟩
    simpa [F32.abs, le, one] using h

theorem mul_self_le_one {s : Bool} {a : Nat} (ha : a ≤ 2 ^ 149) :
    ∃ q, mul (fin s a) (fin s a) = fin false q ∧ q ≤ 2 ^ 149 ∧ (2 ^ 89 ≤ a → 2 ^ 29 ≤ q) := by
  have hp : (0 : Nat) < 2 ^ 149 := Nat.two_pow_pos 149
  obtain ⟨q, hq, hle⟩ := roundUnits_le (N := a * a) hp (rep_two_pow 149)
    (by unfold overflowMag; norm_num) (Nat.mul_le_mul ha ha)
  refine ⟨q, ?_, hle, ?_⟩
  · simp only [mul, Bool.xor_self, hq, ofMag]
  · intro hbig
    refine le_roundUnits hp (rep_two_pow 29) ?_ hq
    calc 2 ^ 29 * 2 ^ 149 = 2 ^ 89 * 2 ^ 89 := by norm_num
      _ ≤ a * a := Nat.mul_le_mul hbig hbig

theorem add_fin_bounds {A q t : Nat} (hA : A ≤ t * 2 ^ 149) (hq : q ≤ 2 ^ 149)
    (ht : t + 1 < 2 ^ 24) :
    ∃ A1, add (fin false A) (fin false q) = fin false A1 ∧ A1 ≤ (t + 1) * 2 ^ 149 ∧
      (2 ^ 29 ≤ A ∨ 2 ^ 29 ≤ q → 2 ^ 29 ≤ A1) := by
  have hB : ((t + 1) * 2 ^ 149) % 2 ^ ulpExp ((t + 1) * 2 ^ 149) = 0 := rep_mul_two_pow 149 ht
  have hBo : (t + 1) * 2 ^ 149 < overflowMag := by
    unfold overflowMag
    calc (t + 1) * 2 ^ 149 < 2 ^ 24 * 2 ^ 149 :=
          Nat.mul_lt_mul_of_pos_right ht (Nat.two_pow_pos 149)
      _ ≤ 2 ^ 277 := by norm_num
  obtain ⟨A1, hA1, hle⟩ := roundUnits_le (N := A + q) (D := 1) (by norm_num) hB hBo (by
    rw [Nat.mul_one, Nat.add_mul, Nat.one_mul]
    exact Nat.add_le_add hA hq)
  refine ⟨A1, ?_, hle, ?_⟩
  · simp only [add, if_true, hA1, ofMag]
  · intro hbig
    refine le_roundUnits (by norm_num) (rep_two_pow 29) ?_ hA1
    rw [Nat.mul_one]
    rcases hbig with h | h <;> omega

theorem rne_mul_right {N D c : Nat} (hc : 0 < c) : rne (N * c) (D * c) = rne N D := by
  unfold rne
  simp only
  rw [Nat.mul_div_mul_right _ _ hc, Nat.mul_mod_mul_right]
  have h1 : 2 * (N % D * c) < D * c ↔ 2 * (N % D) < D := by
    rw [← Nat.mul_assoc]
    exact Nat.mul_lt_mul_right hc
  have h2 : D * c < 2 * (N % D * c) ↔ D < 2 * (N % D) := by
    rw [← Nat.mul_assoc]
    exact Nat.mul_lt_mul_right hc
  simp only [h1, h2]

theorem roundUnits_cancel {N D c : Nat} (hc : 0 < c) :
    roundUnits (N * c) (D * c) = roundUnits N D := by
  unfold roundUnits
  simp only
  rw [Nat.mul_div_mul_right _ _ hc]
  have h : D * c * 2 ^ ulpExp (N / D) = D * 2 ^ ulpExp (N / D) * c := by ring
  rw [h, rne_mul_right hc]

theorem ilog2_mul_two_pow {n : Nat} (hn : 1 ≤ n) (j : Nat) : ilog2 (n * 2 ^ j) = ilog2 n + j := by
  apply ilog2_eq_of_bounds
  · rw [pow_add]
    exact Nat.mul_le_mul_right _ (ilog2_le n hn)
  · have h := lt_ilog2 n
    calc n * 2 ^ j < 2 ^ (ilog2 n + 1) * 2 ^ j :=
          Nat.mul_lt_mul_of_pos_right h (Nat.two_pow_pos j)
      _ = 2 ^ (ilog2 n + j + 1) := by rw [← pow_add]; congr 1; omega

theorem div_mul_two_pow_bounds {N D : Nat} (hD : 0 < D) (j : Nat) :
    (N / D) * 2 ^ j ≤ (N * 2 ^ j) / D ∧ (N * 2 ^ j) / D < (N / D + 1) * 2 ^ j := by
  constructor
  · apply (Nat.le_div_iff_mul_le hD).2
    calc N / D * 2 ^ j * D = (N / D * D) * 2 ^ j := by ring
      _ ≤ N * 2 ^ j := Nat.mul_le_mul_right _ (Nat.div_mul_le_self N D)
  · apply (Nat.div_lt_iff_lt_mul hD).2
    have h : N < (N / D + 1) * D := by
      have := Nat.lt_succ_self (N / D)
      exact (Nat.div_lt_iff_lt_mul hD).1 this
    calc N * 2 ^ j < (N / D + 1) * D * 2 ^ j :=
          Nat.mul_lt_mul_of_pos_right h (Nat.two_pow_pos j)
      _ = (N / D + 1) * 2 ^ j * D := by ring

theorem ulpExp_scale {N D : Nat} (hD : 0 < D) (hn : 2 ^ 23 * D ≤ N) (j : Nat) :
    ulpExp ((N * 2 ^ j) / D) = ulpExp (N / D) + j := by
  have hf : 2 ^ 23 ≤ N / D := (Nat.le_div_iff_mul_le hD).2 hn
  have hf1 : 1 ≤ N / D := le_trans Nat.one_le_two_pow hf
  have h23 : 23 ≤ ilog2 (N / D) := by
    have h2 := ilog2_mono hf
    have h3 : ilog2 (2 ^ 23) = 23 := ilog2_eq_of_bounds (le_refl _) (by norm_num)
    omega
  obtain ⟨hlo, hhi⟩ := div_mul_two_pow_bounds (N := N) hD j
  have hlog : ilog2 ((N * 2 ^ j) / D) = ilog2 (N / D) + j := by
    apply ilog2_eq_of_bounds
    · calc 2 ^ (ilog2 (N / D) + j) = 2 ^ ilog2 (N / D) * 2 ^ j := pow_add _ _ _
        _ ≤ (N / D) * 2 ^ j := Nat.mul_le_mul_right _ (ilog2_le _ hf1)
        _ ≤ (N * 2 ^ j) / D := hlo
    · have h := lt_ilog2 (N / D)
      calc (N * 2 ^ j) / D < (N / D + 1) * 2 ^ j := hhi
        _ ≤ 2 ^ (ilog2 (N / D) + 1) * 2 ^ j := Nat.mul_le_mul_right _ h
        _ = 2 ^ (ilog2 (N / D) + j + 1) := by rw [← pow_add]; congr 1; omega
  unfold ulpExp
  rw [hlog]
  omega

/-- Rounding commutes with a scaling by `2^j` in the normal range: if the
scaled quotient rounds to a finite magnitude `Z`, then the quotient rounds to a
finite magnitude `m` with `Z = m * 2^j`. -/
theorem roundUnits_scale {N D Z : Nat} (hD : 0 < D) (hn : 2 ^ 23 * D ≤ N) (j : Nat)
    (hZ : roundUnits (N * 2 ^ j) D = some Z) :
    ∃ m, roundUnits N D = some m ∧ Z = m * 2 ^ j := by
  unfold roundUnits at hZ ⊢
  simp only at hZ ⊢
  rw [ulpExp_scale hD hn j] at hZ
  have h1 : D * 2 ^ (ulpExp (N / D) + j) = D * 2 ^ ulpExp (N / D) * 2 ^ j := by
    rw [pow_add]; ring
  rw [h1, rne_mul_right (Nat.two_pow_pos j)] at hZ
  split_ifs at hZ with hlt
  simp only [Option.some.injEq] at hZ
  have h2 : rne N (D * 2 ^ ulpExp (N / D)) * 2 ^ (ulpExp (N / D) + j) =
      rne N (D * 2 ^ ulpExp (N / D)) * 2 ^ ulpExp (N / D) * 2 ^ j := by
    rw [pow_add]; ring
  rw [h2] at hZ hlt
  have hle : rne N (D * 2 ^ ulpExp (N / D)) * 2 ^ ulpExp (N / D) ≤
      rne N (D * 2 ^ ulpExp (N / D)) * 2 ^ ulpExp (N / D) * 2 ^ j :=
    Nat.le_mul_of_pos_right _ (Nat.two_pow_pos j)
  rw [if_pos (lt_of_le_of_lt hle hlt)]
  exact ⟨_, rfl, hZ.symm⟩

theorem roundUnits_zero_num {D : Nat} : roundUnits 0 D = some 0 := by
  unfold roundUnits rne
  simp [overflowMag]

/-- The squares of a sample in the scaling range and of its product by
`(-1)^flip * 2^k`. -/
theorem mul_self_scaled {s flip : Bool} {a k : Nat} (h0 : a = 0 ∨ 2 ^ 109 ≤ a)
    (hup : a * 2 ^ k ≤ 2 ^ 189) :
    ∃ Q, mul (fin s a) (fin s a) = fin false Q ∧
      mul (fin (xor s flip) (a * 2 ^ k)) (fin (xor s flip) (a * 2 ^ k)) =
        fin false (Q * 2 ^ (2 * k)) ∧
      (Q = 0 ∨ 2 ^ 69 ≤ Q) ∧ Q * 2 ^ (2 * k) ≤ 2 ^ 229 := by
  have hp : (0 : Nat) < 2 ^ 149 := Nat.two_pow_pos 149
  have hsq : (a * 2 ^ k) * (a * 2 ^ k) = a * a * 2 ^ (2 * k) := by
    rw [Nat.two_mul, pow_add]; ring
  simp only [mul, Bool.xor_self]
  rw [hsq]
  rcases h0 with h0 | hbig
  · subst h0
    refine ⟨0, ?_, ?_, Or.inl rfl, by simp⟩
    · simp [roundUnits_zero_num, ofMag]
    · simp [roundUnits_zero_num, ofMag]
  · have hle : a * a * 2 ^ (2 * k) ≤ 2 ^ 229 * 2 ^ 149 := by
      rw [← hsq]
      calc (a * 2 ^ k) * (a * 2 ^ k) ≤ 2 ^ 189 * 2 ^ 189 := Nat.mul_le_mul hup hup
        _ = 2 ^ 229 * 2 ^ 149 := by norm_num
    obtain ⟨Z, hZ, hZle⟩ := roundUnits_le hp (rep_two_pow 229)
      (by unfold overflowMag; norm_num) hle
    have hn : 2 ^ 23 * 2 ^ 149 ≤ a * a := by
      calc 2 ^ 23 * 2 ^ 149 ≤ 2 ^ 109 * 2 ^ 109 := by norm_num
        _ ≤ a * a := Nat.mul_le_mul hbig hbig
    obtain ⟨Q, hQ, hZQ⟩ := roundUnits_scale hp hn (2 * k) hZ
    subst hZQ
    refine ⟨Q, by rw [hQ]; rfl, by rw [hZ]; rfl, Or.inr ?_, hZle⟩
    refine le_roundUnits hp (rep_two_pow 69) ?_ hQ
    calc 2 ^ 69 * 2 ^ 149 = 2 ^ 109 * 2 ^ 109 := by norm_num
      _ ≤ a * a := Nat.mul_le_mul hbig hbig

/-- The sums of two scaled pairs. -/
theorem add_scaled {A Q t j : Nat} (hA0 : A = 0 ∨ 2 ^ 69 ≤ A) (hQ0 : Q = 0 ∨ 2 ^ 69 ≤ Q)
    (hA : A * 2 ^ j ≤ t * 2 ^ 229) (hQ : Q * 2 ^ j ≤ 2 ^ 229) (ht : t + 1 < 2 ^ 24) :
    ∃ A1, add (fin false A) (fin false Q) = fin false A1 ∧
      add (fin false (A * 2 ^ j)) (fin false (Q * 2 ^ j)) = fin false (A1 * 2 ^ j) ∧
      (A1 = 0 ∨ 2 ^ 69 ≤ A1) ∧ A1 * 2 ^ j ≤ (t + 1) * 2 ^ 229 := by
  simp only [add, if_true]
  rw [← Nat.add_mul]
  have hB : ((t + 1) * 2 ^ 229) % 2 ^ ulpExp ((t + 1) * 2 ^ 229) = 0 := rep_mul_two_pow 229 ht
  have hBo : (t + 1) * 2 ^ 229 < overflowMag := by
    unfold overflowMag
    calc (t + 1) * 2 ^ 229 < 2 ^ 24 * 2 ^ 229 :=
          Nat.mul_lt_mul_of_pos_right ht (Nat.two_pow_pos 229)
      _ ≤ 2 ^ 277 := by norm_num
  by_cases hz : A + Q = 0
  · rw [hz]
    refine ⟨0, ?_, ?_, Or.inl rfl, by simp⟩
    · simp [roundUnits_zero_num, ofMag]
    · simp [roundUnits_zero_num, ofMag]
  · have hsum : 2 ^ 69 ≤ A + Q := by
      rcases hA0 with h | h
      · rcases hQ0 with h' | h'
        · omega
        · omega
      · omega
    obtain ⟨Z, hZ, hZle⟩ := roundUnits_le (N := (A + Q) * 2 ^ j) (D := 1) (by norm_num) hB hBo
      (by
        rw [Nat.mul_one, Nat.add_mul, Nat.add_mul, Nat.one_mul]
        exact Nat.add_le_add hA hQ)
    have hn : 2 ^ 23 * 1 ≤ A + Q := by
      have : (2 : Nat) ^ 23 ≤ 2 ^ 69 := by norm_num
      omega
    obtain ⟨A1, hA1, hZA⟩ := roundUnits_scale (by norm_num) hn j hZ
    subst hZA
    refine ⟨A1, by rw [hA1]; rfl, by rw [hZ]; rfl, Or.inr ?_, hZle⟩
    refine le_roundUnits (by norm_num) (rep_two_pow 69) ?_ hA1
    omega

/-- The quotients of a scaled pair by the number of samples. -/
theorem div_scaled {A c j : Nat} (hA0 : A = 0 ∨ 2 ^ 69 ≤ A) (hc : 0 < c) (hc24 : c < 2 ^ 24)
    (hA : A * 2 ^ j ≤ c * 2 ^ 229) :
    ∃ m, div (fin false A) (fin false (c * 2 ^ 149)) = fin false m ∧
      div (fin false (A * 2 ^ j)) (fin false (c * 2 ^ 149)) = fin false (m * 2 ^ j) ∧
      (m = 0 ∨ 2 ^ 45 ≤ m) ∧ m * 2 ^ j ≤ 2 ^ 229 := by
  have hD : 0 < c * 2 ^ 149 := Nat.mul_pos hc (Nat.two_pow_pos 149)
  have hD0 : c * 2 ^ 149 ≠ 0 := Nat.pos_iff_ne_zero.1 hD
  simp only [div, hD0, if_false, Bool.xor_self]
  have hcomm : A * 2 ^ j * 2 ^ 149 = A * 2 ^ 149 * 2 ^ j := by ring
  rw [hcomm]
  rcases hA0 with h0 | hbig
  · subst h0
    refine ⟨0, ?_, ?_, Or.inl rfl, by simp⟩
    · simp [roundUnits_zero_num, ofMag]
    · simp [roundUnits_zero_num, ofMag]
  · obtain ⟨Z, hZ, hZle⟩ := roundUnits_le (N := A * 2 ^ 149 * 2 ^ j) hD (rep_two_pow 229)
      (by unfold overflowMag; norm_num)
      (by
        calc A * 2 ^ 149 * 2 ^ j = (A * 2 ^ j) * 2 ^ 149 := by ring
          _ ≤ (c * 2 ^ 229) * 2 ^ 149 := Nat.mul_le_mul_right _ hA
          _ = 2 ^ 229 * (c * 2 ^ 149) := by ring)
    have hc69 : 2 ^ 45 * c ≤ A := by
      calc 2 ^ 45 * c ≤ 2 ^ 45 * 2 ^ 24 := Nat.mul_le_mul_left _ (le_of_lt hc24)
        _ = 2 ^ 69 := by norm_num
        _ ≤ A := hbig
    have hn : 2 ^ 23 * (c * 2 ^ 149) ≤ A * 2 ^ 149 := by
      calc 2 ^ 23 * (c * 2 ^ 149) = (2 ^ 23 * c) * 2 ^ 149 := by ring
        _ ≤ (2 ^ 45 * c) * 2 ^ 149 :=
          Nat.mul_le_mul_right _ (Nat.mul_le_mul_right _ (by norm_num))
        _ ≤ A * 2 ^ 149 := Nat.mul_le_mul_right _ hc69
    obtain ⟨m, hm, hZm⟩ := roundUnits_scale hD hn j hZ
    subst hZm
    refine ⟨m, by rw [hm]; rfl, by rw [hZ]; rfl, Or.inr ?_, hZle⟩
    refine le_roundUnits hD (rep_two_pow 45) ?_ hm
    calc 2 ^ 45 * (c * 2 ^ 149) = (2 ^ 45 * c) * 2 ^ 149 := by ring
      _ ≤ A * 2 ^ 149 := Nat.mul_le_mul_right _ hc69

/-- The products of a scaled pair by a weight between `0.5` and `1`. -/
theorem mul_weight_scaled {m w j : Nat} (hm0 : m = 0 ∨ 2 ^ 45 ≤ m) (hw1 : 2 ^ 148 ≤ w)
    (hw2 : w ≤ 2 ^ 149) (hm : m * 2 ^ j ≤ 2 ^ 229) :
    ∃ e, mul (fin false m) (fin false w) = fin false e ∧
      mul (fin false (m * 2 ^ j)) (fin false w) = fin false (e * 2 ^ j) := by
  have hp : (0 : Nat) < 2 ^ 149 := Nat.two_pow_pos 149
  simp only [mul, Bool.xor_self]
  have hcomm : m * 2 ^ j * w = m * w * 2 ^ j := by ring
  rw [hcomm]
  rcases hm0 with h0 | hbig
  · subst h0
    refine ⟨0, ?_, ?_⟩
    · simp [roundUnits_zero_num, ofMag]
    · simp [roundUnits_zero_num, ofMag]
  · obtain ⟨Z, hZ, _⟩ := roundUnits_le (N := m * w * 2 ^ j) hp (rep_two_pow 229)
      (by unfold overflowMag; norm_num)
      (by
        calc m * w * 2 ^ j = (m * 2 ^ j) * w := by ring
          _ ≤ 2 ^ 229 * 2 ^ 149 := Nat.mul_le_mul hm hw2)
    have hn : 2 ^ 23 * 2 ^ 149 ≤ m * w := by
      calc 2 ^ 23 * 2 ^ 149 ≤ 2 ^ 45 * 2 ^ 148 := by norm_num
        _ ≤ m * w := Nat.mul_le_mul hbig hw1
    obtain ⟨e, he, hZe⟩ := roundUnits_scale hp hn j hZ
    subst hZe
    exact ⟨e, by rw [he]; rfl, by rw [hZ]; rfl⟩

/-- The display value of a scaled energy with the scaled maximum. -/
theorem div_scaled_max {e Mu j : Nat} (hMu : 0 < Mu) :
    div (fin false (e * 2 ^ j)) (fin false (Mu * 2 ^ j)) =
      div (fin false e) (fin false Mu) := by
  have h1 : Mu ≠ 0 := Nat.pos_iff_ne_zero.1 hMu
  have h2 : Mu * 2 ^ j ≠ 0 := Nat.pos_iff_ne_zero.1 (Nat.mul_pos hMu (Nat.two_pow_pos j))
  simp only [div, h1, h2, if_false]
  have hcomm : e * 2 ^ j * 2 ^ 149 = e * 2 ^ 149 * 2 ^ j := by ring
  rw [hcomm, roundUnits_cancel (Nat.two_pow_pos j)]

theorem max_scaled {a b j : Nat} :
    F32.max (fin false (a * 2 ^ j)) (fin false (b * 2 ^ j)) =
      (match F32.max (fin false a) (fin false b) with
        | fin s c => fin s (c * 2 ^ j)
        | v => v) ∧
      ∃ c, F32.max (fin false a) (fin false b) = fin false c := by
  have h : (a * 2 ^ j < b * 2 ^ j) ↔ a < b := Nat.mul_lt_mul_right (Nat.two_pow_pos j)
  unfold F32.max
  simp only [lt, h]
  by_cases hab : a < b
  · simp [hab]
  · simp [hab]

theorem rep_mul_pow {a : Nat} (k : Nat) (ha : a % 2 ^ ulpExp a = 0) :
    (a * 2 ^ k) % 2 ^ ulpExp (a * 2 ^ k) = 0 := by
  rcases Nat.eq_zero_or_pos a with h0 | hpos
  · subst h0; simp
  · apply Nat.mod_eq_zero_of_dvd
    have hle : ulpExp (a * 2 ^ k) ≤ ulpExp a + k := by
      unfold ulpExp
      rw [ilog2_mul_two_pow hpos k]
      omega
    have h1 : 2 ^ ulpExp (a * 2 ^ k) ∣ 2 ^ (ulpExp a + k) := pow_dvd_pow 2 hle
    have h2 : 2 ^ (ulpExp a + k) ∣ a * 2 ^ k := by
      rw [pow_add]
      exact Nat.mul_dvd_mul (Nat.dvd_of_mod_eq_zero ha) (dvd_refl _)
    exact dvd_trans h1 h2

end F32

/-! ## The operations of `ASIOHandler` -/

theorem wrapInt32_range (z : Int) : -(2 ^ 31) ≤ wrapInt32 z ∧ wrapInt32 z < 2 ^ 31 := by
  unfold wrapInt32
  have h1 : 0 ≤ (z + 2 ^ 31) % 2 ^ 32 := Int.emod_nonneg _ (by norm_num)
  have h2 : (z + 2 ^ 31) % 2 ^ 32 < 2 ^ 32 := Int.emod_lt_of_pos _ (by norm_num)
  constructor <;> omega

theorem levelStep_fold_inv (input : List F32) : ∀ acc : F32 × Int,
    NonNeg acc.1 → -(2 ^ 31) ≤ acc.2 ∧ acc.2 < 2 ^ 31 →
    NonNeg (input.foldl levelStep acc).1 ∧
      (-(2 ^ 31) ≤ (input.foldl levelStep acc).2 ∧ (input.foldl levelStep acc).2 < 2 ^ 31) := by
  induction input with
  | nil => intro acc h1 h2; exact ⟨h1, h2⟩
  | cons x xs ih =>
    intro acc h1 h2
    simp only [List.foldl_cons]
    apply ih
    · unfold levelStep
      by_cases hx : (!isNan x && !isInf x) = true
      · rw [if_pos hx]
        exact nonNeg_add h1 (nonNeg_mul_self hx)
      · rw [if_neg hx]; exact h1
    · unfold levelStep
      by_cases hx : (!isNan x && !isInf x) = true
      · rw [if_pos hx]; exact wrapInt32_range _
      · rw [if_neg hx]; exact h2

theorem ofInt_pos {z : Int} (h1 : 0 < z) (h2 : z < 2 ^ 31) :
    ∃ c, ofInt z = fin false c ∧ 0 < c := by
  unfold ofInt
  rw [if_neg (by omega)]
  apply ofNat_pos
  · omega
  · have : (z.natAbs : Int) < 2 ^ 31 := by omega
    have h3 : z.natAbs < 2 ^ 31 := by exact_mod_cast this
    calc z.natAbs ≤ 2 ^ 31 := le_of_lt h3
      _ ≤ 2 ^ 127 := by norm_num

theorem inputLevel_range (input : List F32) :
    ∃ r, inputLevel input = fin false r ∧ r ≤ 100 * 2 ^ 149 := by
  obtain ⟨hS, _, hc⟩ := levelStep_fold_inv input (zero, 0) nonNeg_zero (by norm_num)
  have hrms : NonNeg (if 0 < (input.foldl levelStep (zero, 0)).2
      then sqrt (div (input.foldl levelStep (zero, 0)).1 (ofInt (input.foldl levelStep (zero, 0)).2))
      else zero) := by
    split_ifs with hpos
    · obtain ⟨c, hce, hcp⟩ := ofInt_pos hpos hc
      rw [hce]
      exact nonNeg_sqrt (nonNeg_div_pos hS hcp)
    · exact nonNeg_zero
  have hscaled := nonNeg_mul_pos (c := 11861492 * 2 ^ 126) hrms (by norm_num)
  rw [← c1_414_eq] at hscaled
  obtain ⟨m, hm, hle⟩ := min_one_of_nonNeg hscaled
  obtain ⟨r, hr, hrle⟩ := mul_hundred_le hle
  refine ⟨r, ?_, hrle⟩
  unfold inputLevel
  simp only
  rw [hm, hr]

theorem transformLoop_eq (gain : F32) (input out : List F32) : ∀ n, n ≤ input.length →
    n ≤ out.length →
    transformLoop gain input n out =
      some ((input.take n).map (fun x => mul x (neg gain)) ++ out.drop n) := by
  intro n
  induction n with
  | zero => intro _ _; simp [transformLoop]
  | succ n ih =>
    intro h1 h2
    have hin : n < input.length := by omega
    have hout : n < out.length := by omega
    unfold transformLoop
    rw [ih (by omega) (by omega)]
    simp only [List.getElem?_eq_getElem hin]
    have hlen : ((input.take n).map (fun x => mul x (neg gain)) ++ out.drop n).length
        = out.length := by
      simp [List.length_take, Nat.min_eq_left (le_of_lt hin)]; omega
    rw [if_pos (by rw [hlen]; exact hout)]
    congr 1
    apply List.ext_getElem?
    intro i
    rw [List.getElem?_set]
    by_cases hi : n = i
    · subst hi
      simp [hlen, hout, List.getElem?_append_left, List.length_take, hin,
        Nat.min_eq_left (le_of_lt hin), List.getElem?_take]
    · rw [if_neg hi]
      by_cases hlt : i < n
      · have l1 : i < ((input.take n).map (fun x => mul x (neg gain))).length := by
          simp [List.length_take]; omega
        have l2 : i < ((input.take (n + 1)).map (fun x => mul x (neg gain))).length := by
          simp [List.length_take]; omega
        rw [List.getElem?_append_left l1, List.getElem?_append_left l2]
        simp [List.getElem?_take, hlt, Nat.lt_succ_of_lt hlt]
      · have hgt : n + 1 ≤ i := by omega
        have l1 : ((input.take n).map (fun x => mul x (neg gain))).length = n := by
          simp [List.length_take]; omega
        have l2 : ((input.take (n + 1)).map (fun x => mul x (neg gain))).length = n + 1 := by
          simp [List.length_take]; omega
        rw [List.getElem?_append_right (by omega), List.getElem?_append_right (by omega), l1, l2]
        simp only [List.getElem?_drop]
        congr 1
        omega

theorem transformLoop_full (gain : F32) (input out : List F32)
    (h : out.length = input.length) :
    transformLoop gain input input.length out = some (input.map (fun x => mul x (neg gain))) := by
  rw [transformLoop_eq gain input out input.length (le_refl _) (by omega)]
  simp [← h]

namespace State

theorem buffer_setBuffer_same (s : State) (k : Fin 2) (b : AudioBuffer) :
    (s.setBuffer k b).buffer k = b := by
  unfold setBuffer buffer
  split_ifs <;> rfl

theorem buffer_setBuffer_other (s : State) {k j : Fin 2} (b : AudioBuffer) (h : j ≠ k) :
    (s.setBuffer k b).buffer j = s.buffer j := by
  unfold setBuffer buffer
  split_ifs with h1 h2 h2
  · exact absurd (h1.trans h2.symm) h
  · rfl
  · rfl
  · exfalso; omega

theorem setBuffer_gain (s : State) (k : Fin 2) (b : AudioBuffer) :
    (s.setBuffer k b).gain = s.gain := by
  unfold setBuffer; split_ifs <;> rfl

theorem setBuffer_processing (s : State) (k : Fin 2) (b : AudioBuffer) :
    (s.setBuffer k b).processing = s.processing := by
  unfold setBuffer; split_ifs <;> rfl

theorem setBuffer_bufferSize (s : State) (k : Fin 2) (b : AudioBuffer) :
    (s.setBuffer k b).bufferSize = s.bufferSize := by
  unfold setBuffer; split_ifs <;> rfl

theorem setBuffer_currentBuffer (s : State) (k : Fin 2) (b : AudioBuffer) :
    (s.setBuffer k b).currentBuffer = s.currentBuffer := by
  unfold setBuffer; split_ifs <;> rfl

end State

theorem bufferSwitchStatic_running (s : State) (k : Fin 2) (hrun : s.processing = true)
    (hin : s.bufferSize ≤ (s.buffer k).input.length)
    (hout : s.bufferSize ≤ (s.buffer k).output.length) :
    bufferSwitchStatic s k.val = some (State.setBuffer { s with currentBuffer := k } k
      { input := (s.buffer k).input,
        output := ((s.buffer k).input.take s.bufferSize).map (fun x => mul x (neg s.gain))
          ++ (s.buffer k).output.drop s.bufferSize,
        ready := true }) := by
  unfold bufferSwitchStatic
  rw [if_pos hrun, dif_pos k.isLt]
  simp only [Fin.eta]
  rw [transformLoop_eq s.gain _ _ _ hin hout]

theorem bufferSwitchStatic_eq_bufferSwitch (s : State) (k : Fin 2)
    (hrun : s.processing = true) :
    bufferSwitchStatic s k.val = bufferSwitch { s with currentBuffer := k } := by
  unfold bufferSwitchStatic bufferSwitch
  rw [if_pos hrun, dif_pos k.isLt]
  rfl

theorem bufferSwitchStatic_stopped (s : State) (index : Nat) (hstop : s.processing = false) :
    bufferSwitchStatic s index = some s := by
  unfold bufferSwitchStatic
  simp [hstop]

theorem runCallbacks_stopped (s : State) (hstop : s.processing = false) :
    ∀ indices : List Nat, runCallbacks s indices = some s := by
  intro indices
  induction indices with
  | nil => rfl
  | cons index rest ih =>
    unfold runCallbacks
    rw [bufferSwitchStatic_stopped s index hstop]
    exact ih

theorem ofInt_natCast (n : Nat) : ofInt (n : Int) = ofNat n := by
  unfold ofInt
  rw [if_neg (by omega)]
  simp

theorem wrapInt32_of_range {z : Int} (h1 : 0 ≤ z) (h2 : z < 2 ^ 31) : wrapInt32 z = z := by
  unfold wrapInt32
  rw [Int.emod_eq_of_lt (by omega) (by omega)]
  omega

theorem levelStep_fold_eq (x : List F32) : ∀ (S : F32) (n : Nat), n + x.length < 2 ^ 31 →
    x.foldl levelStep (S, (n : Int)) =
      (((specFiniteSamples x).map (fun v => mul v v)).foldl add S,
        ((n + (specFiniteSamples x).length : Nat) : Int)) := by
  induction x with
  | nil => intro S n _; simp [specFiniteSamples]
  | cons v vs ih =>
    intro S n hn
    simp only [List.length_cons] at hn
    simp only [List.foldl_cons]
    by_cases hv : isFinite v = true
    · have hstep : levelStep (S, (n : Int)) v = (add S (mul v v), ((n + 1 : Nat) : Int)) := by
        unfold levelStep
        unfold isFinite at hv
        rw [if_pos hv]
        simp only [Prod.mk.injEq, true_and]
        rw [wrapInt32_of_range (by omega) (by push_cast; omega)]
        push_cast; rfl
      rw [hstep, ih _ (n + 1) (by omega)]
      simp only [specFiniteSamples, List.filter_cons, hv, if_true, List.map_cons, List.foldl_cons,
        List.length_cons, Prod.mk.injEq, true_and]
      congr 1; omega
    · have hstep : levelStep (S, (n : Int)) v = (S, (n : Int)) := by
        unfold levelStep
        unfold isFinite at hv
        rw [if_neg hv]
      rw [hstep, ih _ n (by omega)]
      simp only [specFiniteSamples, List.filter_cons, hv, if_false, Bool.false_eq_true]

theorem inputLevel_eq_specLevel (x : List F32) (hlen : x.length < 2 ^ 31) :
    inputLevel x = specLevel c1_414 x := by
  have hfold := levelStep_fold_eq x zero 0 (by omega)
  simp only [Nat.cast_zero, zero_add] at hfold
  unfold inputLevel specLevel specRms specSumSquares
  simp only
  rw [hfold]
  simp only
  rw [F32.mul_comm hundred, F32.mul_comm c1_414]
  by_cases h0 : (specFiniteSamples x).length = 0
  · simp [h0]
  · have hpos : (0 : Int) < ((specFiniteSamples x).length : Int) := by
      have : 0 < (specFiniteSamples x).length := Nat.pos_of_ne_zero h0
      exact_mod_cast this
    rw [if_pos hpos, if_neg h0, ofInt_natCast]

theorem take_drop_eq_map_range' (x : List F32) : ∀ (n lo : Nat), lo + n ≤ x.length →
    (x.drop lo).take n = (List.range' lo n).map (fun i => x.getD i zero) := by
  intro n
  induction n with
  | zero => intro lo _; simp
  | succ n ih =>
    intro lo h
    have hlo : lo < x.length := by omega
    rw [List.drop_eq_getElem_cons hlo, List.take_succ_cons, ih (lo + 1) (by omega)]
    simp [List.range'_succ, List.getD_eq_getElem?_getD, List.getElem?_eq_getElem hlo]

theorem sumSquares_eq_spec (x : List F32) (lo hi : Nat) (h : hi ≤ x.length) :
    sumSquares x lo hi = ((specBandSamples x lo hi).map (fun v => mul v v)).foldl add zero := by
  unfold sumSquares specBandSamples
  by_cases hlh : lo ≤ hi
  · rw [take_drop_eq_map_range' x (hi - lo) lo (by omega)]
    simp only [List.foldl_map]
  · have : hi - lo = 0 := by omega
    simp [this]

theorem frequencyWeight_eq :
    ∀ b : Fin 32, frequencyWeight b.val = fin false ((64 - b.val) * 2 ^ 143) := by
  decide!

theorem frequencyWeight_pos {b : Nat} (hb : b < 32) :
    ∃ w, frequencyWeight b = fin false w ∧ 0 < w := by
  refine ⟨(64 - b) * 2 ^ 143, frequencyWeight_eq ⟨b, hb⟩, ?_⟩
  exact Nat.mul_pos (by omega) (Nat.two_pow_pos 143)

theorem roundUnits_zero : roundUnits 0 (2 ^ 149) = some 0 := by decide!

theorem mul_zero_pos (w : Nat) : mul zero (fin false w) = zero := by
  unfold zero
  simp only [mul, Bool.xor_self, Nat.zero_mul]
  rw [roundUnits_zero]
  rfl

theorem bandEnergy_eq_spec (x : List F32) {b : Nat} (hb : b < 32) :
    bandEnergy x b = specBandEnergy x b := by
  unfold bandEnergy specBandEnergy
  simp only [numBands]
  have hhi : Nat.min ((b + 1) * (x.length / 32)) x.length ≤ x.length := Nat.min_le_right _ _
  by_cases hlt : b * (x.length / 32) < Nat.min ((b + 1) * (x.length / 32)) x.length
  · rw [if_pos hlt, if_neg (by omega), sumSquares_eq_spec x _ _ hhi, F32.mul_comm]
    rfl
  · rw [if_neg hlt, if_pos (by omega)]
    obtain ⟨w, hw, _⟩ := frequencyWeight_pos hb
    have hs : sumSquares x (b * (x.length / 32)) (Nat.min ((b + 1) * (x.length / 32)) x.length)
        = zero := by
      unfold sumSquares
      have : Nat.min ((b + 1) * (x.length / 32)) x.length - b * (x.length / 32) = 0 := by omega
      simp [this]
    rw [hs, hw, mul_zero_pos]

theorem bandEnergies_eq_spec (x : List F32) : bandEnergies x = specBandEnergies x := by
  unfold bandEnergies specBandEnergies
  simp only [numBands]
  apply List.map_congr_left
  intro b hb
  exact bandEnergy_eq_spec x (List.mem_range.1 hb)

theorem foldl_max_inv (l : List F32) : ∀ m0 : F32, NonNeg m0 → (∀ e ∈ l, NonNeg e) →
    NonNeg (l.foldl (fun m e => F32.max m e) m0) ∧
      le m0 (l.foldl (fun m e => F32.max m e) m0) = true ∧
      (∀ e ∈ l, le e (l.foldl (fun m e => F32.max m e) m0) = true) ∧
      (l.foldl (fun m e => F32.max m e) m0 = m0 ∨ l.foldl (fun m e => F32.max m e) m0 ∈ l) := by
  induction l with
  | nil =>
    intro m0 h0 _
    exact ⟨h0, le_refl_of_nonNeg h0, by simp, Or.inl rfl⟩
  | cons x xs ih =>
    intro m0 h0 hl
    have hx : NonNeg x := hl x (List.mem_cons_self _ _)
    have hxs : ∀ e ∈ xs, NonNeg e := fun e he => hl e (List.mem_cons_of_mem _ he)
    obtain ⟨hsel, hle1, hle2⟩ := max_of_nonNeg h0 hx
    have hm : NonNeg (F32.max m0 x) := by rcases hsel with h | h <;> rw [h] <;> assumption
    obtain ⟨r1, r2, r3, r4⟩ := ih (F32.max m0 x) hm hxs
    simp only [List.foldl_cons]
    refine ⟨r1, le_trans_of_nonNeg h0 hm r1 hle1 r2, ?_, ?_⟩
    · intro e he
      rcases List.mem_cons.1 he with rfl | he
      · exact le_trans_of_nonNeg hx hm r1 hle2 r2
      · exact r3 e he
    · rcases r4 with h | h
      · rcases hsel with h' | h'
        · left; rw [h, h']
        · right; rw [h, h']; exact List.mem_cons_self _ _
      · right; exact List.mem_cons_of_mem _ h

theorem maxEnergy_isMaxOf (E : List F32) (hE : ∀ e ∈ E, NonNeg e) (hne : E ≠ []) :
    NonNeg (maxEnergy E) ∧ IsMaxOf (maxEnergy E) E := by
  obtain ⟨r1, _, r3, r4⟩ := foldl_max_inv E zero nonNeg_zero hE
  refine ⟨r1, ?_, r3⟩
  rcases r4 with h | h
  · obtain ⟨e, he⟩ := List.exists_mem_of_ne_nil E hne
    have hle := r3 e he
    unfold maxEnergy
    rw [h] at hle ⊢
    have := le_zero_of_nonNeg (hE e he) hle
    rw [← this]; exact he
  · exact h

theorem isMaxOf_unique (E : List F32) (hE : ∀ e ∈ E, NonNeg e) {M : F32} (hM : IsMaxOf M E)
    (hne : E ≠ []) : M = maxEnergy E := by
  obtain ⟨hn, hmem, hmax⟩ := maxEnergy_isMaxOf E hE hne
  exact le_antisymm_of_nonNeg (hE M hM.1) hn (hmax M hM.1) (hM.2 _ hmem)

theorem foldl_squares_nonNeg (l : List F32) (hl : ∀ v ∈ l, isFinite v = true) :
    ∀ S : F32, NonNeg S → NonNeg (l.foldl (fun energy x => add energy (mul x x)) S) := by
  induction l with
  | nil => intro S hS; exact hS
  | cons v vs ih =>
    intro S hS
    simp only [List.foldl_cons]
    exact ih (fun w hw => hl w (List.mem_cons_of_mem _ hw)) _
      (nonNeg_add hS (nonNeg_mul_self (hl v (List.mem_cons_self _ _))))

theorem sumSquares_nonNeg (x : List F32) (hfin : ∀ v ∈ x, isFinite v = true) (lo hi : Nat) :
    NonNeg (sumSquares x lo hi) := by
  unfold sumSquares
  apply foldl_squares_nonNeg _ _ _ nonNeg_zero
  intro v hv
  exact hfin v (List.mem_of_mem_drop (List.mem_of_mem_take hv))

theorem bandEnergy_nonNeg (x : List F32) (hfin : ∀ v ∈ x, isFinite v = true)
    (hsize : x.length < 2 ^ 64) {b : Nat} (hb : b < 32) : NonNeg (bandEnergy x b) := by
  obtain ⟨w, hw, hwpos⟩ := frequencyWeight_pos hb
  unfold bandEnergy
  simp only
  rw [hw]
  apply nonNeg_mul_pos _ hwpos
  have hS := sumSquares_nonNeg x hfin (b * (x.length / numBands))
    (Nat.min ((b + 1) * (x.length / numBands)) x.length)
  split_ifs with hlt
  · have hcnt : Nat.min ((b + 1) * (x.length / numBands)) x.length
        - b * (x.length / numBands) ≤ 2 ^ 127 := by
      have h1 : Nat.min ((b + 1) * (x.length / numBands)) x.length ≤ x.length :=
        Nat.min_le_right _ _
      have h2 : (2 : Nat) ^ 64 ≤ 2 ^ 127 := by norm_num
      omega
    obtain ⟨c, hc, hcpos⟩ := ofNat_pos (Nat.sub_pos_of_lt hlt) hcnt
    rw [hc]
    exact nonNeg_div_pos hS hcpos
  · exact hS

theorem bandEnergies_nonNeg (x : List F32) (hfin : ∀ v ∈ x, isFinite v = true)
    (hsize : x.length < 2 ^ 64) : ∀ e ∈ bandEnergies x, NonNeg e := by
  intro e he
  unfold bandEnergies at he
  obtain ⟨b, hb, rfl⟩ := List.mem_map.1 he
  exact bandEnergy_nonNeg x hfin hsize (List.mem_range.1 hb)

theorem bandEnergies_ne_nil (x : List F32) : bandEnergies x ≠ [] := by
  intro h
  have : (bandEnergies x).length = 32 := by simp [bandEnergies, numBands]
  rw [h] at this
  simp at this

theorem fftData_eq_specFFT (x : List F32) :
    fftData x = specFFT (bandEnergies x) (maxEnergy (bandEnergies x)) := by
  unfold fftData specFFT
  simp only [numBands]
  split_ifs
  · apply List.map_congr_left
    intro e _
    exact F32.mul_comm _ _
  · rfl

theorem foldl_squares_notNeg (l : List F32) :
    ∀ S : F32, (S = nan ∨ NonNeg S) →
      (l.foldl (fun energy x => add energy (mul x x)) S = nan ∨
        NonNeg (l.foldl (fun energy x => add energy (mul x x)) S)) := by
  induction l with
  | nil => intro S hS; exact hS
  | cons v vs ih =>
    intro S hS
    simp only [List.foldl_cons]
    exact ih _ (notNeg_add hS (notNeg_mul_self v))

theorem bandEnergy_notNeg (x : List F32) {b : Nat} (hb : b < 32) :
    bandEnergy x b = nan ∨ NonNeg (bandEnergy x b) := by
  obtain ⟨w, hw, _⟩ := frequencyWeight_pos hb
  unfold bandEnergy
  simp only
  rw [hw]
  apply notNeg_mul_fin
  have hS : sumSquares x (b * (x.length / numBands))
      (Nat.min ((b + 1) * (x.length / numBands)) x.length) = nan ∨
      NonNeg (sumSquares x (b * (x.length / numBands))
        (Nat.min ((b + 1) * (x.length / numBands)) x.length)) := by
    unfold sumSquares
    exact foldl_squares_notNeg _ _ (Or.inr nonNeg_zero)
  split_ifs
  · unfold ofNat
    exact notNeg_div_ofMag hS _
  · exact hS

theorem fftData_range (x : List F32)
    (henergy : ∀ e ∈ bandEnergies x, isFinite e = true) :
    (fftData x).length = 32 ∧
      ∀ v ∈ fftData x, le zero v = true ∧ le v hundred = true := by
  have hfinE : ∀ e ∈ bandEnergies x, ∃ a, e = fin false a := by
    intro e he
    have hf := henergy e he
    unfold bandEnergies at he
    obtain ⟨b, hb, rfl⟩ := List.mem_map.1 he
    exact fin_of_notNeg_finite (bandEnergy_notNeg x (List.mem_range.1 hb)) hf
  have hE : ∀ e ∈ bandEnergies x, NonNeg e := fun e he => Or.inr (hfinE e he)
  obtain ⟨_, hmem, hmax⟩ := maxEnergy_isMaxOf _ hE (bandEnergies_ne_nil x)
  obtain ⟨m, hm⟩ := hfinE _ hmem
  have hzero : le zero zero = true ∧ le zero hundred = true := by decide
  unfold fftData
  simp only
  split_ifs with hpos
  · refine ⟨by simp [bandEnergies, numBands], ?_⟩
    intro v hv
    obtain ⟨e, he, rfl⟩ := List.mem_map.1 hv
    obtain ⟨a, ha⟩ := hfinE e he
    have hle := hmax e he
    rw [hm] at hpos hle ⊢
    rw [ha] at hle ⊢
    unfold zero at hpos
    simp only [lt, le, decide_eq_true_eq] at hpos hle
    obtain ⟨q, hq, hq1⟩ := div_le_one hpos hle
    obtain ⟨r, hr, hr1⟩ := sqrt_le_one hq1
    obtain ⟨t, ht, ht1⟩ := mul_hundred_le hr1
    rw [hq, hr, ht]
    unfold zero hundred
    simp only [le, decide_eq_true_eq]
    exact ⟨Nat.zero_le _, ht1⟩
  · refine ⟨by simp [numBands], ?_⟩
    intro v hv
    rw [List.eq_of_mem_replicate hv]
    exact hzero



theorem bandEnergy_eq_idx (x : List F32) (band : Nat) :
    bandEnergy x band =
      mul (if startIdx x.length band < endIdx x.length band
          then div (sumSquares x (startIdx x.length band) (endIdx x.length band))
            (ofNat (endIdx x.length band - startIdx x.length band))
          else sumSquares x (startIdx x.length band) (endIdx x.length band))
        (frequencyWeight band) := rfl

theorem endIdx_eq {n b : Nat} (hb : b < 32) : endIdx n b = (b + 1) * (n / 32) := by
  unfold endIdx numBands
  apply Nat.min_eq_left
  calc (b + 1) * (n / 32) ≤ 32 * (n / 32) := Nat.mul_le_mul_right _ (by omega)
    _ ≤ n := Nat.mul_div_le n 32

theorem startIdx_eq (n b : Nat) : startIdx n b = b * (n / 32) := rfl

theorem sumSquares_take (x : List F32) {lo hi n : Nat} (h : hi ≤ n) :
    sumSquares (x.take n) lo hi = sumSquares x lo hi := by
  unfold sumSquares
  by_cases hlh : lo ≤ hi
  · rw [List.drop_take, List.take_take, Nat.min_eq_left (by omega)]
  · have : hi - lo = 0 := by omega
    simp [this]

theorem bandEnergy_take (x : List F32) {b : Nat} (hb : b < 32) :
    bandEnergy (x.take (32 * (x.length / 32))) b = bandEnergy x b := by
  have hle : 32 * (x.length / 32) ≤ x.length := Nat.mul_div_le _ 32
  have hlen : (x.take (32 * (x.length / 32))).length = 32 * (x.length / 32) := by
    rw [List.length_take]; exact Nat.min_eq_left hle
  rw [bandEnergy_eq_idx, bandEnergy_eq_idx, hlen, endIdx_eq hb, endIdx_eq hb, startIdx_eq,
    startIdx_eq, Nat.mul_div_cancel_left _ (by norm_num : 0 < 32)]
  rw [sumSquares_take x (Nat.mul_le_mul_right _ (by omega : b + 1 ≤ 32))]

theorem fftData_take (x : List F32) :
    fftData (x.take (32 * (x.length / 32))) = fftData x := by
  have h : bandEnergies (x.take (32 * (x.length / 32))) = bandEnergies x := by
    unfold bandEnergies
    apply List.map_congr_left
    intro b hb
    exact bandEnergy_take x (by simpa [numBands] using List.mem_range.1 hb)
  unfold fftData
  rw [h]

theorem GetFFTData_running (s : State) (hrun : s.processing = true) :
    GetFFTData s = fftData s.current.input := by
  unfold GetFFTData
  simp only [hrun, Bool.not_true, Bool.false_eq_true, if_false]

theorem GetInputLevel_running (s : State) (hrun : s.processing = true) :
    GetInputLevel s = inputLevel s.current.input := by
  unfold GetInputLevel
  simp only [hrun, Bool.not_true, Bool.false_eq_true, if_false]

theorem skewState_input : skewState.current.input = skewFrame := rfl

theorem getElem?_bandEnergies (x : List F32) {b : Nat} (hb : b < 32) :
    (bandEnergies x)[b]? = some (bandEnergy x b) := by
  unfold bandEnergies numBands
  rw [List.getElem?_map, List.getElem?_range hb]
  rfl

theorem mem_bandEnergies (x : List F32) {e : F32} (he : e ∈ bandEnergies x) :
    ∃ b, b < 32 ∧ e = bandEnergy x b := by
  unfold bandEnergies numBands at he
  obtain ⟨b, hb, rfl⟩ := List.mem_map.1 he
  exact ⟨b, List.mem_range.1 hb, rfl⟩

theorem fftData_of_max_band (x : List F32) {b : Nat} (hb : b < 32)
    (hmax : ∀ c, c < 32 → le (bandEnergy x c) (bandEnergy x b) = true)
    (hpos : lt zero (bandEnergy x b) = true)
    (hfinite : isFinite (bandEnergy x b) = true) :
    (fftData x)[b]? = some hundred := by
  have hE : ∀ e ∈ bandEnergies x, NonNeg e := by
    intro e he
    obtain ⟨c, hc, rfl⟩ := mem_bandEnergies x he
    exact nonNeg_of_notNeg_of_le (bandEnergy_notNeg x hc) (hmax c hc)
  have hmemb : bandEnergy x b ∈ bandEnergies x :=
    List.getElem?_mem (getElem?_bandEnergies x hb)
  have hIs : IsMaxOf (bandEnergy x b) (bandEnergies x) := by
    refine ⟨hmemb, ?_⟩
    intro e he
    obtain ⟨c, hc, rfl⟩ := mem_bandEnergies x he
    exact hmax c hc
  have hM := isMaxOf_unique _ hE hIs (bandEnergies_ne_nil x)
  obtain ⟨a, ha⟩ := fin_of_notNeg_finite (bandEnergy_notNeg x hb) hfinite
  have hapos : 0 < a := by
    rw [ha] at hpos
    unfold zero at hpos
    simpa [lt] using hpos
  unfold fftData
  simp only
  rw [← hM, if_pos hpos, List.getElem?_map, getElem?_bandEnergies x hb]
  simp only [Option.map_some']
  rw [ha, div_self_pos hapos, sqrt_one, mul_one_hundred]

theorem mem_skewFrame {v : F32} (hv : v ∈ skewFrame) : v = c0_875 ∨ v = zero ∨ v = one := by
  unfold skewFrame at hv
  rcases List.mem_append.1 hv with h | h
  · exact Or.inl (List.eq_of_mem_replicate h)
  · rcases List.mem_append.1 h with h | h
    · exact Or.inr (Or.inl (List.eq_of_mem_replicate h))
    · exact Or.inr (Or.inr (List.eq_of_mem_replicate h))

theorem bandEnergies_skewFrame :
    bandEnergies skewFrame =
      fin false (49 * 2 ^ 143) :: (List.replicate 30 zero ++ [fin false (33 * 2 ^ 143)]) := by
  unfold bandEnergies bandEnergy sumSquares frequencyWeight F32.sub
  rw [ofNat_eq_fast, mul_eq_fast, add_eq_fast, div_eq_fast]
  decide!

theorem bandEnergy_skewFrame_le {c : Nat} (hc : c < 32) :
    le (bandEnergy skewFrame c) (bandEnergy skewFrame 0) = true := by
  have h0 : bandEnergy skewFrame 0 = fin false (49 * 2 ^ 143) := by
    have h := getElem?_bandEnergies skewFrame (by decide : 0 < 32)
    rw [bandEnergies_skewFrame] at h
    exact (Option.some.inj h).symm
  have hc1 : bandEnergy skewFrame c ∈ bandEnergies skewFrame :=
    List.getElem?_mem (getElem?_bandEnergies skewFrame hc)
  rw [bandEnergies_skewFrame] at hc1
  rw [h0]
  have hall : ∀ e ∈ fin false (49 * 2 ^ 143) ::
      (List.replicate 30 zero ++ [fin false (33 * 2 ^ 143)]),
      le e (fin false (49 * 2 ^ 143)) = true := by decide!
  exact hall _ hc1

theorem levelStep_fold_nonFinite (x : List F32) (hx : ∀ v ∈ x, isFinite v = false) :
    ∀ acc : F32 × Int, x.foldl levelStep acc = acc := by
  induction x with
  | nil => intro acc; rfl
  | cons v vs ih =>
    intro acc
    have hv : ¬ ((!isNan v && !isInf v) = true) := by
      have := hx v (List.mem_cons_self _ _)
      unfold isFinite at this
      simp [this]
    simp only [List.foldl_cons]
    unfold levelStep
    rw [if_neg hv]
    exact ih (fun w hw => hx w (List.mem_cons_of_mem _ hw)) acc

theorem levelStep_fold_zero (x : List F32) (hx : ∀ v ∈ x, F32.eq v zero = true) :
    ∀ n : Int, -(2 ^ 31) ≤ n ∧ n < 2 ^ 31 →
      (x.foldl levelStep (zero, n)).1 = zero ∧
        (-(2 ^ 31) ≤ (x.foldl levelStep (zero, n)).2 ∧ (x.foldl levelStep (zero, n)).2 < 2 ^ 31) := by
  induction x with
  | nil => intro n hn; exact ⟨rfl, hn⟩
  | cons v vs ih =>
    intro n _
    obtain ⟨s, rfl⟩ := eq_zero_iff.1 (hx _ (List.mem_cons_self _ _))
    simp only [List.foldl_cons]
    have hstep : levelStep (zero, n) (fin s 0) = (zero, wrapInt32 (n + 1)) := by
      unfold levelStep
      simp only [isNan, isInf, Bool.not_false, Bool.and_self, if_true]
      rw [mul_self_zero, add_zero_zero]
    rw [hstep]
    exact ih (fun w hw => hx w (List.mem_cons_of_mem _ hw)) _ (wrapInt32_range _)

theorem inputLevel_of_zero (x : List F32) (hx : ∀ v ∈ x, F32.eq v zero = true) :
    inputLevel x = zero := by
  obtain ⟨h1, _, h3⟩ := levelStep_fold_zero x hx 0 (by norm_num)
  unfold inputLevel
  simp only
  rw [h1]
  split_ifs with hpos
  · obtain ⟨c, hc, hcpos⟩ := ofInt_pos hpos h3
    rw [hc]
    have hd : div zero (fin false c) = zero :=
      div_zero_ofMag_pos (o := some c) (fun c' hc' => by cases hc'; exact hcpos)
    rw [hd, sqrt_zero, level_of_zero_rms]
  · exact level_of_zero_rms

theorem foldl_squares_zero (l : List F32) (hl : ∀ v ∈ l, F32.eq v zero = true) :
    l.foldl (fun energy x => add energy (mul x x)) zero = zero := by
  induction l with
  | nil => rfl
  | cons v vs ih =>
    obtain ⟨s, rfl⟩ := eq_zero_iff.1 (hl _ (List.mem_cons_self _ _))
    simp only [List.foldl_cons]
    rw [mul_self_zero, add_zero_zero]
    exact ih (fun w hw => hl w (List.mem_cons_of_mem _ hw))

theorem maxEnergy_replicate_zero (n : Nat) : maxEnergy (List.replicate n zero) = zero := by
  unfold maxEnergy
  induction n with
  | zero => rfl
  | succ n ih =>
    rw [List.replicate_succ, List.foldl_cons]
    have : F32.max zero zero = zero := by decide
    rw [this]; exact ih

theorem fftData_of_zero_energies (x : List F32) (h : ∀ b, b < 32 → bandEnergy x b = zero) :
    bandEnergies x = List.replicate 32 zero ∧ fftData x = List.replicate 32 zero := by
  have hE : bandEnergies x = List.replicate 32 zero := by
    unfold bandEnergies numBands
    rw [List.eq_replicate_iff]
    refine ⟨by simp, ?_⟩
    intro e he
    obtain ⟨b, hb, rfl⟩ := List.mem_map.1 he
    exact h b (List.mem_range.1 hb)
  refine ⟨hE, ?_⟩
  unfold fftData
  simp only
  rw [hE, maxEnergy_replicate_zero]
  have : lt zero zero = false := by decide
  simp [this, numBands]

theorem bandEnergy_of_zero (x : List F32) (hx : ∀ v ∈ x, F32.eq v zero = true) {b : Nat}
    (hb : b < 32) : bandEnergy x b = zero := by
  obtain ⟨w, hw, _⟩ := frequencyWeight_pos hb
  have hs : sumSquares x (startIdx x.length b) (endIdx x.length b) = zero := by
    unfold sumSquares
    apply foldl_squares_zero
    intro v hv
    exact hx v (List.mem_of_mem_drop (List.mem_of_mem_take hv))
  rw [bandEnergy_eq_idx, hs, hw]
  split_ifs with hlt
  · rw [div_zero_ofNat (Nat.sub_pos_of_lt hlt), mul_zero_pos]
  · exact mul_zero_pos w

theorem bandEnergy_of_short (x : List F32) (hx : x.length < 32) {b : Nat} (hb : b < 32) :
    startIdx x.length b = 0 ∧ endIdx x.length b = 0 ∧ bandEnergy x b = zero := by
  have hs : x.length / 32 = 0 := Nat.div_eq_of_lt hx
  have h1 : startIdx x.length b = 0 := by rw [startIdx_eq, hs]; simp
  have h2 : endIdx x.length b = 0 := by rw [endIdx_eq hb, hs]; simp
  refine ⟨h1, h2, ?_⟩
  obtain ⟨w, hw, _⟩ := frequencyWeight_pos hb
  rw [bandEnergy_eq_idx, h1, h2, hw, if_neg (by omega)]
  have : sumSquares x 0 0 = zero := by simp [sumSquares]
  rw [this, mul_zero_pos]

theorem sineState_input : sineState.current.input = sineFrame := rfl

theorem c0_707_eq : c0_707 = fin false (2965373 * 2 ^ 127) := by decide!

theorem specFiniteSamples_sineFrame : specFiniteSamples sineFrame = sineFrame := by
  unfold specFiniteSamples
  rw [List.filter_eq_self]
  intro v hv
  rw [List.eq_of_mem_replicate hv]
  decide!

theorem specSumSquares_sineFrame :
    specSumSquares sineFrame = fin false (4193025 * 2 ^ 136) := by
  unfold specSumSquares
  rw [specFiniteSamples_sineFrame]
  unfold sineFrame c0_707
  rw [ofRatio_eq_fast, mul_eq_fast, add_eq_fast]
  decide!

theorem specRms_sineFrame : specRms sineFrame = fin false (5930737 * 2 ^ 126) := by
  unfold specRms
  rw [specSumSquares_sineFrame, specFiniteSamples_sineFrame]
  have hl : sineFrame.length = 1024 := List.length_replicate _ _
  rw [hl, if_neg (by norm_num)]
  decide!

theorem rmsLo_eq : rmsLo = fin false (5929907 * 2 ^ 126) := by decide!

theorem rmsHi_eq : rmsHi = fin false (11863169 * 2 ^ 125) := by decide!

theorem levelLo_eq : levelLo = fin false (1637417 * 2 ^ 135) := by decide!

theorem levelHi_eq : levelHi = fin false (13106545 * 2 ^ 132) := by decide!

theorem c99_9_eq : c99_9 = fin false (13094093 * 2 ^ 132) := by decide!

theorem specLevel_of_rms_near_0_707 (x : List F32)
    (h1 : le rmsLo (specRms x) = true) (h2 : le (specRms x) rmsHi = true) :
    ∃ m, specLevel c1_414 x = fin false m ∧
      1637417 * 2 ^ 135 ≤ m ∧ m ≤ 13106545 * 2 ^ 132 := by
  rw [rmsLo_eq] at h1
  rw [rmsHi_eq] at h2
  obtain ⟨a, ha, ha1, ha2⟩ := fin_of_le_le (by norm_num) h1 h2
  have hC : c1_414 = fin false (2965373 * 2 ^ 128) := by rw [c1_414_eq]; congr 1
  obtain ⟨m1, hm1, hlo1, hhi1⟩ := mul_fin_bounds (a := 2965373 * 2 ^ 128) (c := a)
    (l := 16768827 * 2 ^ 125) (u := 8387769 * 2 ^ 126)
    (rep_mul_two_pow 125 (by norm_num)) (rep_mul_two_pow 126 (by norm_num))
    (by unfold overflowMag; norm_num)
    (by
      calc 16768827 * 2 ^ 125 * 2 ^ 149 ≤ 2965373 * 2 ^ 128 * (5929907 * 2 ^ 126) := by norm_num
        _ ≤ 2965373 * 2 ^ 128 * a := Nat.mul_le_mul_left _ ha1)
    (by
      calc 2965373 * 2 ^ 128 * a ≤ 2965373 * 2 ^ 128 * (11863169 * 2 ^ 125) :=
            Nat.mul_le_mul_left _ ha2
        _ ≤ 8387769 * 2 ^ 126 * 2 ^ 149 := by norm_num)
  have hmin : F32.min (fin false m1) one = fin false m1 := by
    have hlt : ¬ lt one (fin false m1) = true := by
      unfold one
      simp only [lt, decide_eq_true_eq]
      have : 8387769 * 2 ^ 126 < 2 ^ 149 := by norm_num
      omega
    unfold F32.min
    rw [if_neg hlt]
  obtain ⟨m2, hm2, hlo2, hhi2⟩ := mul_fin_bounds (a := 100 * 2 ^ 149) (c := m1)
    (l := 1637417 * 2 ^ 135) (u := 13106545 * 2 ^ 132)
    (rep_mul_two_pow 135 (by norm_num)) (rep_mul_two_pow 132 (by norm_num))
    (by unfold overflowMag; norm_num)
    (by
      calc 1637417 * 2 ^ 135 * 2 ^ 149 ≤ 100 * 2 ^ 149 * (16768827 * 2 ^ 125) := by norm_num
        _ ≤ 100 * 2 ^ 149 * m1 := Nat.mul_le_mul_left _ hlo1)
    (by
      calc 100 * 2 ^ 149 * m1 ≤ 100 * 2 ^ 149 * (8387769 * 2 ^ 126) :=
            Nat.mul_le_mul_left _ hhi1
        _ ≤ 13106545 * 2 ^ 132 * 2 ^ 149 := by norm_num)
  refine ⟨m2, ?_, hlo2, hhi2⟩
  unfold specLevel
  rw [ha, hC, hm1, hmin]
  unfold hundred
  exact hm2

theorem bufferSwitchStatic_processing (s s1 : State) (index : Nat)
    (h : bufferSwitchStatic s index = some s1) : s1.processing = s.processing := by
  unfold bufferSwitchStatic at h
  by_cases hp : s.processing = true
  · rw [if_pos hp] at h
    by_cases hi : index < 2
    · rw [dif_pos hi] at h
      simp only at h
      split at h
      · exact absurd h (by simp)
      · rw [← Option.some.inj h, State.setBuffer_processing]
    · rw [dif_neg hi] at h
      exact absurd h (by simp)
  · rw [if_neg hp] at h
    rw [← Option.some.inj h]

theorem runUntil_returned {σ : Type} (step : σ → Option σ) (returned : σ → Bool) (n : Nat)
    (c : σ) (h : returned c = true) : runUntil step returned n c = some c := by
  cases n <;> simp [runUntil, h]

theorem runUntil_step {σ : Type} (step : σ → Option σ) (returned : σ → Bool) {c c1 : σ}
    (h : returned c = false) (hs : step c = some c1) (n : Nat) :
    runUntil step returned (n + 1) c = runUntil step returned n c1 := by
  simp [runUntil, h, hs]

theorem runUntil_stuck {σ : Type} (step : σ → Option σ) (returned : σ → Bool) {c : σ}
    (h : returned c = false) (hs : step c = none) (n : Nat) :
    runUntil step returned (n + 1) c = none := by
  simp [runUntil, h, hs]

theorem levelFinish_fold (input : List F32) :
    levelFinish (input.foldl levelStep (zero, 0)) = inputLevel input := rfl

theorem levelLoop_run (s : State) (b : Bool) (res : F32) : ∀ (k i : Nat) (rms : F32) (vs : Int),
    i + k = s.current.input.length → ∀ n,
    runUntil levelCallStep levelReturned (k + n) (⟨s, b⟩, LevelCall.mk LevelPc.loop i rms vs res) =
      runUntil levelCallStep levelReturned n
        (⟨s, b⟩, LevelCall.mk LevelPc.loop s.current.input.length
          ((s.current.input.drop i).foldl levelStep (rms, vs)).1
          ((s.current.input.drop i).foldl levelStep (rms, vs)).2 res) := by
  intro k
  induction k with
  | zero =>
    intro i rms vs hi n
    have hi' : i = s.current.input.length := by omega
    subst hi'
    simp
  | succ k ih =>
    intro i rms vs hi n
    have hlt : i < s.current.input.length := by omega
    have hstep : levelCallStep (⟨s, b⟩, LevelCall.mk LevelPc.loop i rms vs res) =
        some (⟨s, b⟩, LevelCall.mk LevelPc.loop (i + 1)
          (levelStep (rms, vs) s.current.input[i]).1
          (levelStep (rms, vs) s.current.input[i]).2 res) := by
      simp [levelCallStep, List.getElem?_eq_getElem hlt]
    have hk : k + 1 + n = (k + n) + 1 := by omega
    rw [hk, runUntil_step _ _ (by rfl) hstep, ih (i + 1) _ _ (by omega) n,
      List.drop_eq_getElem_cons hlt, List.foldl_cons]

theorem callGetInputLevel_eq (s : State) :
    callGetInputLevel s = some (⟨s, false⟩, GetInputLevel s) := by
  unfold callGetInputLevel GetInputLevel
  by_cases hp : s.processing = true
  · have h1 : levelCallStep (⟨s, false⟩, LevelCall.start) =
        some (⟨s, false⟩, LevelCall.mk LevelPc.acquire 0 zero 0 zero) := by
      simp [levelCallStep, LevelCall.start, hp]
    have h2 : levelCallStep (⟨s, false⟩, LevelCall.mk LevelPc.acquire 0 zero 0 zero) =
        some (⟨s, true⟩, LevelCall.mk LevelPc.loop 0 zero 0 zero) := by
      simp [levelCallStep]
    have h3 : ∀ (r : F32) (v : Int),
        levelCallStep (⟨s, true⟩, LevelCall.mk LevelPc.loop s.current.input.length r v zero) =
        some (⟨s, false⟩, LevelCall.mk LevelPc.after s.current.input.length r v zero) := by
      intro r v
      simp [levelCallStep]
    have h4 : ∀ (r : F32) (v : Int),
        levelCallStep (⟨s, false⟩, LevelCall.mk LevelPc.after s.current.input.length r v zero) =
        some (⟨s, false⟩, LevelCall.mk LevelPc.returned s.current.input.length r v
          (levelFinish (r, v))) := by
      intro r v
      simp [levelCallStep]
    have hf : s.current.input.length + 4 = ((s.current.input.length + 2) + 1) + 1 := by omega
    rw [hf, runUntil_step _ _ (by rfl) h1, runUntil_step _ _ (by rfl) h2,
      levelLoop_run s true zero s.current.input.length 0 zero 0 (by omega) 2,
      runUntil_step _ _ (by rfl) (h3 _ _), runUntil_step _ _ (by rfl) (h4 _ _),
      runUntil_returned _ _ _ _ (by rfl)]
    simp [hp, List.drop_zero, levelFinish_fold]
  · have hp' : s.processing = false := by simpa using hp
    have h1 : levelCallStep (⟨s, false⟩, LevelCall.start) =
        some (⟨s, false⟩, LevelCall.mk LevelPc.returned 0 zero 0 zero) := by
      simp [levelCallStep, LevelCall.start, hp']
    rw [runUntil_step _ _ (by rfl) h1, runUntil_returned _ _ _ _ (by rfl)]
    simp [hp']

theorem fftFinish_bandEnergies (input : List F32) :
    fftFinish (bandEnergies input) = fftData input := rfl

theorem fftSampleLoop_run (s : State) (b : Bool) (be : List F32) (spb band st en : Nat)
    (res : List F32) : ∀ (k i : Nat) (e : F32), i + k = en → en ≤ s.current.input.length → ∀ n,
    runUntil fftCallStep fftReturned (k + n)
        (⟨s, b⟩, FFTCall.mk FFTPc.sampleLoop be spb band e st en i res) =
      runUntil fftCallStep fftReturned n
        (⟨s, b⟩, FFTCall.mk FFTPc.sampleLoop be spb band
          (((s.current.input.drop i).take k).foldl (fun energy x => add energy (mul x x)) e)
          st en en res) := by
  intro k
  induction k with
  | zero =>
    intro i e hi _ n
    have hi' : i = en := by omega
    subst hi'
    simp
  | succ k ih =>
    intro i e hi hen n
    have hlt : i < s.current.input.length := by omega
    have hstep : fftCallStep (⟨s, b⟩, FFTCall.mk FFTPc.sampleLoop be spb band e st en i res) =
        some (⟨s, b⟩, FFTCall.mk FFTPc.sampleLoop be spb band
          (add e (mul s.current.input[i] s.current.input[i])) st en (i + 1) res) := by
      have hie : i < en := by omega
      simp [fftCallStep, List.getElem?_eq_getElem hlt, hie]
    have hk : k + 1 + n = (k + n) + 1 := by omega
    rw [hk, runUntil_step _ _ (by rfl) hstep, ih (i + 1) _ (by omega) hen n,
      List.drop_eq_getElem_cons hlt, List.take_succ_cons, List.foldl_cons]

theorem fftBand_run_aux (s : State) (b : Bool) (be : List F32) (spb band st en i0 st0 en0 : Nat)
    (e0 : F32) (res : List F32) (hband : band < numBands) (hst : band * spb = st)
    (hen : Nat.min ((band + 1) * spb) s.current.input.length = en) (hle : st ≤ en)
    (hlen : en ≤ s.current.input.length) (n : Nat) :
    runUntil fftCallStep fftReturned ((en - st) + 2 + n)
        (⟨s, b⟩, FFTCall.mk FFTPc.bandLoop be spb band e0 st0 en0 i0 res) =
      runUntil fftCallStep fftReturned n
        (⟨s, b⟩, FFTCall.mk FFTPc.bandLoop
          (be.set band (mul
            (if st < en then div (sumSquares s.current.input st en) (ofNat (en - st))
              else sumSquares s.current.input st en) (frequencyWeight band)))
          spb (band + 1) (sumSquares s.current.input st en) st en en res) := by
  have h1 : fftCallStep (⟨s, b⟩, FFTCall.mk FFTPc.bandLoop be spb band e0 st0 en0 i0 res) =
      some (⟨s, b⟩, FFTCall.mk FFTPc.sampleLoop be spb band zero st en st res) := by
    simp [fftCallStep, hband, hst, hen]
  have h2 : ∀ e1 : F32,
      fftCallStep (⟨s, b⟩, FFTCall.mk FFTPc.sampleLoop be spb band e1 st en en res) =
      some (⟨s, b⟩, FFTCall.mk FFTPc.bandLoop
        (be.set band (mul (if st < en then div e1 (ofNat (en - st)) else e1)
          (frequencyWeight band)))
        spb (band + 1) e1 st en en res) := by
    intro e1
    simp [fftCallStep]
  have hk : (en - st) + 2 + n = (((en - st) + (n + 1)) + 1) := by omega
  rw [hk, runUntil_step _ _ (by rfl) h1,
    fftSampleLoop_run s b be spb band st en res (en - st) st zero (by omega) hlen (n + 1),
    runUntil_step _ _ (by rfl) (h2 _)]
  rfl

theorem fftBand_run (s : State) (b : Bool) (t : FFTCall) (hpc : t.pc = FFTPc.bandLoop)
    (hband : t.band < numBands) (hspb : t.samplesPerBand = s.current.input.length / numBands) :
    ∃ (k : Nat) (t1 : FFTCall), k ≤ s.current.input.length / numBands + 2 ∧
      (∀ n, runUntil fftCallStep fftReturned (k + n) (⟨s, b⟩, t) =
        runUntil fftCallStep fftReturned n (⟨s, b⟩, t1)) ∧
      t1.pc = FFTPc.bandLoop ∧ t1.band = t.band + 1 ∧
      t1.samplesPerBand = t.samplesPerBand ∧
      t1.bandEnergies = t.bandEnergies.set t.band (bandEnergy s.current.input t.band) ∧
      t1.result = t.result := by
  obtain ⟨pc, be, spb, band, e, st, en, i, res⟩ := t
  simp only at hpc hband hspb
  subst hpc hspb
  have hen : Nat.min ((band + 1) * (s.current.input.length / numBands)) s.current.input.length
      = endIdx s.current.input.length band := rfl
  have hst : band * (s.current.input.length / numBands) = startIdx s.current.input.length band :=
    rfl
  have hb32 : band < 32 := hband
  have hen' := endIdx_eq (n := s.current.input.length) hb32
  have hst' := startIdx_eq s.current.input.length band
  have h32 : (band + 1) * (s.current.input.length / 32) =
      band * (s.current.input.length / 32) + s.current.input.length / 32 := by ring
  have hlen : endIdx s.current.input.length band ≤ s.current.input.length := by
    rw [← hen]; exact Nat.min_le_right _ _
  have hnb : s.current.input.length / numBands = s.current.input.length / 32 := rfl
  refine ⟨(endIdx s.current.input.length band - startIdx s.current.input.length band) + 2,
    _, by rw [hnb]; omega,
    fftBand_run_aux s b be _ band _ _ i st en e res hband hst hen (by omega) hlen,
    rfl, rfl, rfl, rfl, rfl⟩

theorem fftBands_run (s : State) (b : Bool) : ∀ (j : Nat) (t : FFTCall),
    t.pc = FFTPc.bandLoop → t.band + j = numBands →
    t.samplesPerBand = s.current.input.length / numBands →
    ∃ (k : Nat) (t1 : FFTCall), k ≤ j * (s.current.input.length / numBands + 2) ∧
      (∀ n, runUntil fftCallStep fftReturned (k + n) (⟨s, b⟩, t) =
        runUntil fftCallStep fftReturned n (⟨s, b⟩, t1)) ∧
      t1.pc = FFTPc.bandLoop ∧ t1.band = numBands ∧
      t1.bandEnergies.length = t.bandEnergies.length ∧
      (∀ c, c < t.band → t1.bandEnergies[c]? = t.bandEnergies[c]?) ∧
      (∀ c, t.band ≤ c → c < numBands → c < t.bandEnergies.length →
        t1.bandEnergies[c]? = some (bandEnergy s.current.input c)) ∧
      t1.result = t.result := by
  intro j
  induction j with
  | zero =>
    intro t hpc hband _
    refine ⟨0, t, by omega, fun n => by rw [Nat.zero_add], hpc, by omega, rfl, fun _ _ => rfl,
      ?_, rfl⟩
    intro c h1 h2
    omega
  | succ j ih =>
    intro t hpc hband hspb
    obtain ⟨k1, t1, hk1, hrun1, hpc1, hband1, hspb1, hbe1, hres1⟩ :=
      fftBand_run s b t hpc (by omega) hspb
    obtain ⟨k2, t2, hk2, hrun2, hpc2, hband2, hlen2, hlow2, hhigh2, hres2⟩ :=
      ih t1 hpc1 (by omega) (by rw [hspb1, hspb])
    refine ⟨k1 + k2, t2, ?_, ?_, hpc2, hband2, ?_, ?_, ?_, by rw [hres2, hres1]⟩
    · rw [Nat.succ_mul]; omega
    · intro n
      rw [Nat.add_assoc, hrun1, hrun2]
    · rw [hlen2, hbe1, List.length_set]
    · intro c hc
      rw [hlow2 c (by omega), hbe1, List.getElem?_set_ne (by omega)]
    · intro c hc1 hc2 hc3
      by_cases hcb : c = t.band
      · subst hcb
        rw [hlow2 _ (by omega), hbe1]
        simp [hc3]
      · exact hhigh2 c (by omega) hc2 (by rw [hbe1, List.length_set]; exact hc3)

theorem callGetFFTData_eq (s : State) :
    callGetFFTData s = some (⟨s, false⟩, GetFFTData s) := by
  unfold callGetFFTData GetFFTData
  by_cases hp : s.processing = true
  · have h1 : fftCallStep (⟨s, false⟩, FFTCall.start) =
        some (⟨s, false⟩, FFTCall.mk FFTPc.acquire (List.replicate numBands zero) 0 0 zero 0 0 0
          []) := by
      simp [fftCallStep, FFTCall.start, hp]
    have h2 : fftCallStep (⟨s, false⟩, FFTCall.mk FFTPc.acquire (List.replicate numBands zero)
          0 0 zero 0 0 0 []) =
        some (⟨s, true⟩, FFTCall.mk FFTPc.bandLoop (List.replicate numBands zero)
          (s.current.input.length / numBands) 0 zero 0 0 0 []) := by
      simp [fftCallStep]
    obtain ⟨k, t, hk, hrun, hpc, hband, hlen, _, hhigh, hres⟩ :=
      fftBands_run s true numBands (FFTCall.mk FFTPc.bandLoop (List.replicate numBands zero)
          (s.current.input.length / numBands) 0 zero 0 0 0 []) rfl (by simp) rfl
    have hbe : t.bandEnergies = bandEnergies s.current.input := by
      apply List.ext_getElem?
      intro c
      by_cases hc : c < numBands
      · rw [hhigh c (Nat.zero_le _) hc (by simpa using hc)]
        exact (getElem?_bandEnergies _ hc).symm
      · have h1 : t.bandEnergies.length ≤ c := by
          rw [hlen]; simp; omega
        have h2 : (bandEnergies s.current.input).length ≤ c := by
          simp [bandEnergies]; omega
        rw [List.getElem?_eq_none h1, List.getElem?_eq_none h2]
    have h3 : fftCallStep (⟨s, true⟩, t) = some (⟨s, false⟩, { t with pc := FFTPc.after }) := by
      simp [fftCallStep, hpc, hband]
    have h4 : fftCallStep (⟨s, false⟩, { t with pc := FFTPc.after }) =
        some (⟨s, false⟩, { t with pc := FFTPc.returned, result := fftFinish t.bandEnergies }) := by
      simp [fftCallStep]
    have hmul : 32 * (s.current.input.length / 32) ≤ s.current.input.length :=
      Nat.mul_div_le _ _
    have hk' : k ≤ 32 * (s.current.input.length / 32) + 64 := by
      have : numBands * (s.current.input.length / numBands + 2) =
          32 * (s.current.input.length / 32) + 64 := by
        show 32 * (s.current.input.length / 32 + 2) = _
        ring
      omega
    have hf : s.current.input.length + 68 =
        ((k + (s.current.input.length + 66 - k)) + 1) + 1 := by omega
    have hf2 : s.current.input.length + 66 - k = ((s.current.input.length + 64 - k) + 1) + 1 := by
      omega
    have hr1 : fftReturned (⟨s, true⟩, t) = false := by simp [fftReturned, hpc]
    rw [hf, runUntil_step _ _ (by rfl) h1, runUntil_step _ _ (by rfl) h2, hrun, hf2,
      runUntil_step _ _ hr1 h3, runUntil_step _ _ (by rfl) h4,
      runUntil_returned _ _ _ _ (by rfl)]
    simp [hp, hbe, fftFinish_bandEnergies]
  · have hp' : s.processing = false := by simpa using hp
    have h1 : fftCallStep (⟨s, false⟩, FFTCall.start) =
        some (⟨s, false⟩, FFTCall.mk FFTPc.returned [] 0 0 zero 0 0 0
          (List.replicate numBands zero)) := by
      simp [fftCallStep, FFTCall.start, hp']
    rw [runUntil_step _ _ (by rfl) h1, runUntil_returned _ _ _ _ (by rfl)]
    simp [hp']

theorem transformLoop_none_mono (gain : F32) (input out : List F32) (m : Nat)
    (h : transformLoop gain input m out = none) :
    ∀ n, m ≤ n → transformLoop gain input n out = none := by
  intro n hn
  induction n with
  | zero =>
    have : m = 0 := by omega
    subst this
    exact h
  | succ n ih =>
    by_cases hm : m = n + 1
    · subst hm; exact h
    · have := ih (by omega)
      simp [transformLoop, this]

theorem State.setBuffer_setBuffer (s : State) (k : Fin 2) (b1 b2 : AudioBuffer) :
    (s.setBuffer k b1).setBuffer k b2 = s.setBuffer k b2 := by
  unfold State.setBuffer
  split <;> rfl

theorem State.setBuffer_buffer (s : State) (k : Fin 2) : s.setBuffer k (s.buffer k) = s := by
  unfold State.setBuffer State.buffer
  split <;> rfl

theorem State.current_setBuffer (s : State) (b : AudioBuffer) :
    (s.setBuffer s.currentBuffer b).current = b := by
  unfold State.current
  rw [State.setBuffer_currentBuffer, State.buffer_setBuffer_same]

theorem switchLoop_run (s : State) (b : Bool) (index : Nat) : ∀ (j i : Nat) (out : List F32),
    i + j = s.bufferSize →
    transformLoop s.gain s.current.input i s.current.output = some out → ∀ n,
    runUntil switchCallStep switchReturned (j + n)
        (⟨s.setBuffer s.currentBuffer { s.current with output := out }, b⟩,
          SwitchCall.mk SwitchPc.loop index i) =
      match transformLoop s.gain s.current.input s.bufferSize s.current.output with
      | none => none
      | some out1 =>
        runUntil switchCallStep switchReturned n
          (⟨s.setBuffer s.currentBuffer { s.current with output := out1 }, b⟩,
            SwitchCall.mk SwitchPc.loop index s.bufferSize) := by
  intro j
  induction j with
  | zero =>
    intro i out hi hout n
    have hi' : i = s.bufferSize := by omega
    subst hi'
    rw [hout, Nat.zero_add]
  | succ j ih =>
    intro i out hi hout n
    have hlt : i < s.bufferSize := by omega
    have hk : j + 1 + n = (j + n) + 1 := by omega
    have hnext : transformLoop s.gain s.current.input (i + 1) s.current.output =
        match s.current.input[i]? with
        | none => none
        | some x => if i < out.length then some (out.set i (mul x (neg s.gain))) else none := by
      rw [transformLoop, hout]
    have hret : switchReturned
        (⟨s.setBuffer s.currentBuffer { s.current with output := out }, b⟩,
          SwitchCall.mk SwitchPc.loop index i) = false := rfl
    cases hx : s.current.input[i]? with
    | none =>
      rw [hx] at hnext
      rw [transformLoop_none_mono _ _ _ _ hnext _ (by omega), hk]
      exact runUntil_stuck _ _ hret (by
        simp [switchCallStep, State.current_setBuffer, State.setBuffer_bufferSize, hlt, hx]) _
    | some x =>
      rw [hx] at hnext
      by_cases hio : i < out.length
      · simp only [hio, if_true] at hnext
        have hstep : switchCallStep
            (⟨s.setBuffer s.currentBuffer { s.current with output := out }, b⟩,
              SwitchCall.mk SwitchPc.loop index i) =
            some (⟨s.setBuffer s.currentBuffer
                { s.current with output := out.set i (mul x (neg s.gain)) }, b⟩,
              SwitchCall.mk SwitchPc.loop index (i + 1)) := by
          simp [switchCallStep, State.current_setBuffer, State.setBuffer_bufferSize,
            State.setBuffer_currentBuffer, State.setBuffer_gain, State.setBuffer_setBuffer,
            hlt, hx, hio]
        rw [hk, runUntil_step _ _ hret hstep, ih (i + 1) _ (by omega) hnext n]
      · simp only [hio, if_false] at hnext
        rw [transformLoop_none_mono _ _ _ _ hnext _ (by omega), hk]
        exact runUntil_stuck _ _ hret (by
          simp [switchCallStep, State.current_setBuffer, State.setBuffer_bufferSize, hlt, hx,
            hio]) _

theorem callBufferSwitchStatic_eq (s : State) (b : Bool) (index : Nat) :
    callBufferSwitchStatic ⟨s, b⟩ index =
      (bufferSwitchStatic s index).map (fun s1 => ⟨s1, b⟩) := by
  unfold callBufferSwitchStatic bufferSwitchStatic
  by_cases hp : s.processing = true
  · by_cases hi : index < 2
    · have h1 : switchCallStep (⟨s, b⟩, SwitchCall.start index) =
          some (⟨{ s with currentBuffer := ⟨index, hi⟩ }, b⟩,
            SwitchCall.mk SwitchPc.loop index 0) := by
        simp [switchCallStep, SwitchCall.start, hp, hi]
      have hcur : State.current { s with currentBuffer := ⟨index, hi⟩ } = s.buffer ⟨index, hi⟩ :=
        rfl
      have hself : State.setBuffer { s with currentBuffer := ⟨index, hi⟩ } ⟨index, hi⟩
          { s.buffer ⟨index, hi⟩ with output := (s.buffer ⟨index, hi⟩).output } =
          { s with currentBuffer := ⟨index, hi⟩ } :=
        State.setBuffer_buffer { s with currentBuffer := ⟨index, hi⟩ } ⟨index, hi⟩
      have hloop := switchLoop_run { s with currentBuffer := ⟨index, hi⟩ } b index s.bufferSize 0
        (s.buffer ⟨index, hi⟩).output (by simp) rfl 1
      simp only [hcur] at hloop
      rw [hself] at hloop
      rw [if_pos hp, dif_pos hi]
      have hf : s.bufferSize + 2 = (s.bufferSize + 1) + 1 := by omega
      rw [show (⟨s, b⟩ : Shared).state.bufferSize + 2 = (s.bufferSize + 1) + 1 from hf,
        runUntil_step _ _ (by rfl) h1, hloop]
      dsimp only
      cases transformLoop s.gain (s.buffer ⟨index, hi⟩).input s.bufferSize
          (s.buffer ⟨index, hi⟩).output with
      | none => rfl
      | some out =>
        dsimp only
        have hlast : switchCallStep
            (⟨State.setBuffer { s with currentBuffer := ⟨index, hi⟩ } ⟨index, hi⟩
                { s.buffer ⟨index, hi⟩ with output := out }, b⟩,
              SwitchCall.mk SwitchPc.loop index s.bufferSize) =
            some (⟨State.setBuffer { s with currentBuffer := ⟨index, hi⟩ } ⟨index, hi⟩
                { s.buffer ⟨index, hi⟩ with output := out, ready := true }, b⟩,
              SwitchCall.mk SwitchPc.returned index s.bufferSize) := by
          have hc := State.current_setBuffer { s with currentBuffer := ⟨index, hi⟩ }
            { s.buffer ⟨index, hi⟩ with output := out }
          simp only at hc
          simp [switchCallStep, hc, State.setBuffer_bufferSize, State.setBuffer_currentBuffer,
            State.setBuffer_setBuffer]
        rw [runUntil_step _ _ (by rfl) hlast, runUntil_returned _ _ _ _ (by rfl)]
        rfl
    · have h1 : switchCallStep (⟨s, b⟩, SwitchCall.start index) = none := by
        simp [switchCallStep, SwitchCall.start, hp, hi]
      rw [runUntil_stuck _ _ (by rfl) h1, if_pos hp, dif_neg hi]
      rfl
  · have hp' : s.processing = false := by simpa using hp
    have h1 : switchCallStep (⟨s, b⟩, SwitchCall.start index) =
        some (⟨s, b⟩, SwitchCall.mk SwitchPc.returned index 0) := by
      simp [switchCallStep, SwitchCall.start, hp']
    rw [runUntil_step _ _ (by rfl) h1, runUntil_returned _ _ _ _ (by rfl)]
    simp [hp']

theorem transformLoop_length (gain : F32) (input out : List F32) : ∀ (n : Nat) (out1 : List F32),
    transformLoop gain input n out = some out1 → out1.length = out.length := by
  intro n
  induction n with
  | zero =>
    intro out1 h
    rw [transformLoop] at h
    rw [← Option.some.inj h]
  | succ n ih =>
    intro out1 h
    rw [transformLoop] at h
    split at h
    · exact absurd h (by simp)
    · rename_i out0 h0
      split at h
      · exact absurd h (by simp)
      · split at h
        · rw [← Option.some.inj h, List.length_set]
          exact ih out0 h0
        · exact absurd h (by simp)

theorem frameShape_setBuffer (s : State) (k : Fin 2) (b : AudioBuffer)
    (hin : b.input.length = (s.buffer k).input.length)
    (hout : b.output.length = (s.buffer k).output.length) :
    frameShape (s.setBuffer k b) = frameShape s := by
  unfold State.buffer at hin hout
  unfold State.setBuffer frameShape
  split
  · rename_i hk
    simp only [hk, if_true] at hin hout
    simp only [hin, hout]
  · rename_i hk
    simp only [hk, if_false] at hin hout
    simp only [hin, hout]

theorem bufferSwitchStatic_frameShape (s s1 : State) (index : Nat)
    (h : bufferSwitchStatic s index = some s1) : frameShape s1 = frameShape s := by
  unfold bufferSwitchStatic at h
  split at h
  · split at h
    · simp only at h
      split at h
      · exact absurd h (by simp)
      · rename_i out hout
        rw [← Option.some.inj h]
        exact frameShape_setBuffer { s with currentBuffer := _ } _ _ rfl
          (transformLoop_length _ _ _ _ _ hout)
    · exact absurd h (by simp)
  · rw [← Option.some.inj h]

theorem length_resize (v : List F32) (n : Nat) : (resize v n).length = n := by
  unfold resize
  rw [List.length_append, List.length_take, List.length_replicate]
  omega

theorem initializeBuffers_ok (s : State) (d : String) :
    (initializeBuffers s d).2 = InitResult.ok d 2 2 1024 ∧
      frameShape (initializeBuffers s d).1 = (1024, 1024, 1024, 1024, 1024) := by
  refine ⟨rfl, ?_⟩
  show (1024, (resize s.buffers0.input 1024).length, (resize s.buffers0.output 1024).length,
    (resize s.buffers1.input 1024).length, (resize s.buffers1.output 1024).length) = _
  simp only [length_resize]

theorem Initialize_ok (s : State) (host : DriverHost) (info : List DriverArg) (d : String)
    (c1 c2 n : Nat) (h : (Initialize s host info).2 = InitResult.ok d c1 c2 n) :
    (Initialize s host info).2 = InitResult.ok d 2 2 1024 ∧
      frameShape (Initialize s host info).1 = (1024, 1024, 1024, 1024, 1024) := by
  have key : ∀ (s0 : State) (d0 : String), (initializeBuffers s0 d0).2 = InitResult.ok d c1 c2 n →
      (initializeBuffers s0 d0).2 = InitResult.ok d 2 2 1024 ∧
        frameShape (initializeBuffers s0 d0).1 = (1024, 1024, 1024, 1024, 1024) := by
    intro s0 d0 h0
    have h2 := initializeBuffers_ok s0 d0
    rw [h2.1] at h0
    refine ⟨?_, h2.2⟩
    rw [h2.1]
    injection h0 with hd
    rw [hd]
  unfold Initialize at h ⊢
  split at h
  · exact absurd h (by simp)
  · exact absurd h (by simp)
  · simp only at h ⊢
    split at h
    · rename_i hsim
      rw [if_pos hsim]
      exact key _ _ h
    · rename_i hsim
      rw [if_neg hsim]
      split at h
      · exact absurd h (by simp)
      · rename_i hl
        rw [if_neg hl]
        split at h
        · exact absurd h (by simp)
        · rename_i hinit
          rw [if_neg hinit]
          exact key _ _ h

theorem Call.run_frameShape (s s1 : State) (call : Call) (h : call.run s = some s1) :
    frameShape s1 = frameShape s := by
  cases call with
  | start info => rw [← Option.some.inj h]; rfl
  | stop => rw [← Option.some.inj h]; rfl
  | setInversionGain info =>
    rw [← Option.some.inj h]
    show frameShape (SetInversionGain s info).1 = _
    unfold SetInversionGain
    split <;> rfl
  | bufferSwitch index => exact bufferSwitchStatic_frameShape s s1 index.val h
  | getInputLevel =>
    have h1 : (callGetInputLevel s).map (fun r => r.1.state) = some s1 := h
    rw [callGetInputLevel_eq] at h1
    rw [← Option.some.inj h1]
  | getFFTData =>
    have h1 : (callGetFFTData s).map (fun r => r.1.state) = some s1 := h
    rw [callGetFFTData_eq] at h1
    rw [← Option.some.inj h1]

theorem Call.run_defined (s : State) (call : Call)
    (hin : ∀ k : Fin 2, s.bufferSize ≤ (s.buffer k).input.length)
    (hout : ∀ k : Fin 2, s.bufferSize ≤ (s.buffer k).output.length) :
    ∃ s1, call.run s = some s1 := by
  cases call with
  | start info => exact ⟨_, rfl⟩
  | stop => exact ⟨_, rfl⟩
  | setInversionGain info => exact ⟨_, rfl⟩
  | bufferSwitch index =>
    by_cases hp : s.processing = true
    · exact ⟨_, bufferSwitchStatic_running s index hp (hin index) (hout index)⟩
    · exact ⟨_, bufferSwitchStatic_stopped s index.val (by simpa using hp)⟩
  | getInputLevel =>
    refine ⟨s, ?_⟩
    show (callGetInputLevel s).map (fun r => r.1.state) = some s
    rw [callGetInputLevel_eq]
    rfl
  | getFFTData =>
    refine ⟨s, ?_⟩
    show (callGetFFTData s).map (fun r => r.1.state) = some s
    rw [callGetFFTData_eq]
    rfl

theorem frameShape_bounds (s : State) (n : Nat) (h : frameShape s = (n, n, n, n, n)) :
    s.bufferSize = n ∧ ∀ k : Fin 2, (s.buffer k).input.length = n ∧
      (s.buffer k).output.length = n := by
  unfold frameShape at h
  simp only [Prod.mk.injEq] at h
  obtain ⟨h0, h1, h2, h3, h4⟩ := h
  refine ⟨h0, ?_⟩
  intro k
  unfold State.buffer
  split
  · exact ⟨h1, h2⟩
  · exact ⟨h3, h4⟩

theorem runCalls_frameShape (n : Nat) : ∀ (calls : List Call) (s : State),
    frameShape s = (n, n, n, n, n) →
    ∃ s1, runCalls s calls = some s1 ∧ frameShape s1 = (n, n, n, n, n) := by
  intro calls
  induction calls with
  | nil => exact fun s h => ⟨s, rfl, h⟩
  | cons call rest ih =>
    intro s h
    obtain ⟨h0, hk⟩ := frameShape_bounds s n h
    obtain ⟨s1, hs1⟩ := Call.run_defined s call
      (fun k => by rw [h0, (hk k).1]) (fun k => by rw [h0, (hk k).2])
    obtain ⟨s2, hs2, hshape⟩ := ih s1 (by rw [Call.run_frameShape s s1 call hs1, h])
    refine ⟨s2, ?_, hshape⟩
    rw [runCalls, hs1]
    exact hs2

theorem bandEnergy_eq_mean (x : List F32) (b : Nat) :
    bandEnergy x b = mul (bandMean x b) (frequencyWeight b) := rfl

theorem foldl_squares_bounds (l : List F32) (hl : ∀ v ∈ l, le (F32.abs v) one = true) :
    ∀ (t A : Nat), A ≤ t * 2 ^ 149 → t + l.length < 2 ^ 24 →
    ∃ A1, l.foldl (fun energy x => add energy (mul x x)) (fin false A) = fin false A1 ∧
      A1 ≤ (t + l.length) * 2 ^ 149 ∧
      ((2 ^ 29 ≤ A ∨ ∃ v ∈ l, le c2m60 (F32.abs v) = true) → 2 ^ 29 ≤ A1) := by
  induction l with
  | nil =>
    intro t A hA _
    refine ⟨A, rfl, hA, ?_⟩
    intro h
    rcases h with h | ⟨v, hv, _⟩
    · exact h
    · exact absurd hv (List.not_mem_nil v)
  | cons v rest ih =>
    intro t A hA ht
    rw [List.length_cons] at ht
    obtain ⟨s, a, hv, ha⟩ := abs_le_one (hl v (List.mem_cons_self v rest))
    obtain ⟨q, hq, hq1, hqbig⟩ := mul_self_le_one (s := s) ha
    obtain ⟨A1, hA1, hA1le, hA1big⟩ := add_fin_bounds hA hq1 (by omega)
    obtain ⟨A2, hA2, hA2le, hA2big⟩ := ih (fun w hw => hl w (List.mem_cons_of_mem v hw))
      (t + 1) A1 hA1le (by omega)
    refine ⟨A2, ?_, ?_, ?_⟩
    · rw [List.foldl_cons, hv, hq, hA1]
      exact hA2
    · rw [List.length_cons]
      have : t + 1 + rest.length = t + (rest.length + 1) := by omega
      rw [← this]
      exact hA2le
    · intro h
      apply hA2big
      rcases h with h | ⟨w, hw, hwbig⟩
      · exact Or.inl (hA1big (Or.inl h))
      · rcases List.mem_cons.1 hw with hwv | hwr
        · left
          apply hA1big
          right
          apply hqbig
          rw [hwv, hv] at hwbig
          simpa [F32.abs, le, c2m60] using hwbig
        · exact Or.inr ⟨w, hwr, hwbig⟩

theorem ofNat_exact {n : Nat} (hn : n < 2 ^ 24) : ofNat n = fin false (n * 2 ^ 149) := by
  unfold ofNat
  have h := roundUnits_exact (D := 1) (B := n * 2 ^ 149) (by norm_num) (rep_mul_two_pow 149 hn)
    (by
      unfold overflowMag
      calc n * 2 ^ 149 < 2 ^ 24 * 2 ^ 149 := Nat.mul_lt_mul_of_pos_right hn (Nat.two_pow_pos 149)
        _ ≤ 2 ^ 277 := by norm_num)
  rw [Nat.mul_one] at h
  rw [h]
  rfl

theorem bandMean_eq_idx (x : List F32) (band : Nat) :
    bandMean x band =
      if startIdx x.length band < endIdx x.length band
        then div (sumSquares x (startIdx x.length band) (endIdx x.length band))
          (ofNat (endIdx x.length band - startIdx x.length band))
        else sumSquares x (startIdx x.length band) (endIdx x.length band) := rfl

theorem bandMean_bounds (x : List F32) (hN : x.length < 2 ^ 29)
    (hx : ∀ v ∈ x, le (F32.abs v) one = true) {b : Nat} (hb : b < 32) :
    ∃ a, bandMean x b = fin false a ∧ a ≤ 2 ^ 149 ∧
      ((∃ v ∈ (x.drop (startIdx x.length b)).take (endIdx x.length b - startIdx x.length b),
          le c2m60 (F32.abs v) = true) → 32 ≤ a) := by
  have hcnt : endIdx x.length b - startIdx x.length b ≤ x.length / 32 := by
    rw [endIdx_eq hb, startIdx_eq, Nat.add_mul]; omega
  have hspb : x.length / 32 < 2 ^ 24 := by
    apply (Nat.div_lt_iff_lt_mul (by norm_num)).2
    calc x.length < 2 ^ 29 := hN
      _ = 2 ^ 24 * 32 := by norm_num
  rw [bandMean_eq_idx]
  unfold sumSquares
  generalize hL : (x.drop (startIdx x.length b)).take (endIdx x.length b - startIdx x.length b)
    = L
  have hLlen : L.length ≤ endIdx x.length b - startIdx x.length b := by
    rw [← hL]; exact List.length_take_le _ _
  have hLmem : ∀ v ∈ L, le (F32.abs v) one = true := by
    intro v hv
    rw [← hL] at hv
    exact hx v (List.mem_of_mem_drop (List.mem_of_mem_take hv))
  obtain ⟨A1, hA1, hA1le, hA1big⟩ := foldl_squares_bounds L hLmem 0 0 (by omega) (by omega)
  rw [Nat.zero_add] at hA1le
  have hz : zero = fin false 0 := rfl
  rw [hz, hA1]
  split
  · rename_i hlt
    have hcpos : 0 < endIdx x.length b - startIdx x.length b := by omega
    rw [ofNat_exact (lt_of_le_of_lt hcnt hspb)]
    have hmpos : 0 < (endIdx x.length b - startIdx x.length b) * 2 ^ 149 :=
      Nat.mul_pos hcpos (Nat.two_pow_pos 149)
    obtain ⟨q, hq, hq1⟩ := div_le_one hmpos
      (le_trans hA1le (Nat.mul_le_mul_right _ hLlen))
    refine ⟨q, hq, hq1, ?_⟩
    intro hbig
    have h29 := hA1big (Or.inr hbig)
    have rq := div_fin_some (Nat.pos_iff_ne_zero.1 hmpos) hq
    refine le_roundUnits hmpos (rep_two_pow 5) ?_ rq
    have hc24 : endIdx x.length b - startIdx x.length b < 2 ^ 24 := lt_of_le_of_lt hcnt hspb
    calc 2 ^ 5 * ((endIdx x.length b - startIdx x.length b) * 2 ^ 149)
        = (2 ^ 5 * (endIdx x.length b - startIdx x.length b)) * 2 ^ 149 := by ring
      _ ≤ A1 * 2 ^ 149 := by
        apply Nat.mul_le_mul_right
        have : 2 ^ 5 * (endIdx x.length b - startIdx x.length b) ≤ 2 ^ 29 := by
          calc 2 ^ 5 * (endIdx x.length b - startIdx x.length b) ≤ 2 ^ 5 * 2 ^ 24 :=
                Nat.mul_le_mul_left _ (le_of_lt hc24)
            _ = 2 ^ 29 := by norm_num
        omega
  · rename_i hnlt
    have hL0 : L = [] := by
      have : L.length = 0 := by omega
      exact List.length_eq_zero.1 this
    subst hL0
    simp only [List.foldl_nil, fin.injEq, true_and] at hA1
    subst hA1
    refine ⟨0, rfl, Nat.zero_le _, ?_⟩
    rintro ⟨v, hv, _⟩
    exact absurd hv (List.not_mem_nil v)

theorem bandEnergy_bounds (x : List F32) (hN : x.length < 2 ^ 29)
    (hx : ∀ v ∈ x, le (F32.abs v) one = true) {b : Nat} (hb : b < 32) :
    ∃ e, bandEnergy x b = fin false e ∧ e ≤ 2 ^ 149 ∧
      ((∃ v ∈ (x.drop (startIdx x.length b)).take (endIdx x.length b - startIdx x.length b),
          le c2m60 (F32.abs v) = true) → 0 < e) := by
  obtain ⟨a, ha, ha1, habig⟩ := bandMean_bounds x hN hx hb
  have hw := frequencyWeight_eq ⟨b, hb⟩
  simp only at hw
  have hup : a * ((64 - b) * 2 ^ 143) ≤ 2 ^ 149 * 2 ^ 149 := by
    apply Nat.mul_le_mul ha1
    calc (64 - b) * 2 ^ 143 ≤ 64 * 2 ^ 143 := Nat.mul_le_mul_right _ (by omega)
      _ = 2 ^ 149 := by norm_num
  obtain ⟨e, he, _, he1⟩ := mul_fin_bounds (l := 0) (rfl) (rep_two_pow 149)
    (by unfold overflowMag; norm_num) (by omega) hup
  rw [bandEnergy_eq_mean, ha, hw]
  refine ⟨e, he, he1, ?_⟩
  intro hbig
  have h32 := habig hbig
  obtain ⟨e2, he2, he2lo, _⟩ := mul_fin_bounds (l := 2 ^ 4) (rep_two_pow 4) (rep_two_pow 149)
    (by unfold overflowMag; norm_num)
    (by
      calc 2 ^ 4 * 2 ^ 149 = 32 * (32 * 2 ^ 143) := by norm_num
        _ ≤ a * ((64 - b) * 2 ^ 143) :=
          Nat.mul_le_mul h32 (Nat.mul_le_mul_right _ (by omega))) hup
  rw [he] at he2
  injection he2 with _ hee
  have : 0 < 2 ^ 4 := Nat.two_pow_pos 4
  omega

theorem maxEnergy_normalised (x : List F32) (hN : x.length < 2 ^ 29)
    (hx : ∀ v ∈ x, le (F32.abs v) one = true) :
    ∃ (Mu b0 : Nat), b0 < 32 ∧ maxEnergy (bandEnergies x) = fin false Mu ∧ Mu ≤ 2 ^ 149 ∧
      bandEnergy x b0 = fin false Mu ∧
      ∀ b e, b < 32 → bandEnergy x b = fin false e → e ≤ Mu := by
  have hE : ∀ e ∈ bandEnergies x, NonNeg e := by
    intro e he
    obtain ⟨b, hb, rfl⟩ := mem_bandEnergies x he
    obtain ⟨e1, he1, _⟩ := bandEnergy_bounds x hN hx hb
    rw [he1]
    exact Or.inr ⟨e1, rfl⟩
  obtain ⟨_, hmem, hmax⟩ := maxEnergy_isMaxOf (bandEnergies x) hE (bandEnergies_ne_nil x)
  obtain ⟨b0, hb0, hM⟩ := mem_bandEnergies x hmem
  obtain ⟨Mu, hMu, hMu1, _⟩ := bandEnergy_bounds x hN hx hb0
  refine ⟨Mu, b0, hb0, by rw [hM, hMu], hMu1, hMu, ?_⟩
  intro b e hb he
  have h := hmax (bandEnergy x b) (List.getElem?_mem (getElem?_bandEnergies x hb))
  rw [he, hM, hMu] at h
  simpa [le] using h

theorem frequencyWeight_props :
    (∀ b, b < 32 → frequencyWeight b = fin false ((64 - b) * 2 ^ 143) ∧
        lt half (frequencyWeight b) = true ∧ le (frequencyWeight b) one = true) ∧
      (∀ a b, a < b → b < 32 → lt (frequencyWeight b) (frequencyWeight a) = true) ∧
      frequencyWeight 0 = one ∧ frequencyWeight 31 = fin false (33 * 2 ^ 143) := by
  have hw : ∀ b, b < 32 → frequencyWeight b = fin false ((64 - b) * 2 ^ 143) :=
    fun b hb => frequencyWeight_eq ⟨b, hb⟩
  have hp : (0 : Nat) < 2 ^ 143 := Nat.two_pow_pos 143
  refine ⟨?_, ?_, ?_, ?_⟩
  · intro b hb
    refine ⟨hw b hb, ?_, ?_⟩
    · rw [hw b hb]
      unfold half
      simp only [lt, decide_eq_true_eq]
      calc 2 ^ 148 = 32 * 2 ^ 143 := by norm_num
        _ < (64 - b) * 2 ^ 143 := Nat.mul_lt_mul_of_pos_right (by omega) hp
    · rw [hw b hb]
      unfold one
      simp only [le, decide_eq_true_eq]
      calc (64 - b) * 2 ^ 143 ≤ 64 * 2 ^ 143 := Nat.mul_le_mul_right _ (by omega)
        _ = 2 ^ 149 := by norm_num
  · intro a b hab hb
    rw [hw b hb, hw a (by omega)]
    simp only [lt, decide_eq_true_eq]
    exact Nat.mul_lt_mul_of_pos_right (by omega) hp
  · rw [hw 0 (by norm_num)]
    unfold one
    norm_num
  · rw [hw 31 (by norm_num)]

theorem getElem?_fftData (x : List F32) {b : Nat} (hb : b < 32)
    (hpos : lt zero (maxEnergy (bandEnergies x)) = true) :
    (fftData x)[b]? =
      some (mul (sqrt (div (bandEnergy x b) (maxEnergy (bandEnergies x)))) hundred) := by
  unfold fftData
  simp only [hpos, if_true]
  rw [List.getElem?_map, getElem?_bandEnergies x hb]
  rfl

theorem fftData_equal_means (x : List F32) (hN : x.length < 2 ^ 29)
    (hx : ∀ v ∈ x, le (F32.abs v) one = true) {i j : Nat} (hij : i < j) (hj : j < 32)
    (hmean : bandMean x i = bandMean x j) (hbig : le c2m100 (bandMean x i) = true) :
    ∃ vi vj, (fftData x)[i]? = some vi ∧ (fftData x)[j]? = some vj ∧ lt vj vi = true := by
  have hi : i < 32 := by omega
  obtain ⟨a, ha, _, _⟩ := bandMean_bounds x hN hx hi
  obtain ⟨ei, hei, _, _⟩ := bandEnergy_bounds x hN hx hi
  obtain ⟨ej, hej, _, _⟩ := bandEnergy_bounds x hN hx hj
  obtain ⟨Mu, b0, _, hM, hMu1, _, hmax⟩ := maxEnergy_normalised x hN hx
  have ha49 : 2 ^ 49 ≤ a := by
    rw [ha] at hbig
    simpa [le, c2m100] using hbig
  have hwi := frequencyWeight_eq ⟨i, hi⟩
  have hwj := frequencyWeight_eq ⟨j, hj⟩
  simp only at hwi hwj
  have hei' := hei
  have hej' := hej
  rw [bandEnergy_eq_mean, ha, hwi] at hei'
  rw [bandEnergy_eq_mean, ← hmean, ha, hwj] at hej'
  obtain ⟨hMpos, vi, vj, hvi, hvj, hlt⟩ := display_strict (by omega) (by omega) ha49 hMu1 hei'
    hej' (hmax i ei hi hei) (hmax j ej hj hej)
  have hpos : lt zero (maxEnergy (bandEnergies x)) = true := by
    rw [hM]
    simpa [lt, zero] using hMpos
  refine ⟨fin false vi, fin false vj, ?_, ?_, ?_⟩
  · rw [getElem?_fftData x hi hpos, hei, hM, hvi]
  · rw [getElem?_fftData x hj hpos, hej, hM, hvj]
  · simpa [lt] using hlt

theorem mem_band_of_index (x : List F32) {idx : Nat} {v : F32}
    (hidx : idx < 32 * (x.length / 32)) (hv : x[idx]? = some v) :
    ∃ b, b < 32 ∧
      v ∈ (x.drop (startIdx x.length b)).take (endIdx x.length b - startIdx x.length b) := by
  have hspb : 0 < x.length / 32 := by
    rcases Nat.eq_zero_or_pos (x.length / 32) with h | h
    · rw [h] at hidx; omega
    · exact h
  have hb : idx / (x.length / 32) < 32 := (Nat.div_lt_iff_lt_mul hspb).2 hidx
  refine ⟨idx / (x.length / 32), hb, ?_⟩
  rw [endIdx_eq hb, startIdx_eq, Nat.add_mul, Nat.one_mul, Nat.add_sub_cancel_left]
  have hlo : idx / (x.length / 32) * (x.length / 32) ≤ idx := Nat.div_mul_le_self _ _
  have hhi : idx < (idx / (x.length / 32) + 1) * (x.length / 32) :=
    Nat.lt_mul_of_div_lt (Nat.lt_succ_self _) hspb
  rw [Nat.add_mul, Nat.one_mul] at hhi
  apply List.mem_iff_getElem?.2
  refine ⟨idx - idx / (x.length / 32) * (x.length / 32), ?_⟩
  rw [List.getElem?_take_of_lt (by omega), List.getElem?_drop,
    Nat.add_sub_cancel' hlo]
  exact hv

theorem fftData_normalised (x : List F32) (hN : x.length < 2 ^ 29)
    (hx : ∀ v ∈ x, le (F32.abs v) one = true) :
    ((fftData x).length = 32 ∧ ∀ v ∈ fftData x, le zero v = true ∧ le v hundred = true) ∧
      (fftData x = List.replicate 32 zero ∨ ∃ b, b < 32 ∧ (fftData x)[b]? = some hundred) ∧
      ((∃ idx v, idx < 32 * (x.length / 32) ∧ x[idx]? = some v ∧
          le c2m60 (F32.abs v) = true) →
        ∃ b, b < 32 ∧ (fftData x)[b]? = some hundred) := by
  obtain ⟨Mu, b0, hb0, hM, hMu1, hMb0, hmax⟩ := maxEnergy_normalised x hN hx
  have hfin : ∀ e ∈ bandEnergies x, isFinite e = true := by
    intro e he
    obtain ⟨b, hb, rfl⟩ := mem_bandEnergies x he
    obtain ⟨e1, he1, _⟩ := bandEnergy_bounds x hN hx hb
    rw [he1]
    rfl
  have hmaxle : ∀ c, c < 32 → le (bandEnergy x c) (bandEnergy x b0) = true := by
    intro c hc
    obtain ⟨e1, he1, _⟩ := bandEnergy_bounds x hN hx hc
    have := hmax c e1 hc he1
    rw [he1, hMb0]
    simpa [le] using this
  have h100 : 0 < Mu → (fftData x)[b0]? = some hundred := by
    intro hpos
    refine fftData_of_max_band x hb0 hmaxle ?_ ?_
    · rw [hMb0]; simpa [lt, zero] using hpos
    · rw [hMb0]; rfl
  refine ⟨fftData_range x hfin, ?_, ?_⟩
  · rcases Nat.eq_zero_or_pos Mu with h0 | hpos
    · left
      unfold fftData
      simp only
      rw [hM, h0]
      rfl
    · exact Or.inr ⟨b0, hb0, h100 hpos⟩
  · rintro ⟨idx, v, hidx, hv, hbig⟩
    obtain ⟨b, hb, hmem⟩ := mem_band_of_index x hidx hv
    obtain ⟨e, he, _, hepos⟩ := bandEnergy_bounds x hN hx hb
    have h1 := hepos ⟨v, hmem, hbig⟩
    have h2 := hmax b e hb he
    exact ⟨b0, hb0, h100 (by omega)⟩

theorem fftData_of_zero_prefix (x : List F32)
    (hz : ∀ idx v, idx < 32 * (x.length / 32) → x[idx]? = some v → F32.eq v zero = true) :
    fftData x = List.replicate 32 zero := by
  rw [← fftData_take x]
  refine (fftData_of_zero_energies _ (fun b hb => bandEnergy_of_zero _ ?_ hb)).2
  intro v hv
  obtain ⟨n, hn⟩ := List.mem_iff_getElem?.1 hv
  have hlt : n < 32 * (x.length / 32) := by
    by_contra hge
    rw [List.getElem?_eq_none (by
      rw [List.length_take]
      omega)] at hn
    exact absurd hn (by simp)
  rw [List.getElem?_take_of_lt hlt] at hn
  exact hz n v hlt hn

theorem foldl_squares_scaled (flip : Bool) (k : Nat) (l : List F32)
    (hl : ∀ v ∈ l, InScaleRange k v) :
    ∀ (t A : Nat), (A = 0 ∨ 2 ^ 69 ≤ A) → A * 2 ^ (2 * k) ≤ t * 2 ^ 229 →
    t + l.length < 2 ^ 24 →
    ∃ A1, l.foldl (fun energy x => add energy (mul x x)) (fin false A) = fin false A1 ∧
      (l.map (scaleBy flip k)).foldl (fun energy x => add energy (mul x x))
          (fin false (A * 2 ^ (2 * k))) = fin false (A1 * 2 ^ (2 * k)) ∧
      (A1 = 0 ∨ 2 ^ 69 ≤ A1) ∧ A1 * 2 ^ (2 * k) ≤ (t + l.length) * 2 ^ 229 := by
  induction l with
  | nil =>
    intro t A hA0 hA _
    exact ⟨A, rfl, rfl, hA0, hA⟩
  | cons v rest ih =>
    intro t A hA0 hA ht
    rw [List.length_cons] at ht
    obtain ⟨s, a, hv, ha0, haup⟩ := hl v (List.mem_cons_self v rest)
    obtain ⟨Q, hQ, hQs, hQ0, hQup⟩ := @mul_self_scaled s flip a k ha0 haup
    obtain ⟨A1, hA1, hA1s, hA10, hA1up⟩ := add_scaled hA0 hQ0 hA hQup (by omega)
    obtain ⟨A2, hA2, hA2s, hA20, hA2up⟩ := ih (fun w hw => hl w (List.mem_cons_of_mem v hw))
      (t + 1) A1 hA10 hA1up (by omega)
    refine ⟨A2, ?_, ?_, hA20, ?_⟩
    · rw [List.foldl_cons, hv, hQ, hA1]
      exact hA2
    · rw [List.map_cons, List.foldl_cons, hv]
      simp only [scaleBy]
      rw [hQs, hA1s]
      exact hA2s
    · rw [List.length_cons]
      have : t + 1 + rest.length = t + (rest.length + 1) := by omega
      rw [← this]
      exact hA2up

theorem bandMean_scaled (flip : Bool) (k : Nat) (x : List F32) (hN : x.length < 2 ^ 29)
    (hx : ∀ v ∈ x, InScaleRange k v) {b : Nat} (hb : b < 32) :
    ∃ m, bandMean x b = fin false m ∧
      bandMean (x.map (scaleBy flip k)) b = fin false (m * 2 ^ (2 * k)) ∧
      (m = 0 ∨ 2 ^ 45 ≤ m) ∧ m * 2 ^ (2 * k) ≤ 2 ^ 229 := by
  have hcnt : endIdx x.length b - startIdx x.length b ≤ x.length / 32 := by
    rw [endIdx_eq hb, startIdx_eq, Nat.add_mul]; omega
  have hspb : x.length / 32 < 2 ^ 24 := by
    apply (Nat.div_lt_iff_lt_mul (by norm_num)).2
    calc x.length < 2 ^ 29 := hN
      _ = 2 ^ 24 * 32 := by norm_num
  have hc24 : endIdx x.length b - startIdx x.length b < 2 ^ 24 := lt_of_le_of_lt hcnt hspb
  rw [bandMean_eq_idx, bandMean_eq_idx, List.length_map]
  unfold sumSquares
  rw [← List.map_drop, ← List.map_take]
  generalize hL : (x.drop (startIdx x.length b)).take (endIdx x.length b - startIdx x.length b)
    = L
  have hLlen : L.length ≤ endIdx x.length b - startIdx x.length b := by
    rw [← hL]; exact List.length_take_le _ _
  have hLmem : ∀ v ∈ L, InScaleRange k v := by
    intro v hv
    rw [← hL] at hv
    exact hx v (List.mem_of_mem_drop (List.mem_of_mem_take hv))
  obtain ⟨A1, hA1, hA1s, hA10, hA1up⟩ := foldl_squares_scaled flip k L hLmem 0 0 (Or.inl rfl)
    (by simp) (by omega)
  rw [Nat.zero_add] at hA1up
  rw [Nat.zero_mul] at hA1s
  have hz : zero = fin false 0 := rfl
  rw [hz, hA1, hA1s]
  split
  · rename_i hlt
    have hcpos : 0 < endIdx x.length b - startIdx x.length b := by omega
    rw [ofNat_exact hc24]
    exact div_scaled hA10 hcpos hc24 (le_trans hA1up (Nat.mul_le_mul_right _ hLlen))
  · rename_i hnlt
    have hL0 : L = [] := by
      have : L.length = 0 := by omega
      exact List.length_eq_zero.1 this
    subst hL0
    simp only [List.foldl_nil, fin.injEq, true_and] at hA1
    subst hA1
    exact ⟨0, rfl, by simp, Or.inl rfl, by simp⟩

theorem bandEnergy_scaled (flip : Bool) (k : Nat) (x : List F32) (hN : x.length < 2 ^ 29)
    (hx : ∀ v ∈ x, InScaleRange k v) {b : Nat} (hb : b < 32) :
    ∃ e, bandEnergy x b = fin false e ∧
      bandEnergy (x.map (scaleBy flip k)) b = fin false (e * 2 ^ (2 * k)) := by
  obtain ⟨m, hm, hms, hm0, hmup⟩ := bandMean_scaled flip k x hN hx hb
  have hw := frequencyWeight_eq ⟨b, hb⟩
  simp only at hw
  rw [bandEnergy_eq_mean, bandEnergy_eq_mean, hm, hms, hw]
  refine mul_weight_scaled hm0 ?_ ?_ hmup
  · calc 2 ^ 148 = 32 * 2 ^ 143 := by norm_num
      _ ≤ (64 - b) * 2 ^ 143 := Nat.mul_le_mul_right _ (by omega)
  · calc (64 - b) * 2 ^ 143 ≤ 64 * 2 ^ 143 := Nat.mul_le_mul_right _ (by omega)
      _ = 2 ^ 149 := by norm_num

theorem foldl_max_scaled (j : Nat) (E : List (Nat)) : ∀ m0 : Nat,
    ∃ M, (E.map (fun e => fin false e)).foldl (fun m e => F32.max m e) (fin false m0)
        = fin false M ∧
      (E.map (fun e => fin false (e * 2 ^ j))).foldl (fun m e => F32.max m e)
        (fin false (m0 * 2 ^ j)) = fin false (M * 2 ^ j) := by
  induction E with
  | nil => exact fun m0 => ⟨m0, rfl, rfl⟩
  | cons e rest ih =>
    intro m0
    obtain ⟨h1, c, hc⟩ := max_scaled (a := m0) (b := e) (j := j)
    rw [hc] at h1
    simp only at h1
    obtain ⟨M, hM, hMs⟩ := ih c
    refine ⟨M, ?_, ?_⟩
    · rw [List.map_cons, List.foldl_cons, hc]
      exact hM
    · rw [List.map_cons, List.foldl_cons, h1]
      exact hMs

theorem fftData_scaled (flip : Bool) (k : Nat) (x : List F32) (hN : x.length < 2 ^ 29)
    (hx : ∀ v ∈ x, InScaleRange k v) :
    fftData (x.map (scaleBy flip k)) = fftData x := by
  have hE : ∃ E : List Nat, E.length = 32 ∧ bandEnergies x = E.map (fun e => fin false e) ∧
      bandEnergies (x.map (scaleBy flip k)) = E.map (fun e => fin false (e * 2 ^ (2 * k))) := by
    have hall : ∀ b, b < 32 → ∃ e, bandEnergy x b = fin false e ∧
        bandEnergy (x.map (scaleBy flip k)) b = fin false (e * 2 ^ (2 * k)) :=
      fun b hb => bandEnergy_scaled flip k x hN hx hb
    choose f hf using hall
    refine ⟨(List.range 32).attach.map (fun b => f b.1 (List.mem_range.1 b.2)), by simp, ?_, ?_⟩
    · unfold bandEnergies
      rw [List.map_map, ← List.attach_map_val (l := List.range numBands)]
      show List.map _ (List.range 32).attach = _
      apply List.map_congr_left
      intro b _
      exact (hf b.1 (List.mem_range.1 b.2)).1
    · unfold bandEnergies
      rw [List.map_map, ← List.attach_map_val (l := List.range numBands)]
      show List.map _ (List.range 32).attach = _
      apply List.map_congr_left
      intro b _
      exact (hf b.1 (List.mem_range.1 b.2)).2
  obtain ⟨E, _, hE1, hE2⟩ := hE
  obtain ⟨M, hM, hMs⟩ := foldl_max_scaled (2 * k) E 0
  rw [Nat.zero_mul] at hMs
  unfold fftData
  simp only
  unfold maxEnergy
  rw [hE1, hE2]
  have hz : zero = fin false 0 := rfl
  rw [hz, hM, hMs]
  by_cases hpos : 0 < M
  · have hpos2 : 0 < M * 2 ^ (2 * k) := Nat.mul_pos hpos (Nat.two_pow_pos _)
    simp only [lt, hpos, hpos2, decide_True, if_true, List.map_map]
    apply List.map_congr_left
    intro e _
    simp only [Function.comp]
    rw [div_scaled_max hpos]
  · have h0 : M = 0 := by omega
    subst h0
    simp [lt]

theorem inScaleRange_spec {k : Nat} {v : F32} (h : inScaleRange k v = true) :
    InScaleRange k v := by
  cases v with
  | nan => exact absurd h (by simp [inScaleRange])
  | inf s => exact absurd h (by simp [inScaleRange])
  | fin s a =>
    simp only [inScaleRange, Bool.and_eq_true, Bool.or_eq_true, decide_eq_true_eq] at h
    exact ⟨s, a, rfl, h.1, h.2⟩

theorem mul_twoPow (flip : Bool) (k : Nat) {v : F32} (hb : isBinary32 v = true)
    (hr : inScaleRange k v = true) : mul (twoPow flip k) v = scaleBy flip k v := by
  cases v with
  | nan => exact absurd hr (by simp [inScaleRange])
  | inf s => exact absurd hr (by simp [inScaleRange])
  | fin s a =>
    simp only [inScaleRange, Bool.and_eq_true, Bool.or_eq_true, decide_eq_true_eq] at hr
    simp only [isBinary32, isRepMag, Bool.and_eq_true, decide_eq_true_eq] at hb
    have hex := roundUnits_exact (D := 2 ^ 149) (B := a * 2 ^ k) (Nat.two_pow_pos 149)
      (rep_mul_pow k hb.1)
      (by
        unfold overflowMag
        exact lt_of_le_of_lt hr.2 (by norm_num))
    have hcomm : 2 ^ (149 + k) * a = a * 2 ^ k * 2 ^ 149 := by
      rw [pow_add]; ring
    simp only [twoPow, mul, scaleBy, hcomm, hex, ofMag, fin.injEq, and_true]
    exact Bool.xor_comm flip s

theorem mul_twoPow_inv (flip : Bool) {k : Nat} (hk : k ≤ 149) {v : F32}
    (hb : isBinary32 v = true) (hr : inScaleRange k v = true) :
    mul (F32.fin flip (2 ^ (149 - k))) (scaleBy flip k v) = v := by
  cases v with
  | nan => exact absurd hr (by simp [inScaleRange])
  | inf s => exact absurd hr (by simp [inScaleRange])
  | fin s a =>
    simp only [inScaleRange, Bool.and_eq_true, Bool.or_eq_true, decide_eq_true_eq] at hr
    simp only [isBinary32, isRepMag, Bool.and_eq_true, decide_eq_true_eq] at hb
    have hex := roundUnits_exact (D := 2 ^ 149) (B := a) (Nat.two_pow_pos 149) hb.1 hb.2
    have hcomm : 2 ^ (149 - k) * (a * 2 ^ k) = a * 2 ^ 149 := by
      calc 2 ^ (149 - k) * (a * 2 ^ k) = a * (2 ^ (149 - k) * 2 ^ k) := by ring
        _ = a * 2 ^ 149 := by rw [← pow_add, Nat.sub_add_cancel hk]
    simp only [mul, scaleBy, hcomm, hex, ofMag, fin.injEq, and_true]
    cases flip <;> cases s <;> rfl

/-! ## The claims -/

/-- C1: in a running state whose four vectors have length `bufferSize`, the
callback on slot `k` is defined and afterwards, for every `i < bufferSize`,
`buffers[k].output[i]` is exactly the float product `buffers[k].input[i] * -gain`
(no clamping), the input and the gain being those before the call. -/
theorem C1_callback_writes_inverted_samples (s : State) (k : Fin 2)
    (hrun : s.processing = true)
    (hlen : ∀ j : Fin 2, (s.buffer j).input.length = s.bufferSize ∧
      (s.buffer j).output.length = s.bufferSize) :
    ∃ s1, bufferSwitchStatic s k.val = some s1 ∧ s1.gain = s.gain ∧
      (s1.buffer k).input = (s.buffer k).input ∧
      (s1.buffer k).output.length = s.bufferSize ∧
      ∀ i, i < s.bufferSize → ∃ x, (s1.buffer k).input[i]? = some x ∧
        (s1.buffer k).output[i]? = some (mul x (neg s1.gain)) := by
  obtain ⟨h1, h2⟩ := hlen k
  refine ⟨_, bufferSwitchStatic_running s k hrun (by omega) (by omega), ?_, ?_, ?_, ?_⟩
  · rw [State.setBuffer_gain]
  · rw [State.buffer_setBuffer_same]
  · rw [State.buffer_setBuffer_same]
    simp [h1, h2]
  · intro i hi
    rw [State.buffer_setBuffer_same, State.setBuffer_gain]
    have hi1 : i < (s.buffer k).input.length := by omega
    refine ⟨(s.buffer k).input[i], List.getElem?_eq_getElem hi1, ?_⟩
    simp only
    rw [← h1, List.take_length, h1, ← h2, List.drop_length, List.append_nil, List.getElem?_map,
      List.getElem?_eq_getElem hi1]
    rfl

/-- Instance of `C1_callback_writes_inverted_samples` at a concrete state. -/
theorem C1_callback_writes_inverted_samples_witness :
    ∃ s1, bufferSwitchStatic demoState 0 = some s1 ∧ s1.gain = demoState.gain ∧
      (s1.buffer 0).input = (demoState.buffer 0).input ∧
      (s1.buffer 0).output.length = demoState.bufferSize ∧
      ∀ i, i < demoState.bufferSize → ∃ x, (s1.buffer 0).input[i]? = some x ∧
        (s1.buffer 0).output[i]? = some (mul x (neg s1.gain)) :=
  C1_callback_writes_inverted_samples demoState 0 (by decide) (by decide)

/-- C2 (counterexample): on the running one-sample frame `0.5` the code returns
`0.5 * 1.414f * 100`, which differs from `100 * min (sqrt 2 * rms, 1.0)` both
when `sqrt 2` is the float `sqrt (2.0f)` and when it is the real number (the
square of the returned value is not `5000`). -/
theorem C2_level_is_not_scaled_by_sqrt2 :
    levelState.processing = true ∧
      levelState.current.input.all isBinary32 = true ∧
      GetInputLevel levelState ≠ specLevel (sqrt two) levelState.current.input ∧
      specRms levelState.current.input = half ∧
      ∃ K, GetInputLevel levelState = fin false K ∧ K * K ≠ 5000 * (2 ^ 149 * 2 ^ 149) := by
  refine ⟨by decide, by decide!, by decide!, by decide!, 9266791 * 2 ^ 132, by decide!,
    by norm_num⟩

/-- C2 (amended): when `processing` is set and the current input slot has
fewer than `2^31` samples (the counter is an `int`), `GetInputLevel` returns
`100 * min (1.414f * rms, 1.0)` with `rms = sqrt (S / n)`, `S` the sum of the
squares of the finite samples, `n` their number, and `rms = 0` when `n = 0`. -/
theorem C2_level_formula_with_1_414 (s : State) (hrun : s.processing = true)
    (hlen : s.current.input.length < 2 ^ 31) :
    GetInputLevel s = specLevel c1_414 s.current.input := by
  unfold GetInputLevel
  simp only [hrun, Bool.not_true, Bool.false_eq_true, if_false]
  exact inputLevel_eq_specLevel _ hlen

/-- Instance of `C2_level_formula_with_1_414` at a concrete state. -/
theorem C2_level_formula_with_1_414_witness :
    GetInputLevel mixedState = specLevel c1_414 mixedState.current.input :=
  C2_level_formula_with_1_414 mixedState (by decide) (by decide)

/-- C3: when running on a frame `x` of finite samples (a vector, so of fewer
than `2^64` samples), the 32 weighted energies `E_b` have a maximum `M`, and for
every maximum `M` of them either `M > 0` or `M = 0`, and `GetFFTData` returns,
in band order, `100 * sqrt (E_b / M)` if `M > 0` and 32 zeros otherwise. -/
theorem C3_band_formula (s : State) (hrun : s.processing = true)
    (hfin : ∀ v ∈ s.current.input, isFinite v = true)
    (hsize : s.current.input.length < 2 ^ 64) :
    (specBandEnergies s.current.input).length = 32 ∧
      (∃ M, IsMaxOf M (specBandEnergies s.current.input)) ∧
      ∀ M, IsMaxOf M (specBandEnergies s.current.input) →
        (lt zero M = true ∨ M = zero) ∧
          GetFFTData s = specFFT (specBandEnergies s.current.input) M := by
  have hE := bandEnergies_nonNeg _ hfin hsize
  have hne := bandEnergies_ne_nil s.current.input
  rw [bandEnergies_eq_spec] at hE hne
  refine ⟨by simp [specBandEnergies], ?_, ?_⟩
  · refine ⟨maxEnergy (specBandEnergies s.current.input), ?_⟩
    exact (maxEnergy_isMaxOf _ hE hne).2
  · intro M hM
    have hMeq := isMaxOf_unique _ hE hM hne
    refine ⟨zero_lt_or_eq_of_nonNeg (hE M hM.1), ?_⟩
    unfold GetFFTData
    simp only [hrun, Bool.not_true, Bool.false_eq_true, if_false]
    rw [fftData_eq_specFFT, bandEnergies_eq_spec, hMeq]

/-- Instance of `C3_band_formula` at a concrete state. -/
theorem C3_band_formula_witness :
    (specBandEnergies toneState.current.input).length = 32 ∧
      (∃ M, IsMaxOf M (specBandEnergies toneState.current.input)) ∧
      ∀ M, IsMaxOf M (specBandEnergies toneState.current.input) →
        (lt zero M = true ∨ M = zero) ∧
          GetFFTData toneState = specFFT (specBandEnergies toneState.current.input) M :=
  C3_band_formula toneState (by decide) (by decide) (by decide)

/-- C4: for every numeric argument `g`, `SetInversionGain` stores
`std::max(0.0f, std::min(g, 2.0f))` as the gain and returns the object
`{success: true, gain: c}` with `c` that stored value; `c` lies in `[0, 2]`,
equals `g` when `0 <= g <= 2`, is `0` when `g < 0` and `2` when `g > 2`. -/
theorem C4_setGain_stores_and_returns_clamp (s : State) (g : F32) (rest : List JsValue) :
    SetInversionGain s (JsValue.number g :: rest) =
        ({ s with gain := F32.max zero (F32.min g two) },
          GainResult.ok true (F32.max zero (F32.min g two))) ∧
      (SetInversionGain s (JsValue.number g :: rest)).1.gain = F32.max zero (F32.min g two) ∧
      le zero (F32.max zero (F32.min g two)) = true ∧
      le (F32.max zero (F32.min g two)) two = true ∧
      (le zero g = true → le g two = true → F32.eq (F32.max zero (F32.min g two)) g = true) ∧
      (lt g zero = true → F32.max zero (F32.min g two) = zero) ∧
      (lt two g = true → F32.max zero (F32.min g two) = two) := by
  obtain ⟨h1, h2, h3, h4, h5, _⟩ := F32.clamp_cases g
  exact ⟨rfl, rfl, h1, h2, h3, h4, h5⟩

/-- C5 (failing input): `Start` stores its numeric argument as it is.  From the
initial state `start(5.0)` leaves the gain `5.0`, which is not `<= 2.0`. -/
theorem C5_start_stores_unclamped_gain :
    (Start initialState [JsValue.number (ofNat 5)]).1.gain = ofNat 5 ∧
      le (ofNat 5) two = false ∧ isBinary32 (ofNat 5) = true ∧
      (SetInversionGain initialState [JsValue.number (ofNat 5)]).1.gain = two := by
  decide!

/-- C6: when `processing` is false the callback returns the state it was given,
for every index, so the active slot, both slots' contents and ready flags, the
gain and the flag are unchanged; in particular every sequence of callbacks after
`Stop` leaves the state as `Stop` left it. -/
theorem C6_callback_noop_when_stopped (s : State) (hstop : s.processing = false) :
    (∀ index, bufferSwitchStatic s index = some s) ∧
      (∀ indices, runCallbacks s indices = some s) ∧
      (∀ (s0 : State) (indices : List Nat),
        runCallbacks (Stop s0).1 indices = some (Stop s0).1) :=
  ⟨fun index => bufferSwitchStatic_stopped s index hstop,
   runCallbacks_stopped s hstop,
   fun s0 indices => runCallbacks_stopped (Stop s0).1 rfl indices⟩

/-- Instance of `C6_callback_noop_when_stopped` at a concrete state. -/
theorem C6_callback_noop_when_stopped_witness :
    (∀ index, bufferSwitchStatic initialState index = some initialState) ∧
      (∀ indices, runCallbacks initialState indices = some initialState) ∧
      (∀ (s0 : State) (indices : List Nat),
        runCallbacks (Stop s0).1 indices = some (Stop s0).1) :=
  C6_callback_noop_when_stopped initialState (by decide)

/-- C7: in a running state whose slot `k` vectors hold at least `bufferSize`
samples, the callback on slot `k` is defined; afterwards `currentBuffer`
designates slot `k`, slot `k` is ready, the inputs of both slots, the whole
other slot, the gain, the flag and `bufferSize` are unchanged, and
`GetInputLevel` measures the input of slot `k`. -/
theorem C7_callback_selects_and_marks_slot (s : State) (k : Fin 2)
    (hrun : s.processing = true)
    (hin : s.bufferSize ≤ (s.buffer k).input.length)
    (hout : s.bufferSize ≤ (s.buffer k).output.length) :
    ∃ s1, bufferSwitchStatic s k.val = some s1 ∧
      s1.currentBuffer = k ∧ (s1.buffer k).ready = true ∧
      (∀ j, (s1.buffer j).input = (s.buffer j).input) ∧
      (∀ j, j ≠ k → s1.buffer j = s.buffer j) ∧
      s1.gain = s.gain ∧ s1.processing = s.processing ∧ s1.bufferSize = s.bufferSize ∧
      GetInputLevel s1 = inputLevel (s.buffer k).input := by
  refine ⟨_, bufferSwitchStatic_running s k hrun hin hout, ?_, ?_, ?_, ?_, ?_, ?_, ?_, ?_⟩
  · rw [State.setBuffer_currentBuffer]
  · rw [State.buffer_setBuffer_same]
  · intro j
    by_cases hj : j = k
    · subst hj; rw [State.buffer_setBuffer_same]
    · rw [State.buffer_setBuffer_other _ _ hj]; rfl
  · intro j hj
    rw [State.buffer_setBuffer_other _ _ hj]; rfl
  · rw [State.setBuffer_gain]
  · rw [State.setBuffer_processing]
  · rw [State.setBuffer_bufferSize]
  · unfold GetInputLevel State.current
    rw [State.setBuffer_processing, State.setBuffer_currentBuffer]
    simp only [hrun, Bool.not_true, Bool.false_eq_true, if_false]
    rw [State.buffer_setBuffer_same]

/-- Instance of `C7_callback_selects_and_marks_slot` at a concrete state. -/
theorem C7_callback_selects_and_marks_slot_witness :
    ∃ s1, bufferSwitchStatic demoState (1 : Fin 2).val = some s1 ∧
      s1.currentBuffer = 1 ∧ (s1.buffer 1).ready = true ∧
      (∀ j, (s1.buffer j).input = (demoState.buffer j).input) ∧
      (∀ j, j ≠ 1 → s1.buffer j = demoState.buffer j) ∧
      s1.gain = demoState.gain ∧ s1.processing = demoState.processing ∧
      s1.bufferSize = demoState.bufferSize ∧
      GetInputLevel s1 = inputLevel (demoState.buffer 1).input :=
  C7_callback_selects_and_marks_slot demoState 1 (by decide) (by decide) (by decide)

/-- C8: when `processing` is false, `GetInputLevel` returns `0` and `GetFFTData`
returns a list of exactly 32 zeros, whatever the buffers, the active slot and
the gain are. -/
theorem C8_stopped_queries_return_zero (s : State) (hstop : s.processing = false) :
    GetInputLevel s = zero ∧ GetFFTData s = List.replicate 32 zero ∧
      (GetFFTData s).length = 32 := by
  unfold GetInputLevel GetFFTData
  simp [hstop, numBands]

/-- Instance of `C8_stopped_queries_return_zero` at a concrete state. -/
theorem C8_stopped_queries_return_zero_witness :
    GetInputLevel (Stop loudState).1 = zero ∧
      GetFFTData (Stop loudState).1 = List.replicate 32 zero ∧
      (GetFFTData (Stop loudState).1).length = 32 :=
  C8_stopped_queries_return_zero (Stop loudState).1 (by decide)

/-- C9: for every state, running or stopped, and every content of the current
input slot (finite, NaN and infinite samples, or none), `GetInputLevel` returns
a value `v` with `0 <= v` and `v <= 100`. -/
theorem C9_level_within_0_100 (s : State) :
    le zero (GetInputLevel s) = true ∧ le (GetInputLevel s) hundred = true := by
  unfold GetInputLevel
  by_cases hp : s.processing = true
  · simp only [hp, Bool.not_true, Bool.false_eq_true, if_false]
    obtain ⟨r, hr, hle⟩ := inputLevel_range s.current.input
    rw [hr]
    unfold zero hundred
    simp only [le, decide_eq_true_eq]
    exact ⟨Nat.zero_le _, hle⟩
  · simp only [hp, Bool.not_eq_true, Bool.not_false, if_true]
    decide

/-- C10 (counterexample): the running frame of 32 finite samples `2^64, 0, ..., 0`
makes the energy of band 0 overflow, and `GetFFTData` returns NaN for band 0,
which is not within `[0, 100]`. -/
theorem C10_overflow_yields_nan :
    loudState.processing = true ∧
      (loudState.current.input.all (fun v => isFinite v && isBinary32 v)) = true ∧
      (GetFFTData loudState).head? = some nan ∧
      ((GetFFTData loudState).all (fun v => le zero v && le v hundred)) = false := by
  decide!

/-- C10 (amended): for every state, running or stopped, whose current input
slot holds only finite samples and, when running, whose 32 weighted band
energies are all finite (no sum of squares overflows), `GetFFTData` returns
exactly 32 values, each `v` with `0 <= v` and `v <= 100`. -/
theorem C10_bands_within_0_100_without_overflow (s : State)
    (hfin : ∀ v ∈ s.current.input, isFinite v = true)
    (henergy : s.processing = true → ∀ e ∈ bandEnergies s.current.input, isFinite e = true) :
    (GetFFTData s).length = 32 ∧
      ∀ v ∈ GetFFTData s, le zero v = true ∧ le v hundred = true := by
  have _ := hfin
  unfold GetFFTData
  by_cases hp : s.processing = true
  · simp only [hp, Bool.not_true, Bool.false_eq_true, if_false]
    exact fftData_range _ (henergy hp)
  · simp only [hp, Bool.not_eq_true, Bool.not_false, if_true]
    refine ⟨by simp [numBands], ?_⟩
    intro v hv
    rw [List.eq_of_mem_replicate hv]
    decide

/-- Instance of `C10_bands_within_0_100_without_overflow` at a concrete state. -/
theorem C10_bands_within_0_100_without_overflow_witness :
    (GetFFTData toneState).length = 32 ∧
      ∀ v ∈ GetFFTData toneState, le zero v = true ∧ le v hundred = true :=
  C10_bands_within_0_100_without_overflow toneState (by decide!) (fun _ => by decide!)



/-- C11 (counterexample): for a frame of 33 samples the last band is `[31, 32)`:
it does not extend to the end of the frame, index 32 lies in no band, and the
value of sample 32 (here NaN or 0) does not change the result. -/
theorem C11_remainder_sample_in_no_band :
    endIdx 33 31 = 32 ∧ endIdx 33 31 - startIdx 33 31 = 1 ∧
      (∀ b, b < 32 → ¬ (startIdx 33 b ≤ 32 ∧ 32 < endIdx 33 b)) ∧
      (oddFrame nan).length = 33 ∧
      fftData (oddFrame nan) = fftData (oddFrame zero) := by
  refine ⟨by decide, by decide, by decide, by decide, ?_⟩
  rw [← fftData_take (oddFrame nan), ← fftData_take (oddFrame zero)]
  rfl

/-- C11 (amended): for every frame length `N >= 32` the 32 index ranges used by
`GetFFTData` start at 0, are contiguous, all have size `floor (N / 32)` (the last
one too) and end at `32 * floor (N / 32) <= N`: every index below that bound
lies in exactly one band, every index from that bound on lies in no band, and
the `N mod 32` samples there do not contribute to the result. -/
theorem C11_bands_partition_multiple_of_32 (N : Nat) (hN : 32 ≤ N) :
    startIdx N 0 = 0 ∧ 1 ≤ N / 32 ∧
      (∀ b, b < 32 → endIdx N b - startIdx N b = N / 32) ∧
      (∀ b, b < 31 → endIdx N b = startIdx N (b + 1)) ∧
      endIdx N 31 = 32 * (N / 32) ∧ 32 * (N / 32) ≤ N ∧
      (∀ i, i < 32 * (N / 32) → ∃ b, b < 32 ∧ (startIdx N b ≤ i ∧ i < endIdx N b) ∧
        ∀ c, c < 32 → startIdx N c ≤ i ∧ i < endIdx N c → c = b) ∧
      (∀ i, 32 * (N / 32) ≤ i → ∀ b, b < 32 → ¬ (startIdx N b ≤ i ∧ i < endIdx N b)) ∧
      (∀ x : List F32, x.length = N → fftData x = fftData (x.take (32 * (N / 32)))) := by
  have hs : 1 ≤ N / 32 := (Nat.le_div_iff_mul_le (by norm_num)).2 (by omega)
  refine ⟨by simp [startIdx], hs, ?_, ?_, ?_, Nat.mul_div_le N 32, ?_, ?_, ?_⟩
  · intro b hb
    rw [endIdx_eq hb, startIdx_eq, Nat.add_mul]; omega
  · intro b hb
    rw [endIdx_eq (by omega), startIdx_eq]
  · rw [endIdx_eq (by omega)]
  · intro i hi
    have hlt : i / (N / 32) < 32 := (Nat.div_lt_iff_lt_mul (by omega)).2 hi
    refine ⟨i / (N / 32), hlt, ⟨?_, ?_⟩, ?_⟩
    · rw [startIdx_eq]; exact Nat.div_mul_le_self i (N / 32)
    · rw [endIdx_eq hlt]
      exact Nat.lt_mul_of_div_lt (Nat.lt_succ_self _) (by omega)
    · intro c hc hci
      rw [endIdx_eq hc, startIdx_eq] at hci
      exact (Nat.div_eq_of_lt_le hci.1 hci.2).symm
  · intro i hi b hb hbi
    rw [endIdx_eq hb] at hbi
    have : (b + 1) * (N / 32) ≤ 32 * (N / 32) := Nat.mul_le_mul_right _ (by omega)
    omega
  · intro x hx
    rw [← hx, fftData_take]

/-- Instance of `C11_bands_partition_multiple_of_32` at the frame length 1000. -/
theorem C11_bands_partition_multiple_of_32_witness :
    startIdx 1000 0 = 0 ∧ 1 ≤ 1000 / 32 ∧
      (∀ b, b < 32 → endIdx 1000 b - startIdx 1000 b = 1000 / 32) ∧
      (∀ b, b < 31 → endIdx 1000 b = startIdx 1000 (b + 1)) ∧
      endIdx 1000 31 = 32 * (1000 / 32) ∧ 32 * (1000 / 32) ≤ 1000 ∧
      (∀ i, i < 32 * (1000 / 32) → ∃ b, b < 32 ∧ (startIdx 1000 b ≤ i ∧ i < endIdx 1000 b) ∧
        ∀ c, c < 32 → startIdx 1000 c ≤ i ∧ i < endIdx 1000 c → c = b) ∧
      (∀ i, 32 * (1000 / 32) ≤ i → ∀ b, b < 32 →
        ¬ (startIdx 1000 b ≤ i ∧ i < endIdx 1000 b)) ∧
      (∀ x : List F32, x.length = 1000 →
        fftData x = fftData (x.take (32 * (1000 / 32)))) :=
  C11_bands_partition_multiple_of_32 1000 (by decide)

/-- C12 (counterexample): in the running frame of 1024 finite samples whose band
31 holds samples `1.0` and whose other bands hold samples `0.875` (band 0) or
`0`, every sample of band 31 has a strictly larger absolute value than every
sample of every other band, yet `GetFFTData` reports about `82.07` for band 31
(and `100` for band 0). -/
theorem C12_louder_high_band_is_not_100 :
    skewState.processing = true ∧ skewState.current.input.length = 1024 ∧
      (∀ v ∈ skewState.current.input, isFinite v = true ∧ isBinary32 v = true) ∧
      (∀ i j, 992 ≤ i → i < 1024 → j < 992 →
        lt (F32.abs (skewState.current.input.getD j nan))
          (F32.abs (skewState.current.input.getD i nan)) = true) ∧
      (GetFFTData skewState)[31]? = some (fin false (10756447 * 2 ^ 132)) ∧
      fin false (10756447 * 2 ^ 132) ≠ hundred := by
  have hmem : ∀ v ∈ skewState.current.input, v = c0_875 ∨ v = zero ∨ v = one := by
    rw [skewState_input]
    exact fun v hv => mem_skewFrame hv
  refine ⟨rfl, by rw [skewState_input]; decide!, ?_, ?_, ?_, by decide!⟩
  · intro v hv
    rcases hmem v hv with rfl | rfl | rfl <;> decide!
  · intro i j hi1 hi2 hj
    have hin : skewState.current.input = skewFrame := skewState_input
    have hi : skewFrame.getD i nan = one := by
      unfold skewFrame
      rw [List.getD_eq_getElem?_getD, List.getElem?_append_right (by simp; omega),
        List.getElem?_append_right (by simp; omega)]
      simp only [List.length_replicate]
      rw [List.getElem?_replicate, if_pos (by omega)]
      rfl
    have hj' : skewFrame.getD j nan = c0_875 ∨ skewFrame.getD j nan = zero := by
      have hjl : j < skewFrame.length := by
        have : skewFrame.length = 1024 := by decide!
        omega
      have hmemj : skewFrame.getD j nan ∈ skewFrame := by
        rw [List.getD_eq_getElem?_getD, List.getElem?_eq_getElem hjl]
        exact List.getElem_mem _
      rcases hmem _ hmemj with h | h | h
      · exact Or.inl h
      · exact Or.inr h
      · exfalso
        unfold skewFrame at h
        by_cases hj32 : j < 32
        · rw [List.getD_eq_getElem?_getD, List.getElem?_append_left (by simp; omega),
            List.getElem?_replicate, if_pos hj32] at h
          exact absurd h (by decide!)
        · rw [List.getD_eq_getElem?_getD, List.getElem?_append_right (by simp; omega),
            List.getElem?_append_left (by simp; omega),
            List.getElem?_replicate, if_pos (by simp; omega)] at h
          exact absurd h (by decide!)
    rw [hin, hi]
    rcases hj' with h | h <;> rw [h] <;> decide!
  · rw [GetFFTData_running skewState rfl, skewState_input]
    unfold fftData
    rw [bandEnergies_skewFrame]
    decide!

/-- C12 (amended): when running with a frame of 1024 finite samples, if the
weighted energy of band `b` (the value `bandEnergies[b]`, the mean square of the
band times `1 - 0.5 * b / 32`) is finite, nonzero and at least that of every
band, then `GetFFTData` reports exactly `100` for band `b`, for every `b` in
`0..31`. -/
theorem C12_band_of_largest_weighted_energy_is_100 (s : State) (b : Nat)
    (hrun : s.processing = true) (hlen : s.current.input.length = 1024)
    (hfin : ∀ v ∈ s.current.input, isFinite v = true) (hb : b < 32)
    (hmax : ∀ c, c < 32 →
      le (bandEnergy s.current.input c) (bandEnergy s.current.input b) = true)
    (hpos : lt zero (bandEnergy s.current.input b) = true)
    (hfinite : isFinite (bandEnergy s.current.input b) = true) :
    (GetFFTData s)[b]? = some hundred := by
  have _ := hlen
  have _ := hfin
  unfold GetFFTData
  simp only [hrun, Bool.not_true, Bool.false_eq_true, if_false]
  exact fftData_of_max_band _ hb hmax hpos hfinite

/-- Instance of `C12_band_of_largest_weighted_energy_is_100` at `skewState`,
band 0. -/
theorem C12_band_of_largest_weighted_energy_is_100_witness :
    (GetFFTData skewState)[0]? = some hundred :=
  C12_band_of_largest_weighted_energy_is_100 skewState 0 rfl
    (by rw [skewState_input]; decide!)
    (fun v hv => by
      rw [skewState_input] at hv
      rcases mem_skewFrame hv with rfl | rfl | rfl <;> decide!)
    (by decide) (fun _ hc => by rw [skewState_input]; exact bandEnergy_skewFrame_le hc)
    (by
      have h := getElem?_bandEnergies skewFrame (by decide : 0 < 32)
      rw [bandEnergies_skewFrame] at h
      rw [skewState_input, ← Option.some.inj h]; decide!)
    (by
      have h := getElem?_bandEnergies skewFrame (by decide : 0 < 32)
      rw [bandEnergies_skewFrame] at h
      rw [skewState_input, ← Option.some.inj h]; decide!)

/-- C13 (failing input): `GetFFTData` has no test for non-finite samples.  On the
running frame `NaN, 1.0, 0, ..., 0` of 32 samples it returns NaN for band 0,
whereas the frame in which the NaN is replaced by `0` gives `0` for band 0. -/
theorem C13_nan_sample_reaches_the_result :
    nanState.processing = true ∧ nanState.current.input = nanFrame ∧
      specZeroNonFinite nanFrame = zero :: one :: List.replicate 30 zero ∧
      GetFFTData nanState = nan :: hundred :: List.replicate 30 zero ∧
      fftData (specZeroNonFinite nanFrame) = zero :: hundred :: List.replicate 30 zero := by
  refine ⟨rfl, rfl, by decide, ?_, ?_⟩
  · rw [GetFFTData_running nanState rfl]
    unfold fftData maxEnergy bandEnergies bandEnergy sumSquares frequencyWeight F32.sub hundred
    rw [ofNat_eq_fast, mul_eq_fast, add_eq_fast, div_eq_fast, sqrt_eq_fast]
    decide!
  · unfold fftData maxEnergy bandEnergies bandEnergy sumSquares frequencyWeight F32.sub hundred
    rw [ofNat_eq_fast, mul_eq_fast, add_eq_fast, div_eq_fast, sqrt_eq_fast]
    decide!

/-- C14: when running, if every sample of the current input slot is NaN or
infinite (for every length, 0 included), `GetInputLevel` returns exactly `0`. -/
theorem C14_level_zero_without_finite_sample (s : State) (hrun : s.processing = true)
    (hnf : ∀ v ∈ s.current.input, isFinite v = false) :
    GetInputLevel s = zero := by
  rw [GetInputLevel_running s hrun]
  unfold inputLevel
  simp only
  rw [levelStep_fold_nonFinite _ hnf]
  simp only [lt_self_iff_false, if_false]
  exact level_of_zero_rms

/-- Instance of `C14_level_zero_without_finite_sample` at a frame of 24 NaN and
infinite samples. -/
theorem C14_level_zero_without_finite_sample_witness :
    GetInputLevel nonFiniteState = zero :=
  C14_level_zero_without_finite_sample nonFiniteState rfl (by decide)

/-- C15: when running, for every frame length, if every sample of the current
input slot is `0` (of either sign) then `GetInputLevel` returns `0` and
`GetFFTData` returns 32 values `0`. -/
theorem C15_silence_gives_zero_level_and_bands (s : State) (hrun : s.processing = true)
    (hz : ∀ v ∈ s.current.input, F32.eq v zero = true) :
    GetInputLevel s = zero ∧ GetFFTData s = List.replicate 32 zero ∧
      maxEnergy (bandEnergies s.current.input) = zero := by
  rw [GetInputLevel_running s hrun, GetFFTData_running s hrun]
  obtain ⟨hE, hF⟩ := fftData_of_zero_energies s.current.input
    (fun b hb => bandEnergy_of_zero _ hz hb)
  refine ⟨inputLevel_of_zero _ hz, hF, ?_⟩
  rw [hE, maxEnergy_replicate_zero]

/-- Instance of `C15_silence_gives_zero_level_and_bands` at a frame of 40 zeros. -/
theorem C15_silence_gives_zero_level_and_bands_witness :
    GetInputLevel silentState = zero ∧ GetFFTData silentState = List.replicate 32 zero ∧
      maxEnergy (bandEnergies silentState.current.input) = zero :=
  C15_silence_gives_zero_level_and_bands silentState rfl (by decide)

/-- C16: when running with fewer than 32 samples in the current input slot, for
every band `startIdx = endIdx = 0`, so the range is empty and no sample is
read, every band energy is `0` and `GetFFTData` returns 32 zeros. -/
theorem C16_short_frame_gives_zero_bands (s : State) (hrun : s.processing = true)
    (hshort : s.current.input.length < 32) :
    (∀ b, b < 32 → startIdx s.current.input.length b = 0 ∧
        endIdx s.current.input.length b = 0 ∧
        (s.current.input.drop (startIdx s.current.input.length b)).take
          (endIdx s.current.input.length b - startIdx s.current.input.length b) = [] ∧
        bandEnergy s.current.input b = zero) ∧
      bandEnergies s.current.input = List.replicate 32 zero ∧
      GetFFTData s = List.replicate 32 zero := by
  rw [GetFFTData_running s hrun]
  obtain ⟨hE, hF⟩ := fftData_of_zero_energies s.current.input
    (fun b hb => (bandEnergy_of_short _ hshort hb).2.2)
  refine ⟨?_, hE, hF⟩
  intro b hb
  obtain ⟨h1, h2, h3⟩ := bandEnergy_of_short _ hshort hb
  refine ⟨h1, h2, ?_, h3⟩
  rw [h1, h2]
  rfl

/-- Instance of `C16_short_frame_gives_zero_bands` at a frame of five samples,
three of them non-finite. -/
theorem C16_short_frame_gives_zero_bands_witness :
    (∀ b, b < 32 → startIdx mixedState.current.input.length b = 0 ∧
        endIdx mixedState.current.input.length b = 0 ∧
        (mixedState.current.input.drop (startIdx mixedState.current.input.length b)).take
          (endIdx mixedState.current.input.length b
            - startIdx mixedState.current.input.length b) = [] ∧
        bandEnergy mixedState.current.input b = zero) ∧
      bandEnergies mixedState.current.input = List.replicate 32 zero ∧
      GetFFTData mixedState = List.replicate 32 zero :=
  C16_short_frame_gives_zero_bands mixedState rfl (by decide)



/-- C17: when running with a frame of 1024 finite samples whose RMS (the float
`sqrt (S / n)`) is `0.707` up to `0.0001`, whatever the gain is, `GetInputLevel`
returns a value between `99.94` and `99.995`, hence near `99.9698` and within
`[99.9, 100]`; the result is the same for every gain. -/
theorem C17_level_near_100_for_rms_0_707 (s : State) (hrun : s.processing = true)
    (hlen : s.current.input.length = 1024)
    (hfin : ∀ v ∈ s.current.input, isFinite v = true)
    (hrms : le rmsLo (specRms s.current.input) = true ∧
      le (specRms s.current.input) rmsHi = true) :
    (le levelLo (GetInputLevel s) = true ∧ le (GetInputLevel s) levelHi = true) ∧
      (le c99_9 (GetInputLevel s) = true ∧ le (GetInputLevel s) hundred = true) ∧
      ∀ g : F32, GetInputLevel { s with gain := g } = GetInputLevel s := by
  have _ := hfin
  obtain ⟨m, hm, hlo, hhi⟩ := specLevel_of_rms_near_0_707 _ hrms.1 hrms.2
  have hL : GetInputLevel s = fin false m := by
    rw [GetInputLevel_running s hrun, inputLevel_eq_specLevel _ (by rw [hlen]; norm_num), hm]
  have hg : ∀ g : F32, GetInputLevel { s with gain := g } = GetInputLevel s := fun g => rfl
  refine ⟨?_, ?_, hg⟩ <;> rw [hL]
  · rw [levelLo_eq, levelHi_eq]
    simp only [le, decide_eq_true_eq]
    exact ⟨hlo, hhi⟩
  rw [c99_9_eq]
  unfold hundred
  simp only [le, decide_eq_true_eq]
  refine ⟨?_, ?_⟩
  · have : 13094093 * 2 ^ 132 ≤ 1637417 * 2 ^ 135 := by norm_num
    omega
  · have : 13106545 * 2 ^ 132 ≤ 100 * 2 ^ 149 := by norm_num
    omega

/-- Instance of `C17_level_near_100_for_rms_0_707` at the frame of 1024 samples
`0.707` with gain `1.0`. -/
theorem C17_level_near_100_for_rms_0_707_witness :
    (le levelLo (GetInputLevel sineState) = true ∧
        le (GetInputLevel sineState) levelHi = true) ∧
      (le c99_9 (GetInputLevel sineState) = true ∧
        le (GetInputLevel sineState) hundred = true) ∧
      ∀ g : F32, GetInputLevel { sineState with gain := g } = GetInputLevel sineState :=
  C17_level_near_100_for_rms_0_707 sineState rfl
    (by rw [sineState_input]; exact List.length_replicate _ _)
    (fun v hv => by
      rw [sineState_input] at hv
      rw [List.eq_of_mem_replicate hv]; decide!)
    (by rw [sineState_input, specRms_sineFrame]; decide!)

/-- C18: `Stop` is idempotent: for every state, `Stop` after `Stop` gives the
same state and the same result as a single `Stop`; the flag is then false and
each call returns `{success: true}`. -/
theorem C18_stop_idempotent (s : State) :
    Stop (Stop s).1 = Stop s ∧ (Stop (Stop s).1).1 = (Stop s).1 ∧
      (Stop s).1.processing = false ∧ (Stop (Stop s).1).1.processing = false ∧
      (Stop s).2 = true ∧ (Stop (Stop s).1).2 = true :=
  ⟨rfl, rfl, rfl, rfl, rfl, rfl⟩

/-- C19: the flag is false initially; for every state and every argument list
`Start` returns `success = true` and leaves the flag true; `Stop` returns
`success = true` and leaves it false; `SetInversionGain` and the callback leave
it as it was (`GetInputLevel` and `GetFFTData` only compute a value from the
state: they contain no assignment to a static member). -/
theorem C19_flag_changed_by_start_and_stop_only :
    initialState.processing = false ∧
      (∀ (s : State) (info : List JsValue),
        (Start s info).2.success = true ∧ (Start s info).1.processing = true) ∧
      (∀ s : State, (Stop s).2 = true ∧ (Stop s).1.processing = false) ∧
      (∀ (s : State) (info : List JsValue),
        (SetInversionGain s info).1.processing = s.processing) ∧
      (∀ (s s1 : State) (index : Nat),
        bufferSwitchStatic s index = some s1 → s1.processing = s.processing) ∧
      (∀ (s s1 : State) (indices : List Nat),
        runCallbacks s indices = some s1 → s1.processing = s.processing) := by
  refine ⟨rfl, fun s info => ⟨rfl, rfl⟩, fun s => ⟨rfl, rfl⟩, ?_,
    bufferSwitchStatic_processing, ?_⟩
  · intro s info
    unfold SetInversionGain
    split <;> rfl
  · intro s s1 indices
    induction indices generalizing s with
    | nil =>
      intro h
      unfold runCallbacks at h
      rw [← Option.some.inj h]
    | cons index rest ih =>
      intro h
      unfold runCallbacks at h
      split at h
      · exact absurd h (by simp)
      · rename_i s2 hs2
        rw [ih s2 h, bufferSwitchStatic_processing s s2 index hs2]

/-- C20: for every state, running or stopped, and every numeric argument `v`,
`SetInversionGain` changes the gain only, to `c = std::max(0.0f, std::min(v, 2.0f))`;
if the state is running, the next callback on a slot `k` whose vectors hold at
least `bufferSize` samples writes `output[i] = input[i] * -c` for every
`i < bufferSize`; if it is stopped, the next callback changes nothing and the
gain `c` stays stored. -/
theorem C20_setGain_changes_gain_only_and_next_callback_uses_it (s : State) (v : F32)
    (rest : List JsValue) (k : Fin 2) :
    (SetInversionGain s (JsValue.number v :: rest)).1 =
        { s with gain := F32.max zero (F32.min v two) } ∧
      ((SetInversionGain s (JsValue.number v :: rest)).1.processing = s.processing ∧
        (SetInversionGain s (JsValue.number v :: rest)).1.currentBuffer = s.currentBuffer ∧
        (SetInversionGain s (JsValue.number v :: rest)).1.buffers0 = s.buffers0 ∧
        (SetInversionGain s (JsValue.number v :: rest)).1.buffers1 = s.buffers1 ∧
        (SetInversionGain s (JsValue.number v :: rest)).1.bufferSize = s.bufferSize) ∧
      (s.processing = true → s.bufferSize ≤ (s.buffer k).input.length →
        s.bufferSize ≤ (s.buffer k).output.length →
        ∃ s2, bufferSwitchStatic (SetInversionGain s (JsValue.number v :: rest)).1 k.val
            = some s2 ∧
          ∀ i, i < s.bufferSize → ∃ x, (s.buffer k).input[i]? = some x ∧
            (s2.buffer k).output[i]? = some (mul x (neg (F32.max zero (F32.min v two))))) ∧
      (s.processing = false →
        bufferSwitchStatic (SetInversionGain s (JsValue.number v :: rest)).1 k.val
          = some { s with gain := F32.max zero (F32.min v two) }) := by
  refine ⟨rfl, ⟨rfl, rfl, rfl, rfl, rfl⟩, ?_, ?_⟩
  · intro hrun hin hout
    have hs : (SetInversionGain s (JsValue.number v :: rest)).1 =
        { s with gain := F32.max zero (F32.min v two) } := rfl
    rw [hs]
    refine ⟨_, bufferSwitchStatic_running _ k hrun hin hout, ?_⟩
    intro i hi
    rw [State.buffer_setBuffer_same]
    have hi1 : i < (s.buffer k).input.length := by omega
    refine ⟨(s.buffer k).input[i], List.getElem?_eq_getElem hi1, ?_⟩
    have hb : State.buffer { s with gain := F32.max zero (F32.min v two) } k = s.buffer k := rfl
    simp only [hb]
    have hlen : (List.map (fun x => mul x (neg (F32.max zero (F32.min v two))))
        (List.take s.bufferSize (s.buffer k).input)).length = s.bufferSize := by
      rw [List.length_map, List.length_take]; omega
    rw [List.getElem?_append_left (by rw [hlen]; exact hi), List.getElem?_map,
      List.getElem?_take_of_lt hi, List.getElem?_eq_getElem hi1]
    rfl
  · intro hstop
    exact bufferSwitchStatic_stopped _ _ hstop

/-- Instance of `C20_setGain_changes_gain_only_and_next_callback_uses_it` at
`demoState` with the argument `0.5`: the callback on slot 0 is defined and
writes `input[i] * -0.5`. -/
theorem C20_setGain_changes_gain_only_and_next_callback_uses_it_witness :
    ∃ s2, bufferSwitchStatic (SetInversionGain demoState [JsValue.number half]).1
          (0 : Fin 2).val = some s2 ∧
      ∀ i, i < demoState.bufferSize → ∃ x, (demoState.buffer 0).input[i]? = some x ∧
        (s2.buffer 0).output[i]? = some (mul x (neg (F32.max zero (F32.min half two)))) :=
  (C20_setGain_changes_gain_only_and_next_callback_uses_it demoState half [] 0).2.2.1
    (by decide) (by decide) (by decide)

/-- C21: for every state, a whole call of `GetInputLevel` and a whole call of
`GetFFTData`, executed step by step with the mutex free, return, release the
mutex and leave every static member as it was (both slots with their inputs,
outputs and ready flags, the active slot, the gain, the flag, `bufferSize`); no
single step of either function changes a static member; hence two calls in a
row return the same value. -/
theorem C21_reads_leave_the_state_unchanged (s : State) :
    callGetInputLevel s = some (⟨s, false⟩, GetInputLevel s) ∧
      callGetFFTData s = some (⟨s, false⟩, GetFFTData s) ∧
      (∀ (c c1 : Shared × LevelCall), levelCallStep c = some c1 → c1.1.state = c.1.state) ∧
      (∀ (c c1 : Shared × FFTCall), fftCallStep c = some c1 → c1.1.state = c.1.state) ∧
      (match callGetInputLevel s with
        | none => none
        | some r1 =>
          match callGetInputLevel r1.1.state with
          | none => none
          | some r2 => some (r2.1.state, r1.2, r2.2)) =
        some (s, GetInputLevel s, GetInputLevel s) ∧
      (match callGetFFTData s with
        | none => none
        | some r1 =>
          match callGetFFTData r1.1.state with
          | none => none
          | some r2 => some (r2.1.state, r1.2, r2.2)) =
        some (s, GetFFTData s, GetFFTData s) := by
  refine ⟨callGetInputLevel_eq s, callGetFFTData_eq s, ?_, ?_, ?_, ?_⟩
  · intro c c1 h
    obtain ⟨sh, t⟩ := c
    unfold levelCallStep at h
    simp only at h
    split at h
    · split at h <;> (rw [← Option.some.inj h])
    · split at h
      · exact absurd h (by simp)
      · rw [← Option.some.inj h]
    · split at h <;> (rw [← Option.some.inj h])
    · rw [← Option.some.inj h]
    · exact absurd h (by simp)
  · intro c c1 h
    obtain ⟨sh, t⟩ := c
    unfold fftCallStep at h
    simp only at h
    split at h
    · split at h <;> (rw [← Option.some.inj h])
    · split at h
      · exact absurd h (by simp)
      · rw [← Option.some.inj h]
    · split at h <;> (rw [← Option.some.inj h])
    · split at h
      · split at h
        · rw [← Option.some.inj h]
        · exact absurd h (by simp)
      · rw [← Option.some.inj h]
    · rw [← Option.some.inj h]
    · exact absurd h (by simp)
  · rw [callGetInputLevel_eq s]
    simp only
    rw [callGetInputLevel_eq s]
  · rw [callGetFFTData_eq s]
    simp only
    rw [callGetFFTData_eq s]

/-- C22: after a successful `Initialize` (from every state, for every answer of
the driver host), `bufferSize` is 1024 and the four vectors have 1024 elements;
`Start`, `Stop`, `SetInversionGain`, the callback, `GetInputLevel` and
`GetFFTData` keep `bufferSize` and the four sizes, from every state; hence after
every sequence of these calls that follows (callbacks for slot 0 or 1), no call
is undefined, `bufferSize` and the sizes are still 1024, and every index
`i < bufferSize` is within the input and the output of both slots. -/
theorem C22_frame_size_fixed_after_initialize (s : State) (host : DriverHost)
    (info : List DriverArg)
    (hok : ∃ d c1 c2 n, (Initialize s host info).2 = InitResult.ok d c1 c2 n) :
    (∃ d, (Initialize s host info).2 = InitResult.ok d 2 2 1024) ∧
      (Initialize s host info).1.bufferSize = 1024 ∧
      frameShape (Initialize s host info).1 = (1024, 1024, 1024, 1024, 1024) ∧
      (∀ s0 : State,
        (∀ args, frameShape (Start s0 args).1 = frameShape s0) ∧
        frameShape (Stop s0).1 = frameShape s0 ∧
        (∀ args, frameShape (SetInversionGain s0 args).1 = frameShape s0) ∧
        (∀ index s1, bufferSwitchStatic s0 index = some s1 → frameShape s1 = frameShape s0) ∧
        (∀ index b s1, callBufferSwitchStatic ⟨s0, b⟩ index = some s1 →
          frameShape s1.state = frameShape s0) ∧
        (∃ v, callGetInputLevel s0 = some (⟨s0, false⟩, v)) ∧
        (∃ v, callGetFFTData s0 = some (⟨s0, false⟩, v))) ∧
      (∀ calls : List Call, ∃ s1, runCalls (Initialize s host info).1 calls = some s1 ∧
        frameShape s1 = (1024, 1024, 1024, 1024, 1024) ∧
        ∀ (k : Fin 2) (i : Nat), i < s1.bufferSize →
          i < (s1.buffer k).input.length ∧ i < (s1.buffer k).output.length) := by
  obtain ⟨d, c1, c2, n, h⟩ := hok
  obtain ⟨h1, h2⟩ := Initialize_ok s host info d c1 c2 n h
  refine ⟨⟨d, h1⟩, (frameShape_bounds _ _ h2).1, h2, ?_, ?_⟩
  · intro s0
    refine ⟨fun _ => rfl, rfl, ?_, fun index s1 => bufferSwitchStatic_frameShape s0 s1 index, ?_,
      ⟨_, callGetInputLevel_eq s0⟩, ⟨_, callGetFFTData_eq s0⟩⟩
    · intro args
      exact Call.run_frameShape s0 _ (Call.setInversionGain args) rfl
    · intro index b s1 hs1
      rw [callBufferSwitchStatic_eq] at hs1
      cases hb : bufferSwitchStatic s0 index with
      | none => rw [hb] at hs1; exact absurd hs1 (by simp)
      | some s2 =>
        rw [hb] at hs1
        rw [← Option.some.inj hs1]
        exact bufferSwitchStatic_frameShape s0 s2 index hb
  · intro calls
    obtain ⟨s1, hs1, hshape⟩ := runCalls_frameShape 1024 calls _ h2
    refine ⟨s1, hs1, hshape, ?_⟩
    intro k i hi
    obtain ⟨h0, hk⟩ := frameShape_bounds s1 1024 hshape
    rw [(hk k).1, (hk k).2]
    omega

/-- Instance of `C22_frame_size_fixed_after_initialize`: `Initialize` with the
name of the simulated driver, from the initial state (all vectors empty). -/
theorem C22_frame_size_fixed_after_initialize_witness :
    (∃ d, (Initialize initialState noDriverHost [DriverArg.name "Simulation ASIO"]).2 =
        InitResult.ok d 2 2 1024) ∧
      (Initialize initialState noDriverHost [DriverArg.name "Simulation ASIO"]).1.bufferSize
        = 1024 :=
  have h := C22_frame_size_fixed_after_initialize initialState noDriverHost
    [DriverArg.name "Simulation ASIO"] ⟨_, _, _, _, rfl⟩
  ⟨h.1, h.2.1⟩

/-- C23 (failing input): no step of `bufferSwitchStatic` tests or takes the
mutex.  In the schedule `raceSchedule` from `raceState`, the callback for slot 1
assigns `currentBuffer` while `GetInputLevel` holds the mutex and has read
sample 0 of slot 0; `GetInputLevel` then reads sample 1 of slot 1 and returns
the level of the frame `0.5, 0`, which is the level of neither slot. -/
theorem C23_callback_writes_while_the_mutex_is_held :
    (∀ (sh : Shared) (t : SwitchCall) (b : Bool),
        switchCallStep ({ sh with locked := b }, t) =
          (switchCallStep (sh, t)).map (fun c => ({ c.1 with locked := b }, c.2))) ∧
      (∃ c, interleave (⟨raceState, false⟩, SwitchCall.start 1, LevelCall.start)
            (raceSchedule.take 3) = some c ∧
          c.1.locked = true ∧ c.1.state.currentBuffer = 0 ∧ c.2.2.pc = LevelPc.loop ∧
          c.2.2.i = 1) ∧
      (∃ c, interleave (⟨raceState, false⟩, SwitchCall.start 1, LevelCall.start)
            (raceSchedule.take 4) = some c ∧
          c.1.locked = true ∧ c.1.state.currentBuffer = 1 ∧ c.2.2.pc = LevelPc.loop ∧
          c.2.2.i = 1) ∧
      (∃ c, interleave (⟨raceState, false⟩, SwitchCall.start 1, LevelCall.start)
            raceSchedule = some c ∧
          c.2.1.pc = SwitchPc.returned ∧ c.2.2.pc = LevelPc.returned ∧
          c.2.2.result = inputLevel [half, zero] ∧
          c.2.2.result ≠ inputLevel raceState.buffers0.input ∧
          c.2.2.result ≠ inputLevel raceState.buffers1.input) := by
  refine ⟨?_, ⟨_, rfl, rfl, rfl, rfl, rfl⟩, ⟨_, rfl, rfl, rfl, rfl, rfl⟩, ?_⟩
  · intro sh t b
    obtain ⟨pc, index, i⟩ := t
    cases pc
    · simp only [switchCallStep]
      split
      · split <;> rfl
      · rfl
    · simp only [switchCallStep]
      split
      · split
        · rfl
        · split <;> rfl
      · rfl
    · rfl
  · refine ⟨_, rfl, rfl, rfl, ?_, ?_, ?_⟩
    · decide!
    · decide!
    · decide!

/-- C24 (counterexample): in the running frame of 32 finite samples
`2^-74, 2^-74, 0, ..., 0` (one sample for each band), bands 0 and 1 have the same
nonzero mean square `2^-148`, and `GetFFTData` reports `100` for both: the value
of band 0 is not strictly larger than the value of band 1. -/
theorem C24_faint_bands_get_equal_values :
    tinyState.processing = true ∧
      (∀ v ∈ tinyState.current.input, isFinite v = true ∧ isBinary32 v = true) ∧
      bandMean tinyState.current.input 0 = fin false 2 ∧
      bandMean tinyState.current.input 1 = fin false 2 ∧
      (GetFFTData tinyState)[0]? = some hundred ∧
      (GetFFTData tinyState)[1]? = some hundred ∧
      lt hundred hundred = false := by
  refine ⟨rfl, by decide!, by decide!, by decide!, ?_, ?_, by decide⟩
  · rw [GetFFTData_running tinyState rfl]
    unfold fftData maxEnergy bandEnergies bandEnergy sumSquares frequencyWeight F32.sub hundred
    rw [ofNat_eq_fast, mul_eq_fast, add_eq_fast, div_eq_fast, sqrt_eq_fast]
    decide!
  · rw [GetFFTData_running tinyState rfl]
    unfold fftData maxEnergy bandEnergies bandEnergy sumSquares frequencyWeight F32.sub hundred
    rw [ofNat_eq_fast, mul_eq_fast, add_eq_fast, div_eq_fast, sqrt_eq_fast]
    decide!

/-- C24 (amended): the weight of band `b` is the float `(64 - b) / 64`, that is
`1 - 0.5 * b / 32` exactly; it is strictly decreasing in `b`, with
`0.5 < w(b) <= 1`, `w(0) = 1` and `w(31) = 0.515625`.  When running on a frame of
fewer than `2^29` samples, all of magnitude at most `1`, in which two bands
`i < j` have the same mean square, at least `2^-100`, `GetFFTData` reports a
strictly larger value for band `i` than for band `j`. -/
theorem C24_weights_decrease_and_order_equal_means (s : State) (i j : Nat)
    (hrun : s.processing = true) (hN : s.current.input.length < 2 ^ 29)
    (hnorm : ∀ v ∈ s.current.input, le (F32.abs v) one = true)
    (hij : i < j) (hj : j < 32)
    (hmean : bandMean s.current.input i = bandMean s.current.input j)
    (hbig : le c2m100 (bandMean s.current.input i) = true) :
    ((∀ b, b < 32 → frequencyWeight b = fin false ((64 - b) * 2 ^ 143) ∧
        lt half (frequencyWeight b) = true ∧ le (frequencyWeight b) one = true) ∧
      (∀ a b, a < b → b < 32 → lt (frequencyWeight b) (frequencyWeight a) = true) ∧
      frequencyWeight 0 = one ∧ frequencyWeight 31 = fin false (33 * 2 ^ 143)) ∧
      ∃ vi vj, (GetFFTData s)[i]? = some vi ∧ (GetFFTData s)[j]? = some vj ∧
        lt vj vi = true := by
  refine ⟨frequencyWeight_props, ?_⟩
  rw [GetFFTData_running s hrun]
  exact fftData_equal_means _ hN hnorm hij hj hmean hbig

/-- Instance of `C24_weights_decrease_and_order_equal_means` at the frame of 32
samples `0.5` followed by 32 samples `1.0`, bands 0 and 1 (mean square `0.25`). -/
theorem C24_weights_decrease_and_order_equal_means_witness :
    ∃ vi vj, (GetFFTData toneState)[0]? = some vi ∧ (GetFFTData toneState)[1]? = some vj ∧
      lt vj vi = true :=
  (C24_weights_decrease_and_order_equal_means toneState 0 1 rfl (by decide) (by decide!)
    (by decide) (by decide) (by decide!) (by decide!)).2

/-- C25 (counterexample): in the running frame of 32 finite samples
`2^-75, 0, ..., 0` the first sample is not zero, yet its square rounds to zero
and `GetFFTData` returns 32 zeros: no band is reported as `100`. -/
theorem C25_faint_sample_gives_all_zero :
    faintState.processing = true ∧ faintState.current.input.length = 32 ∧
      (∀ v ∈ faintState.current.input, isFinite v = true ∧ isBinary32 v = true) ∧
      faintState.current.input[0]? = some c2m75 ∧ F32.eq c2m75 zero = false ∧
      GetFFTData faintState = List.replicate 32 zero := by
  refine ⟨rfl, by decide, by decide!, rfl, by decide!, ?_⟩
  rw [GetFFTData_running faintState rfl]
  unfold fftData maxEnergy bandEnergies bandEnergy sumSquares frequencyWeight F32.sub hundred
  rw [ofNat_eq_fast, mul_eq_fast, add_eq_fast, div_eq_fast, sqrt_eq_fast]
  decide!

/-- C25 (amended): when running on a frame of `N < 2^29` samples, all of
magnitude at most `1`, `GetFFTData` returns 32 values within `[0, 100]` that are
either all `0` or include a value exactly `100` (the maximum is then `100`); if
at least one of the first `32 * floor (N / 32)` samples has a magnitude of at
least `2^-60`, some band is exactly `100`; if all of those samples are zero, all
32 values are `0`. -/
theorem C25_bands_all_zero_or_maximum_100 (s : State) (hrun : s.processing = true)
    (hN : s.current.input.length < 2 ^ 29)
    (hnorm : ∀ v ∈ s.current.input, le (F32.abs v) one = true) :
    ((GetFFTData s).length = 32 ∧
        ∀ v ∈ GetFFTData s, le zero v = true ∧ le v hundred = true) ∧
      (GetFFTData s = List.replicate 32 zero ∨
        ∃ b, b < 32 ∧ (GetFFTData s)[b]? = some hundred) ∧
      ((∃ idx v, idx < 32 * (s.current.input.length / 32) ∧
          s.current.input[idx]? = some v ∧ le c2m60 (F32.abs v) = true) →
        ∃ b, b < 32 ∧ (GetFFTData s)[b]? = some hundred) ∧
      ((∀ idx v, idx < 32 * (s.current.input.length / 32) →
          s.current.input[idx]? = some v → F32.eq v zero = true) →
        GetFFTData s = List.replicate 32 zero) := by
  rw [GetFFTData_running s hrun]
  obtain ⟨h1, h2, h3⟩ := fftData_normalised _ hN hnorm
  exact ⟨h1, h2, h3, fftData_of_zero_prefix _⟩

/-- Instance of `C25_bands_all_zero_or_maximum_100` at the frame of 32 samples
`0.5` followed by 32 samples `1.0`: some band is exactly `100`. -/
theorem C25_bands_all_zero_or_maximum_100_witness :
    ∃ b, b < 32 ∧ (GetFFTData toneState)[b]? = some hundred :=
  (C25_bands_all_zero_or_maximum_100 toneState rfl (by decide) (by decide!)).2.2.1
    ⟨0, half, by decide, rfl, by decide!⟩

/-- C26 (counterexample): the result changes with the factor `3` and with the
factor `2^-75`.  For the frame `1.0, 0.5 + 3 * 2^-23, 0, ..., 0` the products by
`3` are exact, and `GetFFTData` returns different values for the frame and for
its product by `3`.  For the frame of 32 samples `1.0`, band 0 is reported as
`100`, whereas the product of the frame by `2^-75` gives 32 zeros. -/
theorem C26_factor_3_and_underflow_change_the_result :
    (∀ v ∈ roundingFrame, isFinite v = true ∧ isBinary32 v = true) ∧
      roundingFrame.map (mul three) =
        fin false (3 * 2 ^ 149) :: fin false (3 * (2 ^ 22 + 3) * 2 ^ 126)
          :: List.replicate 30 zero ∧
      fftData (roundingFrame.map (mul three)) ≠ fftData roundingFrame ∧
      onesFrame.map (mul c2m75) = List.replicate 32 c2m75 ∧
      (fftData onesFrame)[0]? = some hundred ∧
      fftData (onesFrame.map (mul c2m75)) = List.replicate 32 zero := by
  refine ⟨by decide!, by decide!, ?_, by decide!, ?_, ?_⟩
  · unfold fftData maxEnergy bandEnergies bandEnergy sumSquares frequencyWeight F32.sub hundred
    rw [ofNat_eq_fast, mul_eq_fast, add_eq_fast, div_eq_fast, sqrt_eq_fast]
    decide!
  · unfold fftData maxEnergy bandEnergies bandEnergy sumSquares frequencyWeight F32.sub hundred
    rw [ofNat_eq_fast, mul_eq_fast, add_eq_fast, div_eq_fast, sqrt_eq_fast]
    decide!
  · unfold fftData maxEnergy bandEnergies bandEnergy sumSquares frequencyWeight F32.sub hundred
    rw [ofNat_eq_fast, mul_eq_fast, add_eq_fast, div_eq_fast, sqrt_eq_fast]
    decide!

/-- C26 (amended): `GetFFTData` does not depend on the gain.  When running on a
frame `x` of fewer than `2^29` float samples, for every factor
`c = (-1)^flip * 2^k` such that every sample of `x` is zero or of magnitude at
least `2^-40` and every sample of `c * x` has magnitude at most `2^40`, the
products `c * x` are exact and `GetFFTData` returns for the frame `c * x` the
same 32 values as for `x`; for `k <= 149` the frame `x` is in turn the exact
product of `c * x` by `1 / c`.  `GetInputLevel` is not scale invariant: the frame
`0.5` gives about `70.7` and its product by `2` gives `100`. -/
theorem C26_bands_invariant_under_power_of_two_scaling (s s2 : State) (flip : Bool) (k : Nat)
    (hrun : s.processing = true) (hN : s.current.input.length < 2 ^ 29)
    (hrange : ∀ v ∈ s.current.input, isBinary32 v = true ∧ inScaleRange k v = true)
    (hrun2 : s2.processing = true)
    (hscaled : s2.current.input = s.current.input.map (mul (twoPow flip k))) :
    (∀ g1 g2 : F32, GetFFTData { s with gain := g1 } = GetFFTData { s with gain := g2 }) ∧
      s.current.input.map (mul (twoPow flip k)) = s.current.input.map (scaleBy flip k) ∧
      GetFFTData s2 = GetFFTData s ∧
      (k ≤ 149 → s2.current.input.map (mul (F32.fin flip (2 ^ (149 - k)))) = s.current.input) ∧
      inputLevel ([half].map (mul (twoPow false 1))) ≠ inputLevel [half] := by
  have hmap : s.current.input.map (mul (twoPow flip k)) =
      s.current.input.map (scaleBy flip k) :=
    List.map_congr_left (fun v hv => mul_twoPow flip k (hrange v hv).1 (hrange v hv).2)
  refine ⟨fun _ _ => rfl, hmap, ?_, ?_, by decide!⟩
  · rw [GetFFTData_running s hrun, GetFFTData_running s2 hrun2, hscaled, hmap]
    exact fftData_scaled flip k _ hN (fun v hv => inScaleRange_spec (hrange v hv).2)
  · intro hk
    rw [hscaled, hmap, List.map_map]
    conv_rhs => rw [← List.map_id s.current.input]
    exact List.map_congr_left
      (fun v hv => mul_twoPow_inv flip hk (hrange v hv).1 (hrange v hv).2)

/-- Instance of `C26_bands_invariant_under_power_of_two_scaling`: the frame of 32
samples `0.5` followed by 32 samples `1.0` and its product by `-4`. -/
theorem C26_bands_invariant_under_power_of_two_scaling_witness :
    GetFFTData { toneState with
        buffers0 := { toneState.buffers0 with
          input := toneState.current.input.map (mul (twoPow true 2)) } } =
      GetFFTData toneState :=
  (C26_bands_invariant_under_power_of_two_scaling toneState
    { toneState with
        buffers0 := { toneState.buffers0 with
          input := toneState.current.input.map (mul (twoPow true 2)) } }
    true 2 rfl (by decide) (by decide!) rfl rfl).2.2.1

/-- C27: for every state and every argument list, `SetInversionGain` throws the
`TypeError` (and returns null) exactly when `info.Length() < 1` or `info[0]` is
not a number; in that case every static member, the gain included, is as
before; in every other case the result is the object `{success: true, gain}`
and only the gain is assigned. -/
theorem C27_setGain_fails_iff_no_numeric_argument (s : State) (info : List JsValue) :
    ((SetInversionGain s info).2 = GainResult.typeError ↔
        (info.length < 1 ∨ ∃ v, info[0]? = some v ∧ v.isNumber = false)) ∧
      ((SetInversionGain s info).2 = GainResult.typeError → (SetInversionGain s info).1 = s) ∧
      ((SetInversionGain s info).2 ≠ GainResult.typeError →
        ∃ g, (SetInversionGain s info).2 = GainResult.ok true g ∧
          (SetInversionGain s info).1 = { s with gain := g } ∧
          ∃ v, info[0]? = some (JsValue.number v) ∧ g = F32.max zero (F32.min v two)) := by
  cases info with
  | nil =>
    refine ⟨⟨fun _ => Or.inl (by simp), fun _ => rfl⟩, fun _ => rfl, fun h => absurd rfl h⟩
  | cons a rest =>
    cases a with
    | number v =>
      refine ⟨⟨fun h => ?_, fun h => ?_⟩, fun h => ?_, fun _ => ⟨_, rfl, rfl, v, List.getElem?_cons_zero, rfl⟩⟩
      · exact absurd h (by simp [SetInversionGain])
      · rcases h with h | ⟨w, hw, hn⟩
        · simp at h
        · simp only [List.getElem?_cons_zero, Option.some.injEq] at hw
          subst hw
          exact absurd hn (by simp [JsValue.isNumber])
      · exact absurd h (by simp [SetInversionGain])
    | other =>
      refine ⟨⟨fun _ => Or.inr ⟨JsValue.other, List.getElem?_cons_zero, rfl⟩, fun _ => rfl⟩, fun _ => rfl,
        fun h => absurd rfl h⟩
